import Mathlib

/-!
Battle server (`src/battle.c`): shallow embedding and verified properties.

The server keeps a singly linked list of `struct client` records (the registry).
Every handler of the C program is embedded as a pure function on that list.

Conventions of the embedding
* A `struct client *` is the number `addr` of the record it points to; `NULL` is
  `none`.  The registry is the list of live records, head first; `deref` follows a
  pointer, and following a pointer to a record that has been freed is undefined
  behaviour, rendered as the result `none` of the handler.
* `int` flags that the program only ever assigns 0 or 1 and only tests for truth are
  `Bool`; the remaining `int` fields and `time_t` are `Int`.  `difftime` of two clock
  readings is their difference; its conversion `(int)` and the subtraction from
  `time_left` in `int` are undefined outside the range of a 32-bit `int`, rendered as
  the result `none`.
* A byte is a `Nat`; `name` is the C string held in `char name[20]` (its bytes before
  the terminating NUL), `message` is the whole array `char message[21]`.
* `rand()` and `time(NULL)` are read from an `Oracle`: the k-th call made by a handler
  returns `rand k`, respectively `time k`.
* Every `write` is recorded as a pair of the descriptor and a `Msg`; `Msg.text` is the
  exact text.  Output to the server console (`printf`, `perror`) is not recorded.
-/

namespace Battle

/-- The constant MAX_NAME_LEN. -/
def MAX_NAME_LEN : Nat := 20

/-- The constant MAX_MESSAGE_LEN. -/
def MAX_MESSAGE_LEN : Nat := 20

/-- The record `struct client`; the field `next` is the tail of the registry list and
`ipaddr` is only printed on the server console. -/
structure Client where
  addr : Nat
  fd : Int
  name : List Nat
  in_game : Bool
  last_opponent : Option Nat
  hitpoints : Int
  powermoves : Int
  is_turn : Bool
  name_entered : Bool
  is_messaging : Bool
  message : List Nat
  message_length : Int
  start_time : Int
  time_left : Int
deriving DecidableEq, Repr

/-- The texts the server writes to its clients, one constructor per format string. -/
inductive Msg where
  | welcome
  | times_up_opponent (name : List Nat)
  | times_up_self
  | status (hitpoints powermoves opp_hitpoints : Int)
  | too_long_not_sent
  | says (name message : List Nat)
  | said_nothing
  | too_long_warning
  | remaining_time (seconds : Int)
  | speak
  | no_power_moves
  | you_attacked (name : List Nat) (damage : Int)
  | attacked_you (name : List Nat) (damage : Int)
  | your_power_move_missed
  | power_move_missed (name : List Nat)
  | you_defeated (name : List Nat)
  | defeated_you (name : List Nat)
  | entered_arena (name : List Nat)
  | awaiting
  | your_turn (hitpoints powermoves : Int) (name : List Nat) (opp_hitpoints : Int)
  | waiting_for (name : List Nat)
  | name_empty
  | name_taken
  | match_started
  | matched (name : List Nat) (first : Bool)
  | dropped (name : List Nat)
  | left_arena (name : List Nat)
deriving DecidableEq, Repr

/-- A C string as text. -/
def cstring (bytes : List Nat) : String := String.mk (bytes.map Char.ofNat)

/-- The bytes a `%s` conversion prints from a char array: those before the first NUL. -/
def cstr (bytes : List Nat) : List Nat := bytes.takeWhile (fun b => b != 0)

/-- The exact bytes written for each message (the format strings of battle.c; three
writes pass a length shorter than their literal and so drop its last character). -/
def Msg.text : Msg → String
  | .welcome => "Welcome! Please enter your name: "
  | .times_up_opponent n =>
      "\nTime's up! " ++ cstring n ++
        " didn't make a move in time. 0 damage dealt. It's now your turn.\n"
  | .times_up_self => "\nTime's up! You didnt attack. Wait till your turn.\n"
  | .status hp pm ohp =>
      "\n\nYour hitpoints: " ++ toString hp ++ "\nYour powermoves: " ++ toString pm ++
        "\nOpponent's hitpoints: " ++ toString ohp ++
        "\n\n(a)ttack\n(p)owermove\n(s)peak\n(t)ime left\n\n"
  | .too_long_not_sent => "Message too long! Not sent.\n"
  | .says n m => cstring n ++ " says: " ++ cstring m ++ "\n"
  | .said_nothing => "\nYou didn't say anything."
  | .too_long_warning => "\nMessage too long! Finish and hit enter.\n"
  | .remaining_time s => "\nRemaining time: " ++ toString s ++ " seconds.\n"
  | .speak => "\nSpeak (max 20 chars):"
  | .no_power_moves => "No more power moves left!\n"
  | .you_attacked n d => "\nYou attacked " ++ cstring n ++ " for " ++ toString d ++ " damage.\n"
  | .attacked_you n d => cstring n ++ " attacked you for " ++ toString d ++ " damage.\n"
  | .your_power_move_missed => "Your power move missed!\n"
  | .power_move_missed n => cstring n ++ "'s power move missed!\n"
  | .you_defeated n => "You defeated " ++ cstring n ++ "! Congratulations!\n"
  | .defeated_you n => cstring n ++ " defeated you. Better luck next time!\n"
  | .entered_arena n => cstring n ++ " has entered the arena.\n"
  | .awaiting => "You are awaiting an opponent...\n"
  | .your_turn hp pm n ohp =>
      "\nIt's your turn\n\nYour hitpoints: " ++ toString hp ++ "\nYour powermoves: " ++
        toString pm ++ "\n\n" ++ cstring n ++ "'s hitpoints: " ++ toString ohp ++
        "\n\n(a)ttack\n(p)owermove\n(s)peak\n(t)ime left\n\n"
  | .waiting_for n => "Waiting for " ++ cstring n ++ " to make a move...\n"
  | .name_empty => "Name cannot be empty, please enter your name: "
  | .name_taken => "Name already taken, please enter a different name: "
  | .match_started =>
      "Match started! Remember during your turn you have 30 seconds to attack.\n"
  | .matched n true =>
      "You are matched with " ++ cstring n ++ "! Let the battle begin!\nYou go first.\n"
  | .matched n false =>
      "You are matched with " ++ cstring n ++ "! Let the battle begin!\nYou go second.\n"
  | .dropped n =>
      cstring n ++
        " has dropped. You Won! You are back in the arena waiting for a new opponent.\n"
  | .left_arena n => cstring n ++ " has left the arena.\n"

/-- One call of `write`: the descriptor and what was written. -/
abbrev Write := Int × Msg

/-- The results of the successive calls of `rand()` and of `time(NULL)`. -/
structure Oracle where
  rand : Nat → Nat
  time : Nat → Int

/-- The oracle after `r` calls of `rand()` and `t` calls of `time(NULL)`. -/
def Oracle.skip (o : Oracle) (r t : Nat) : Oracle :=
  ⟨fun i => o.rand (i + r), fun i => o.time (i + t)⟩

/-- Follow a pointer: the live record at address `a`, if there is one. -/
def deref (top : List Client) (a : Nat) : Option Client :=
  top.find? (fun c => c.addr == a)

/-- Assign through a pointer: apply `f` to the record at address `a`. -/
def assign (top : List Client) (a : Nat) (f : Client → Client) : List Client :=
  top.map (fun c => if c.addr = a then f c else c)

/-- The function `addclient`: the new record has the indeterminate contents `junk` of
fresh heap memory in the fields the function does not set; it is linked at the end
unless the welcome write fails. -/
def addclient (top : List Client) (fd : Int) (addr : Nat) (junk : Client)
    (welcome_ok : Bool) : List Client × List Write :=
  let newclient : Client :=
    { junk with
      addr := addr
      is_messaging := false
      message := junk.message.set 0 0
      message_length := 0
      name_entered := false
      fd := fd
      in_game := false
      last_opponent := none
      name := [] }
  if welcome_ok then (top ++ [newclient], [(fd, Msg.welcome)]) else (top, [])

/-- The function `removeclient`: unlink the first record with descriptor `fd`. -/
def removeclient : List Client → Int → List Client
  | [], _ => []
  | p :: rest, fd => if p.fd = fd then rest else p :: removeclient rest fd

/-- The function `broadcast`: one write per record with a descriptor and a confirmed name. -/
def broadcast : List Client → Msg → List Write
  | [], _ => []
  | p :: rest, s =>
    if 0 ≤ p.fd ∧ p.name_entered = true then (p.fd, s) :: broadcast rest s
    else broadcast rest s

/-- The function `matchmaker`: the scan of the registry for an opponent of `matchmake`. -/
def matchmaker : List Client → Client → Option Client
  | [], _ => none
  | cur :: rest, matchmake =>
    if cur.addr ≠ matchmake.addr ∧ cur.in_game = false ∧ cur.name_entered = true then
      if matchmake.last_opponent ≠ some cur.addr ∧ cur.last_opponent ≠ some matchmake.addr then
        some cur
      else matchmaker rest matchmake
    else matchmaker rest matchmake

/-- The function `init_battle`: two calls of `rand()`. -/
def init_battle (p : Client) (o : Oracle) : Client :=
  { p with hitpoints := (o.rand 0 % 11 : Nat) + 20, powermoves := (o.rand 1 % 3 : Nat) + 1 }

/-- The function `switch_turn`: the status prompt written to `p`. -/
def switch_turn (p opponent : Client) : Write :=
  (p.fd, Msg.status p.hitpoints p.powermoves opponent.hitpoints)

/-- The assignments `start_match` makes to one of its two records: `init_battle`, the
game flag, the opponent pointer and, by the coin, either the turn with a fresh
deadline or no turn. -/
def begin_battle (c : Client) (other : Nat) (o : Oracle) (turn : Bool) : Client :=
  if turn then
    { init_battle c o with
      in_game := true, last_opponent := some other, start_time := o.time 0,
      time_left := 30, is_turn := true }
  else
    { init_battle c o with in_game := true, last_opponent := some other, is_turn := false }

/-- The function `start_match` on the records at `p` and `opponent`: five calls of
`rand()` (the last is the coin for the first turn) and one of `time(NULL)`. -/
def start_match (p opponent : Nat) (top : List Client) (o : Oracle) :
    Option (List Client × List Write × Oracle) :=
  let first : Bool := o.rand 4 % 2 == 0
  let top1 := assign top p (fun c => begin_battle c opponent o first)
  let top2 := assign top1 opponent (fun c => begin_battle c p (o.skip 2 0) (!first))
  match deref top2 p, deref top2 opponent with
  | some pc, some oc =>
    some (top2,
      [(pc.fd, Msg.match_started), (oc.fd, Msg.match_started),
       (pc.fd, Msg.matched oc.name first), (oc.fd, Msg.matched pc.name (!first)),
       switch_turn pc oc, switch_turn oc pc],
      o.skip 5 1)
  | _, _ => none

/-- The rematch attempt made for a freed player at the end of a battle:
`matchmaker` and then `start_match` or the waiting notice. -/
def rematch (x : Nat) (top : List Client) (o : Oracle) :
    Option (List Client × List Write × Oracle) :=
  match deref top x with
  | none => none
  | some xc =>
    match matchmaker top xc with
    | some n => start_match x n.addr top o
    | none => some (top, [(xc.fd, Msg.awaiting)], o)

/-- The end of a battle by defeat (both defeat branches of `handleclient`): the two
notices, both records leave the game and point at each other, the two arena
broadcasts, the rematch attempt for `p` and then for its opponent, and both names
marked as entered.  `p_won` tells which branch is taken. -/
def end_battle (p opponent : Nat) (top : List Client) (p_won : Bool) (o : Oracle) :
    Option (List Client × List Write) :=
  match deref top p, deref top opponent with
  | some pc, some oc =>
    let notices : List Write :=
      if p_won then [(pc.fd, Msg.you_defeated oc.name), (oc.fd, Msg.defeated_you pc.name)]
      else [(pc.fd, Msg.defeated_you oc.name), (oc.fd, Msg.you_defeated pc.name)]
    let top1 := assign top p (fun c => { c with in_game := false })
    let top2 := assign top1 opponent (fun c => { c with in_game := false })
    let top3 := assign top2 p (fun c => { c with last_opponent := some opponent })
    let top4 := assign top3 opponent (fun c => { c with last_opponent := some p })
    let arena : List Write :=
      if p_won then
        broadcast top4 (Msg.entered_arena oc.name) ++ broadcast top4 (Msg.entered_arena pc.name)
      else
        broadcast top4 (Msg.entered_arena pc.name) ++ broadcast top4 (Msg.entered_arena oc.name)
    match rematch p top4 o with
    | none => none
    | some (top5, w5, o5) =>
      match rematch opponent top5 o5 with
      | none => none
      | some (top6, w6, _) =>
        let top7 := assign top6 p (fun c => { c with name_entered := true })
        let top8 := assign top7 opponent (fun c => { c with name_entered := true })
        some (top8, notices ++ arena ++ w5 ++ w6)
  | _, _ => none

/-- The damage of an accepted move and the number of `rand()` calls it makes: byte
`a` draws once; a power move draws once for hit or miss and once more on a hit. -/
def attack_damage (b : Nat) (o : Oracle) : Int × Nat :=
  if b = 97 then (((o.rand 0 % 5 : Nat) : Int) + 2, 1)
  else if o.rand 0 % 2 = 0 then ((((o.rand 1 % 5 : Nat) : Int) + 2) * 3, 2)
  else (0, 1)

/-- The attack part of `handleclient`: the move of the turn holder `pc` against the
record its `last_opponent` points to. -/
def attack (pc : Client) (top : List Client) (b : Nat) (o : Oracle) :
    Option (Int × List Client × List Write) :=
  if b ≠ 97 ∧ b = 112 ∧ pc.powermoves = 0 then some (0, top, [(pc.fd, Msg.no_power_moves)])
  else
    let damage := (attack_damage b o).1
    let o1 := o.skip (attack_damage b o).2 1
    let top1 := if b = 97 then top else assign top pc.addr (fun c => { c with powermoves := c.powermoves - 1 })
    match pc.last_opponent with
    | none => none
    | some oa =>
      match deref top1 oa with
      | none => none
      | some oc =>
        let top2 := assign top1 oa (fun c => { c with hitpoints := c.hitpoints - damage })
        let w1 : List Write :=
          [(pc.fd, Msg.you_attacked oc.name damage), (oc.fd, Msg.attacked_you pc.name damage)]
        let w2 : List Write :=
          if b = 112 ∧ damage = 0 then
            [(pc.fd, Msg.your_power_move_missed), (oc.fd, Msg.power_move_missed pc.name)]
          else []
        match deref top2 pc.addr, deref top2 oa with
        | some p2, some o2 =>
          if o2.hitpoints ≤ 0 ∧ o2.in_game = true then
            match end_battle pc.addr oa top2 true o1 with
            | none => none
            | some (top3, w3) => some (0, top3, w1 ++ w2 ++ w3)
          else if p2.hitpoints ≤ 0 ∧ p2.in_game = true then
            match end_battle pc.addr oa top2 false o1 with
            | none => none
            | some (top3, w3) => some (0, top3, w1 ++ w2 ++ w3)
          else
            let top3 := assign top2 pc.addr (fun c => { c with is_turn := false })
            let top4 := assign top3 oa (fun c => { c with is_turn := true })
            let top5 := assign top4 oa (fun c => { c with start_time := o.time 1, time_left := 30 })
            some (0, top5, w1 ++ w2 ++
              [(o2.fd, Msg.your_turn o2.hitpoints o2.powermoves p2.name p2.hitpoints),
               (p2.fd, Msg.waiting_for o2.name)])
        | _, _ => none

/-- The chat part of `handleclient`: a byte received while `is_messaging` is set. -/
def chat_byte (pc : Client) (top : List Client) (b : Nat) :
    Option (Int × List Client × List Write) :=
  if b = 10 then
    match pc.last_opponent.bind (deref top) with
    | none => none
    | some oc =>
      let w1 : List Write :=
        if (MAX_MESSAGE_LEN : Int) < pc.message_length then [(pc.fd, Msg.too_long_not_sent)]
        else if 0 < pc.message_length then [(oc.fd, Msg.says pc.name (cstr pc.message))]
        else [(pc.fd, Msg.said_nothing)]
      let top1 := assign top pc.addr (fun c =>
        { c with is_messaging := false, message := List.replicate (MAX_MESSAGE_LEN + 1) 0,
                 message_length := 0 })
      match deref top1 pc.addr, pc.last_opponent.bind (deref top1) with
      | some p1, some o1 => some (0, top1, w1 ++ [switch_turn p1 o1])
      | _, _ => none
  else if b ≠ 13 then
    if pc.message_length < (MAX_MESSAGE_LEN : Int) then
      if pc.message_length < 0 then none
      else
        some (0, assign top pc.addr (fun c =>
          { c with message := c.message.set c.message_length.toNat b,
                   message_length := c.message_length + 1 }), [])
    else if pc.message_length = (MAX_MESSAGE_LEN : Int) then
      some (0, assign top pc.addr (fun c => { c with message_length := c.message_length + 1 }),
        [(pc.fd, Msg.too_long_warning)])
    else some (0, top, [])
  else some (0, top, [])

/-- The forced turn switch of `handleclient` when the turn holder is past its deadline. -/
def timeout_switch (pc : Client) (top : List Client) (now : Int) :
    Option (Int × List Client × List Write) :=
  match pc.last_opponent with
  | none => some (0, top, [])
  | some oa =>
    match deref top oa with
    | none => none
    | some oc =>
      let top1 := assign top pc.addr (fun c => { c with is_turn := false })
      let top2 := assign top1 oa (fun c =>
        { c with is_turn := true, time_left := 30, start_time := now })
      let top3 := assign top2 pc.addr (fun c => { c with time_left := 30, start_time := now })
      match deref top3 pc.addr, deref top3 oa with
      | some p3, some o3 =>
        some (0, top3,
          [(oc.fd, Msg.times_up_opponent pc.name), (pc.fd, Msg.times_up_self),
           switch_turn o3 p3])
      | _, _ => none

/-- The constant INT_MIN of a 32-bit `int`. -/
def INT_MIN : Int := -2147483648

/-- The constant INT_MAX of a 32-bit `int`. -/
def INT_MAX : Int := 2147483647

/-- The value `x` is one of a 32-bit `int`. -/
def in_int (x : Int) : Bool := decide (INT_MIN ≤ x) && decide (x ≤ INT_MAX)

/-- The variable `remaining_time` of the `t` command:
`time_left - (int)difftime(now, start_time)`, then 0 if that is negative.  The
conversion of the difference to `int` and the subtraction in `int` are undefined when
the value is outside the range of `int`. -/
def remaining_time (time_left start_time now : Int) : Option Int :=
  if in_int (now - start_time) = true then
    if in_int (time_left - (now - start_time)) = true then
      some (if time_left - (now - start_time) < 0 then 0
        else time_left - (now - start_time))
    else none
  else none

/-- The commands of `handleclient` for the turn holder: the chat sub-mode, then the
bytes `t`, `s`, `a` and `p`; every other byte is ignored. -/
def command_byte (pc : Client) (top : List Client) (b : Nat) (o : Oracle) :
    Option (Int × List Client × List Write) :=
  if pc.is_messaging = true then chat_byte pc top b
  else if b = 116 then
    if pc.is_turn = true then
      match remaining_time pc.time_left pc.start_time (o.time 1) with
      | none => none
      | some remaining => some (0, top, [(pc.fd, Msg.remaining_time remaining)])
    else
      match pc.last_opponent.bind (deref top) with
      | none => none
      | some oc =>
        if oc.is_turn = true then
          match remaining_time oc.time_left oc.start_time (o.time 1) with
          | none => none
          | some remaining => some (0, top, [(pc.fd, Msg.remaining_time remaining)])
        else some (0, top, [(pc.fd, Msg.remaining_time 30)])
  else if b = 115 ∧ pc.is_messaging = false then
    some (0, assign top pc.addr (fun c =>
      { c with is_messaging := true, message_length := 0,
               message := List.replicate (MAX_MESSAGE_LEN + 1) 0 }),
      [(pc.fd, Msg.speak)])
  else if (b = 97 ∨ (b = 112 ∧ 0 < pc.powermoves)) ∧ pc.is_messaging = false then
    attack pc top b o
  else some (0, top, [])

/-- The branch of `handleclient` for a record with `in_game` set: nothing for a record
without the turn, then the deadline check, then the commands. -/
def battle_byte (pc : Client) (top : List Client) (b : Nat) (o : Oracle) :
    Option (Int × List Client × List Write) :=
  if pc.is_turn = false then some (0, top, [])
  else
    let now := o.time 0
    if pc.is_turn = true ∧ pc.in_game = true then
      if pc.time_left ≤ now - pc.start_time then timeout_switch pc top now
      else command_byte pc top b o
    else if pc.is_turn = false then
      match pc.last_opponent.bind (deref top) with
      | none => none
      | some oc =>
        if oc.time_left ≤ now - oc.start_time then
          let top1 := assign top pc.addr (fun c => { c with is_turn := true })
          let top2 := assign top1 oc.addr (fun c =>
            { c with is_turn := false, time_left := 30, start_time := now })
          let top3 := assign top2 pc.addr (fun c =>
            { c with time_left := 30, start_time := now })
          match deref top3 pc.addr, deref top3 oc.addr with
          | some p3, some o3 => some (0, top3, [switch_turn p3 o3])
          | _, _ => none
        else command_byte pc top b o
    else command_byte pc top b o

/-- The scan of the registry in `handleclient` for another record with the same name. -/
def name_taken : List Client → Client → Bool
  | [], _ => false
  | existing_client :: rest, p =>
    if existing_client.addr ≠ p.addr ∧ existing_client.name = p.name then true
    else name_taken rest p

/-- The name entry part of `handleclient`: a byte from a record without a confirmed
name.  Appending to a name of 19 bytes writes past `char name[20]`: undefined. -/
def name_byte (pc : Client) (top : List Client) (b : Nat) (o : Oracle) :
    Option (Int × List Client × List Write) :=
  if b = 10 ∨ b = 13 then
    if pc.name.length = 0 then some (0, top, [(pc.fd, Msg.name_empty)])
    else if name_taken top pc = true then
      some (0, assign top pc.addr (fun c => { c with name := [] }), [(pc.fd, Msg.name_taken)])
    else
      let w1 : List Write :=
        if pc.name_entered = false then broadcast top (Msg.entered_arena pc.name) else []
      let top1 := assign top pc.addr (fun c => { c with name_entered := true })
      let w2 : List Write := [(pc.fd, Msg.awaiting)]
      match deref top1 pc.addr with
      | none => none
      | some p1 =>
        match matchmaker top1 p1 with
        | some opponent =>
          if opponent.name_entered = true then
            match start_match pc.addr opponent.addr top1 o with
            | none => none
            | some (top2, w3, _) => some (0, top2, w1 ++ w2 ++ w3)
          else some (0, top1, w1 ++ w2)
        | none => some (0, top1, w1 ++ w2)
  else if pc.in_game = false then
    if b = 0 then some (0, top, [])
    else if pc.name.length + 1 < MAX_NAME_LEN then
      some (0, assign top pc.addr (fun c => { c with name := c.name ++ [b] }), [])
    else none
  else some (0, top, [])

/-- What `read(p->fd, buf, 1)` delivers: one byte, end of file, or an error. -/
inductive ReadResult where
  | byte (b : Nat)
  | eof
  | error
deriving DecidableEq, Repr

/-- The function `handleclient` for the record at `p`: the return value, the registry
and the writes. -/
def handleclient (p : Nat) (top : List Client) (r : ReadResult) (o : Oracle) :
    Option (Int × List Client × List Write) :=
  match deref top p with
  | none => none
  | some pc =>
    match r with
    | .eof => some (-1, top, [])
    | .error => some (0, top, [])
    | .byte b =>
      if pc.in_game = false ∧ pc.name_entered = true ∧ pc.last_opponent = none ∧
          pc.is_turn = false then some (0, top, [])
      else if pc.in_game = true then battle_byte pc top b o
      else if pc.name_entered = false then name_byte pc top b o
      else some (0, top, [])

/-- The call `matchmaker(*top, opponent)` of `disconnect_client`, whose argument may
point to a freed record: the scan reads `matchmake->last_opponent` only once some
record passes the first test of the loop. -/
def matchmaker_ptr (top : List Client) (a : Nat) : Option (Option Client) :=
  match deref top a with
  | some m => some (matchmaker top m)
  | none =>
    if top.any (fun cur => cur.addr != a && !cur.in_game && cur.name_entered) then none
    else some none

/-- The function `disconnect_client` for the record at `p`, which is unlinked and freed
(so its first assignment, `p->time_left = 30`, is kept only on the early return). -/
def disconnect_client (p : Nat) (top : List Client) (o : Oracle) :
    Option (List Client × List Write) :=
  match deref top p with
  | none => none
  | some pc =>
    if pc.fd < 0 then some (assign top p (fun c => { c with time_left := 30 }), [])
    else
      let opponent := pc.last_opponent
      let forfeit : Option (List Client × List Write) :=
        if pc.in_game = true ∧ pc.last_opponent ≠ none then
          match pc.last_opponent.bind (deref top) with
          | none => none
          | some oc =>
            some (assign top oc.addr (fun c => { c with in_game := false, last_opponent := none }),
              [(oc.fd, Msg.dropped pc.name), (oc.fd, Msg.awaiting)])
        else some (top, [])
      match forfeit with
      | none => none
      | some (top1, w1) =>
        let w2 : List Write :=
          if 0 < pc.name.length then broadcast top1 (Msg.left_arena pc.name) else []
        let top2 := removeclient top1 pc.fd
        if (deref top2 p).isSome then none
        else
          match opponent with
          | none => some (top2, w1 ++ w2)
          | some oa =>
            match matchmaker_ptr top2 oa with
            | none => none
            | some none => some (top2, w1 ++ w2)
            | some (some new_opponent) =>
              match start_match oa new_opponent.addr top2 o with
              | none => none
              | some (top3, w3, _) => some (top3, w1 ++ w2 ++ w3)

/-- One event of the `select` loop of `main`: a new connection is accepted, or a
descriptor is readable and `handleclient` runs for its record. -/
inductive Event where
  | connect (fd : Int) (addr : Nat) (junk : Client) (welcome_ok : Bool)
  | ready (p : Nat) (r : ReadResult) (o : Oracle)

/-- The body of the loop of `main` for one event.  `accept` returns a descriptor that is
not open and `malloc` an address that is not live; a 21 byte array comes with the record. -/
def main_step (top : List Client) : Event → Option (List Client × List Write)
  | .connect fd addr junk welcome_ok =>
    if 0 ≤ fd ∧ (∀ c ∈ top, c.fd ≠ fd) ∧ (∀ c ∈ top, c.addr ≠ addr) ∧
        junk.message.length = MAX_MESSAGE_LEN + 1 then
      some (addclient top fd addr junk welcome_ok)
    else none
  | .ready p r o =>
    match handleclient p top r o with
    | none => none
    | some (ret, top1, w1) =>
      if ret = -1 then
        match disconnect_client p top1 o with
        | none => none
        | some (top2, w2) => some (top2, w1 ++ w2)
      else some (top1, w1)

/-- The registries the server can be in: those reached from the empty registry by the
events of the loop. -/
inductive Reachable : List Client → Prop where
  | init : Reachable []
  | step {top top1 : List Client} {w : List Write} (e : Event) :
      Reachable top → main_step top e = some (top1, w) → Reachable top1

/-! ## Predicates of the specification -/

/-- The five conditions under which `cur` can be matched with `player`. -/
def Eligible (player cur : Client) : Prop :=
  cur.addr ≠ player.addr ∧ cur.in_game = false ∧ cur.name_entered = true ∧
    player.last_opponent ≠ some cur.addr ∧ cur.last_opponent ≠ some player.addr

instance (player cur : Client) : Decidable (Eligible player cur) := by
  unfold Eligible; infer_instance

/-- A record that waits in the arena: name confirmed and not in a battle. -/
def Waiting (c : Client) : Prop := c.in_game = false ∧ c.name_entered = true

/-- The part of the invariant that also holds between the steps of a handler. -/
structure Core (top : List Client) : Prop where
  nodup_addr : (top.map Client.addr).Nodup
  nodup_fd : (top.map Client.fd).Nodup
  fd_nonneg : ∀ c ∈ top, 0 ≤ c.fd
  paired : ∀ c ∈ top, c.in_game = true → ∃ d ∈ top, c.last_opponent = some d.addr ∧
    d.addr ≠ c.addr ∧ d.in_game = true ∧ d.last_opponent = some c.addr ∧
    d.is_turn = !c.is_turn
  battle : ∀ c ∈ top, c.in_game = true → c.name_entered = true ∧ 1 ≤ c.hitpoints ∧
    0 ≤ c.powermoves ∧ (c.is_turn = true → c.time_left = 30)
  unnamed : ∀ c ∈ top, c.name_entered = false → c.last_opponent = none
  names : ∀ a ∈ top, ∀ b ∈ top, a.addr ≠ b.addr → a.name_entered = true →
    b.name_entered = true → a.name ≠ b.name
  named_nonempty : ∀ a ∈ top, a.name_entered = true → a.name ≠ []

/-- How two waiting records can coexist unmatched: the first points at the second or at
nothing, and one of the two points at the other. -/
def Settled (a b : Client) : Prop :=
  (a.last_opponent = some b.addr ∨ a.last_opponent = none) ∧
  (a.last_opponent = some b.addr ∨ b.last_opponent = some a.addr)

/-- The invariant of the registry that every event of the loop preserves. -/
structure Inv (top : List Client) extends Core top : Prop where
  waiting : ∀ a ∈ top, ∀ b ∈ top, a.addr ≠ b.addr → Waiting a → Waiting b → Settled a b

/-- The effect of `start_match` on one record of the registry: its two assignments in
order. -/
def match_upd (p opponent : Nat) (o : Oracle) (c : Client) : Client :=
  let c1 := if c.addr = p then begin_battle c opponent o (o.rand 4 % 2 == 0) else c
  if c1.addr = opponent then begin_battle c1 p (o.skip 2 0) (!(o.rand 4 % 2 == 0)) else c1

/-- The effect on one record of the four assignments that end a battle by defeat. -/
def leave_battle (p opponent : Nat) (c : Client) : Client :=
  let c1 := if c.addr = p then { c with in_game := false } else c
  let c2 := if c1.addr = opponent then { c1 with in_game := false } else c1
  let c3 := if c2.addr = p then { c2 with last_opponent := some opponent } else c2
  if c3.addr = opponent then { c3 with last_opponent := some p } else c3

/-- The effect of an accepted move on one record: the attacker spends a power move
unless the byte is `a`, then the opponent loses the damage. -/
def attack_upd (p oa : Nat) (b : Nat) (o : Oracle) (c : Client) : Client :=
  let c1 := if b ≠ 97 ∧ c.addr = p then { c with powermoves := c.powermoves - 1 } else c
  if c1.addr = oa then { c1 with hitpoints := c1.hitpoints - (attack_damage b o).1 } else c1

/-- The effect on one record of passing the turn after a move that does not end the
battle. -/
def pass_turn (p oa : Nat) (t : Int) (c : Client) : Client :=
  let c1 := if c.addr = p then { c with is_turn := false } else c
  let c2 := if c1.addr = oa then { c1 with is_turn := true } else c1
  if c2.addr = oa then { c2 with start_time := t, time_left := 30 } else c2

/-- Run the loop of `main` over a list of events. -/
def run : List Client → List Event → Option (List Client)
  | top, [] => some top
  | top, e :: es =>
    match main_step top e with
    | none => none
    | some (top1, _) => run top1 es

/-- An oracle that answers from two finite lists (and 0 afterwards). -/
def fixed_oracle (rs : List Nat) (ts : List Int) : Oracle :=
  ⟨fun i => rs.getD i 0, fun i => ts.getD i 0⟩

/-- Some indeterminate contents for a fresh record. -/
def junk0 : Client :=
  { addr := 0, fd := 0, name := [], in_game := false, last_opponent := none,
    hitpoints := -7, powermoves := -3, is_turn := true, name_entered := false,
    is_messaging := false, message := List.replicate 21 0, message_length := 0,
    start_time := 0, time_left := 0 }

/-- Two players connect and enter the names A and B; the second confirmation starts
their battle (hitpoints 20 each, B moves first). -/
def demo_events : List Event :=
  [.connect 4 100 junk0 true, .connect 5 200 junk0 true,
   .ready 100 (.byte 65) (fixed_oracle [] []), .ready 100 (.byte 10) (fixed_oracle [] []),
   .ready 200 (.byte 66) (fixed_oracle [] []),
   .ready 200 (.byte 10) (fixed_oracle [0, 0, 0, 0, 0] [1000])]

/-- The player of `demo_events` that moves second. -/
def demo_waiter : Client :=
  { addr := 100, fd := 4, name := [65], in_game := true, last_opponent := some 200,
    hitpoints := 20, powermoves := 1, is_turn := false, name_entered := true,
    is_messaging := false, message := List.replicate 21 0, message_length := 0,
    start_time := 0, time_left := 0 }

/-- The player of `demo_events` that holds the first turn, begun at time 1000. -/
def demo_mover : Client :=
  { addr := 200, fd := 5, name := [66], in_game := true, last_opponent := some 100,
    hitpoints := 20, powermoves := 1, is_turn := true, name_entered := true,
    is_messaging := false, message := List.replicate 21 0, message_length := 0,
    start_time := 1000, time_left := 30 }

/-- The registry after `demo_events`. -/
def demo_battle : List Client := [demo_waiter, demo_mover]

/-- Whether the text `s` begins with `pat`. -/
def starts_with : List Char → List Char → Bool
  | [], _ => true
  | _ :: _, [] => false
  | a :: pat, b :: s => a == b && starts_with pat s

/-- Whether `pat` occurs in the text `s`. -/
def contains_text (pat : List Char) : List Char → Bool
  | [] => starts_with pat []
  | c :: s => starts_with pat (c :: s) || contains_text pat s

/-- A named player waiting in the arena. -/
def demo_a : Client :=
  { addr := 100, fd := 4, name := [65], in_game := false, last_opponent := none,
    hitpoints := -7, powermoves := -3, is_turn := true, name_entered := true,
    is_messaging := false, message := List.replicate 21 0, message_length := 0,
    start_time := 0, time_left := 0 }

/-- A second named player waiting in the arena. -/
def demo_b : Client :=
  { addr := 200, fd := 5, name := [66], in_game := false, last_opponent := none,
    hitpoints := -7, powermoves := -3, is_turn := true, name_entered := true,
    is_messaging := false, message := List.replicate 21 0, message_length := 0,
    start_time := 0, time_left := 0 }

/-- The registry of the two waiting players. -/
def demo_lobby : List Client := [demo_a, demo_b]

/-- Draws that give both players 20 hitpoints and one power move and the first turn to
the first argument of `start_match`; the clock reads 1000. -/
def demo_oracle : Oracle := fixed_oracle [0, 0, 0, 0, 0] [1000]

/-- The events of `demo_events` followed by a power move of B that hits for 18 and an
attack of A for 2. -/
def demo_events2 : List Event :=
  demo_events ++
    [.ready 200 (.byte 112) (fixed_oracle [0, 4] [1001, 1002]),
     .ready 100 (.byte 97) (fixed_oracle [0] [1003, 1004])]

/-- Player A after `demo_events2`: 2 hitpoints left. -/
def demo_loser : Client :=
  { addr := 100, fd := 4, name := [65], in_game := true, last_opponent := some 200,
    hitpoints := 2, powermoves := 1, is_turn := false, name_entered := true,
    is_messaging := false, message := List.replicate 21 0, message_length := 0,
    start_time := 1002, time_left := 30 }

/-- Player B after `demo_events2`: it holds the turn, begun at time 1004. -/
def demo_victor : Client :=
  { addr := 200, fd := 5, name := [66], in_game := true, last_opponent := some 100,
    hitpoints := 18, powermoves := 0, is_turn := true, name_entered := true,
    is_messaging := false, message := List.replicate 21 0, message_length := 0,
    start_time := 1004, time_left := 30 }

/-- The registry after `demo_events2`. -/
def demo_endgame : List Client := [demo_loser, demo_victor]

/-- What one event of the loop can have done to a record `k` of the new registry that
was already in the old registry `top`: its powermoves are unchanged or not negative,
and if it was waiting it is either untouched or has been put in a game with a record
that was not waiting. -/
def Kept (top : List Client) (k : Client) : Prop :=
  ∃ c ∈ top, k.addr = c.addr ∧ (k.powermoves = c.powermoves ∨ 0 ≤ k.powermoves) ∧
    (Waiting c → k = c ∨
      (k.in_game = true ∧ ∃ n ∈ top, k.last_opponent = some n.addr ∧ ¬ Waiting n))

/-- Player A after `demo_events2` and the attack of B that defeats it: waiting. -/
def demo_beaten : Client :=
  { addr := 100, fd := 4, name := [65], in_game := false, last_opponent := some 200,
    hitpoints := 0, powermoves := 1, is_turn := false, name_entered := true,
    is_messaging := false, message := List.replicate 21 0, message_length := 0,
    start_time := 1002, time_left := 30 }

/-- Player B after it has defeated A: the winner, waiting. -/
def demo_winner : Client :=
  { addr := 200, fd := 5, name := [66], in_game := false, last_opponent := some 100,
    hitpoints := 18, powermoves := 0, is_turn := true, name_entered := true,
    is_messaging := false, message := List.replicate 21 0, message_length := 0,
    start_time := 1004, time_left := 30 }

/-- The registry after `demo_events2` and the attack of B that defeats A. -/
def demo_rest : List Client := [demo_beaten, demo_winner]

/-- A third player, connected while A and B are in their battle, that has confirmed the
name C and waits. -/
def demo_third : Client :=
  { addr := 300, fd := 6, name := [67], in_game := false, last_opponent := none,
    hitpoints := -7, powermoves := -3, is_turn := true, name_entered := true,
    is_messaging := false, message := List.replicate 21 0, message_length := 0,
    start_time := 0, time_left := 0 }

/-- The third player before it has confirmed its name. -/
def demo_typist : Client := { demo_third with name_entered := false }

/-- The battle of `demo_battle` with the third player typing its name. -/
def demo_typing : List Client := [demo_waiter, demo_mover, demo_typist]

/-- The battle of `demo_battle` with the third player waiting. -/
def demo_trio : List Client := [demo_waiter, demo_mover, demo_third]

/-- A player that has typed the byte A of its name and not yet confirmed it. -/
def demo_rival_a : Client :=
  { addr := 100, fd := 4, name := [65], in_game := false, last_opponent := none,
    hitpoints := -7, powermoves := -3, is_turn := true, name_entered := false,
    is_messaging := false, message := List.replicate 21 0, message_length := 0,
    start_time := 0, time_left := 0 }

/-- A second player that has typed the same byte. -/
def demo_rival_b : Client :=
  { addr := 200, fd := 5, name := [65], in_game := false, last_opponent := none,
    hitpoints := -7, powermoves := -3, is_turn := true, name_entered := false,
    is_messaging := false, message := List.replicate 21 0, message_length := 0,
    start_time := 0, time_left := 0 }

/-- Two players that are typing the same name; neither has a confirmed name. -/
def demo_clash : List Client := [demo_rival_a, demo_rival_b]

/-- The loop of `main` over a list of events, with the writes of each event. -/
def run_writes : List Client → List Event → Option (List Client × List (List Write))
  | top, [] => some (top, [])
  | top, e :: es =>
    match main_step top e with
    | none => none
    | some (top1, w) =>
      match run_writes top1 es with
      | none => none
      | some (top2, ws) => some (top2, w :: ws)

/-- The events of the bytes `ks` arriving one at a time from the record at `p`, each
with the oracle of its step. -/
def keystrokes (p : Nat) (ks : List (Nat × Oracle)) : List Event :=
  ks.map (fun k => Event.ready p (.byte k.1) k.2)

/-- A record put in chat mode with the buffer `M` and the count `L`. -/
def chat_state (M : List Nat) (L : Int) (c : Client) : Client :=
  { c with is_messaging := true, message := M, message_length := L }

/-- A record taken out of chat mode: the flag, `memset` and the count. -/
def chat_reset (c : Client) : Client :=
  { c with is_messaging := false, message := List.replicate (MAX_MESSAGE_LEN + 1) 0,
           message_length := 0 }

/-- The buffer `char message[21]` that holds the bytes `typed` followed by zeros. -/
def buffer_of (typed : List Nat) : List Nat :=
  typed ++ List.replicate (MAX_MESSAGE_LEN + 1 - typed.length) 0

/-- The chat fields of `k` are those of `c`. -/
def SameChat (c k : Client) : Prop :=
  k.is_messaging = c.is_messaging ∧ k.message = c.message ∧
    k.message_length = c.message_length

/-- What one event can have done to the chat fields of a record `c`, giving `k`:
nothing; the buffer and the count cleared; one byte stored at the index of the count,
which is below 20, and the count raised, in chat mode; or the count raised from 20 to
21 with the buffer untouched, in chat mode. -/
def ChatStep (c k : Client) : Prop :=
  SameChat c k ∨
  (k.message = List.replicate (MAX_MESSAGE_LEN + 1) 0 ∧ k.message_length = 0) ∨
  (c.is_messaging = true ∧ k.is_messaging = true ∧ 0 ≤ c.message_length ∧
    c.message_length < 20 ∧ (∃ b, k.message = c.message.set c.message_length.toNat b) ∧
    k.message_length = c.message_length + 1) ∨
  (c.is_messaging = true ∧ k.is_messaging = true ∧ c.message_length = 20 ∧
    k.message = c.message ∧ k.message_length = 21)

/-- The record `k` of the registry after an event comes from a record of the registry
`top` before it by a `ChatStep`. -/
def Chat (top : List Client) (k : Client) : Prop :=
  ∃ c ∈ top, k.addr = c.addr ∧ ChatStep c k

/-- The bounds on the chat fields of a record: `message` is an array of 21 bytes, the
count is in 0..21, and the array holds a NUL at index 20, or at index 0 outside chat
mode. -/
def ChatOk (c : Client) : Prop :=
  c.message.length = MAX_MESSAGE_LEN + 1 ∧ 0 ≤ c.message_length ∧ c.message_length ≤ 21 ∧
  (c.message.getD 20 1 = 0 ∨ (c.is_messaging = false ∧ c.message.getD 0 1 = 0))

/-- Twenty-one bytes typed by B in chat mode: `h` in time, then `x` when 30 seconds of
its turn have passed, then nineteen more `x`. -/
def demo_typed : List (Nat × Oracle) :=
  [(104, fixed_oracle [] [1001]), (120, fixed_oracle [] [1030])] ++
    List.replicate 19 (120, fixed_oracle [] [1031])

/-- B opens chat mode and types `demo_typed`, A attacks when the turn has passed to it,
and B ends its message. -/
def demo_late_chat : List Event :=
  keystrokes 200 ((115, fixed_oracle [] [1001]) :: demo_typed) ++
    [.ready 100 (.byte 97) (fixed_oracle [0] [1031, 1032])] ++
    keystrokes 200 [(10, fixed_oracle [] [1033])]

/-- A player that has typed 19 bytes of a name and not confirmed it: `name[20]` is
full, the NUL at index 19 included. -/
def demo_long_name : Client :=
  { addr := 100, fd := 4, name := List.replicate 19 65, in_game := false,
    last_opponent := none, hitpoints := -7, powermoves := -3, is_turn := true,
    name_entered := false, is_messaging := false, message := List.replicate 21 0,
    message_length := 0, start_time := 0, time_left := 0 }

/-- The chat sub-state of a record, with its address. -/
def chat_key (c : Client) : Nat × Bool × List Nat × Int :=
  (c.addr, c.is_messaging, c.message, c.message_length)

/-- The event is a chat command of the record at `p`: a byte from `p` while it is in a
game, holds the turn and is within its deadline, received in chat mode or being `s`. -/
def chat_command (top : List Client) (p : Nat) : Event → Bool
  | .ready q (.byte b) o =>
    decide (q = p) &&
      match deref top p with
      | some pc =>
        pc.in_game && pc.is_turn && decide (o.time 0 - pc.start_time < pc.time_left) &&
          (pc.is_messaging || decide (b = 115))
      | none => false
  | _ => false

/-- The event is the end of file of the record at `p`. -/
def hangs_up (p : Nat) : Event → Bool
  | .ready q .eof _ => decide (q = p)
  | _ => false

/-- Along the run of `evs` from `top`, no event is a chat command of the record at `p`
or its end of file. -/
def quiet (p : Nat) : List Client → List Event → Bool
  | _, [] => true
  | top, e :: es =>
    !chat_command top p e && !hangs_up p e &&
      match main_step top e with
      | some (top1, _) => quiet p top1 es
      | none => true


/-- Player B of `demo_trio` in chat mode with the one byte `h` typed. -/
def demo_chatter : Client :=
  { demo_mover with is_messaging := true, message := buffer_of [104], message_length := 1 }

/-- The registry `demo_trio` after B has opened chat mode and typed `h`. -/
def demo_chat_trio : List Client := [demo_waiter, demo_chatter, demo_third]

/-- B sends a byte when 30 seconds of its turn have passed, so the turn is forced over
to A; then A drops and B is matched with the third player. -/
def demo_drop : List Event :=
  [.ready 200 (.byte 120) (fixed_oracle [] [1030]),
   .ready 100 .eof (fixed_oracle [0, 0, 0, 0, 0] [1040])]

/-- The registry after `demo_drop`: B holds the first turn of its battle with the third
player and is still in chat mode with `h` typed. -/
def demo_next : List Client :=
  [{ demo_chatter with last_opponent := some 300, start_time := 1040 },
   { demo_third with in_game := true, last_opponent := some 200, hitpoints := 20,
                     powermoves := 1, is_turn := false }]

/-! ## Theorems -/

theorem deref_some {top : List Client} {a : Nat} {c : Client} (h : deref top a = some c) :
    c ∈ top ∧ c.addr = a := by
  unfold deref at h
  exact ⟨List.mem_of_find?_eq_some h, by simpa using List.find?_some h⟩

theorem deref_eq_none {top : List Client} {a : Nat} :
    deref top a = none ↔ ∀ c ∈ top, c.addr ≠ a := by
  unfold deref; simp

theorem deref_of_mem {top : List Client} {c : Client} (hn : (top.map Client.addr).Nodup)
    (hc : c ∈ top) : deref top c.addr = some c := by
  induction top with
  | nil => cases hc
  | cons x rest ih =>
    simp only [List.map_cons, List.nodup_cons, List.mem_map, not_exists, not_and] at hn
    rcases List.mem_cons.1 hc with rfl | hc
    · simp [deref]
    · have hx : x.addr ≠ c.addr := fun h => hn.1 c hc h.symm
      have := ih hn.2 hc
      simpa [deref, List.find?_cons, hx] using this

theorem deref_assign {top : List Client} {a b : Nat} {f : Client → Client}
    (hf : ∀ c, (f c).addr = c.addr) :
    deref (assign top a f) b = (deref top b).map (fun c => if c.addr = a then f c else c) := by
  have hq : ((fun c : Client => c.addr == b) ∘ fun c => if c.addr = a then f c else c) =
      fun c : Client => c.addr == b := by
    funext c
    simp only [Function.comp]
    split <;> simp [hf]
  simp only [deref, assign, List.find?_map, hq]

theorem assign_map_addr {top : List Client} {a : Nat} {f : Client → Client}
    (hf : ∀ c, (f c).addr = c.addr) : (assign top a f).map Client.addr = top.map Client.addr := by
  simp only [assign, List.map_map]
  apply List.map_congr_left
  intro c _
  simp only [Function.comp]
  split <;> simp [hf]

theorem removeclient_eq_filter {top : List Client} {p : Client}
    (hn : (top.map Client.fd).Nodup) (hp : p ∈ top) :
    removeclient top p.fd = top.filter (fun c => !decide (c.fd = p.fd)) := by
  induction top with
  | nil => cases hp
  | cons x rest ih =>
    simp only [List.map_cons, List.nodup_cons, List.mem_map, not_exists, not_and] at hn
    by_cases hx : x.fd = p.fd
    · have hrest : ∀ c ∈ rest, c.fd ≠ p.fd := fun c hc h => hn.1 c hc (h.trans hx.symm)
      have : rest.filter (fun c => !decide (c.fd = p.fd)) = rest :=
        List.filter_eq_self.2 (fun c hc => by simpa using hrest c hc)
      simp [removeclient, hx, List.filter_cons, this]
    · rcases List.mem_cons.1 hp with rfl | hp
      · exact absurd rfl hx
      · simp [removeclient, hx, List.filter_cons, ih hn.2 hp]

theorem Core.eq_of_addr {top : List Client} (h : Core top) {c d : Client} (hc : c ∈ top)
    (hd : d ∈ top) (e : c.addr = d.addr) : c = d := by
  have h1 := deref_of_mem h.nodup_addr hc
  have h2 := deref_of_mem h.nodup_addr hd
  rw [e, h2] at h1
  exact (Option.some.inj h1).symm

theorem Core.partner {top : List Client} (h : Core top) {c d : Client} (hc : c ∈ top)
    (hd : d ∈ top) (hg : c.in_game = true) (hl : c.last_opponent = some d.addr) :
    d.addr ≠ c.addr ∧ d.in_game = true ∧ d.last_opponent = some c.addr ∧
      d.is_turn = !c.is_turn := by
  obtain ⟨d1, hd1, h1, h2, h3, h4, h5⟩ := h.paired c hc hg
  have : d1 = d := h.eq_of_addr hd1 hd (by rw [h1] at hl; exact Option.some.inj hl)
  subst this
  exact ⟨h2, h3, h4, h5⟩

theorem Core.deref_partner {top : List Client} (h : Core top) {c : Client} (hc : c ∈ top)
    (hg : c.in_game = true) :
    ∃ d, d ∈ top ∧ c.last_opponent = some d.addr ∧ deref top d.addr = some d ∧
      d.addr ≠ c.addr ∧ d.in_game = true ∧ d.last_opponent = some c.addr ∧
      d.is_turn = !c.is_turn := by
  obtain ⟨d, hd, h1, h2, h3, h4, h5⟩ := h.paired c hc hg
  exact ⟨d, hd, h1, deref_of_mem h.nodup_addr hd, h2, h3, h4, h5⟩

theorem Core.eq_of_fd {top : List Client} (h : Core top) {c d : Client} (hc : c ∈ top)
    (hd : d ∈ top) (e : c.fd = d.fd) : c = d :=
  List.inj_on_of_nodup_map h.nodup_fd hc hd e

/-- The core invariant holds for the updated records of a part of the registry that is
closed under the battle links. -/
theorem core_sub_map {top L : List Client} {G : Client → Client} (h : Core top)
    (hL : L.Sublist top)
    (haddr : ∀ c ∈ L, (G c).addr = c.addr) (hfd : ∀ c ∈ L, (G c).fd = c.fd)
    (hpaired : ∀ c ∈ L, (G c).in_game = true → ∃ d ∈ L,
      (G c).last_opponent = some d.addr ∧ d.addr ≠ c.addr ∧ (G d).in_game = true ∧
      (G d).last_opponent = some c.addr ∧ (G d).is_turn = !(G c).is_turn)
    (hbattle : ∀ c ∈ L, (G c).in_game = true → (G c).name_entered = true ∧
      1 ≤ (G c).hitpoints ∧ 0 ≤ (G c).powermoves ∧
      ((G c).is_turn = true → (G c).time_left = 30))
    (hunnamed : ∀ c ∈ L, (G c).name_entered = false → (G c).last_opponent = none)
    (hnames : ∀ a ∈ L, ∀ b ∈ L, a.addr ≠ b.addr → (G a).name_entered = true →
      (G b).name_entered = true → (G a).name ≠ (G b).name)
    (hnonempty : ∀ a ∈ L, (G a).name_entered = true → (G a).name ≠ []) :
    Core (L.map G) := by
  have e1 : (L.map G).map Client.addr = L.map Client.addr := by
    rw [List.map_map]; exact List.map_congr_left (fun c hc => haddr c hc)
  have e2 : (L.map G).map Client.fd = L.map Client.fd := by
    rw [List.map_map]; exact List.map_congr_left (fun c hc => hfd c hc)
  refine ⟨e1 ▸ h.nodup_addr.sublist (hL.map _), e2 ▸ h.nodup_fd.sublist (hL.map _),
    ?_, ?_, ?_, ?_, ?_, ?_⟩
  · intro c hc
    obtain ⟨c0, hc0, rfl⟩ := List.mem_map.1 hc
    rw [hfd c0 hc0]; exact h.fd_nonneg c0 (hL.subset hc0)
  · intro c hc hg
    obtain ⟨c0, hc0, rfl⟩ := List.mem_map.1 hc
    obtain ⟨d, hd, h1, h2, h3, h4, h5⟩ := hpaired c0 hc0 hg
    refine ⟨G d, List.mem_map_of_mem G hd, ?_, ?_, h3, ?_, h5⟩
    · rw [haddr d hd]; exact h1
    · rw [haddr d hd, haddr c0 hc0]; exact h2
    · rw [haddr c0 hc0]; exact h4
  · intro c hc hg
    obtain ⟨c0, hc0, rfl⟩ := List.mem_map.1 hc
    exact hbattle c0 hc0 hg
  · intro c hc hg
    obtain ⟨c0, hc0, rfl⟩ := List.mem_map.1 hc
    exact hunnamed c0 hc0 hg
  · intro a ha b hb hab na nb
    obtain ⟨a0, ha0, rfl⟩ := List.mem_map.1 ha
    obtain ⟨b0, hb0, rfl⟩ := List.mem_map.1 hb
    rw [haddr a0 ha0, haddr b0 hb0] at hab
    exact hnames a0 ha0 b0 hb0 hab na nb
  · intro a ha na
    obtain ⟨a0, ha0, rfl⟩ := List.mem_map.1 ha
    exact hnonempty a0 ha0 na

theorem core_map {top : List Client} {G : Client → Client} (h : Core top)
    (haddr : ∀ c ∈ top, (G c).addr = c.addr) (hfd : ∀ c ∈ top, (G c).fd = c.fd)
    (hpaired : ∀ c ∈ top, (G c).in_game = true → ∃ d ∈ top,
      (G c).last_opponent = some d.addr ∧ d.addr ≠ c.addr ∧ (G d).in_game = true ∧
      (G d).last_opponent = some c.addr ∧ (G d).is_turn = !(G c).is_turn)
    (hbattle : ∀ c ∈ top, (G c).in_game = true → (G c).name_entered = true ∧
      1 ≤ (G c).hitpoints ∧ 0 ≤ (G c).powermoves ∧
      ((G c).is_turn = true → (G c).time_left = 30))
    (hunnamed : ∀ c ∈ top, (G c).name_entered = false → (G c).last_opponent = none)
    (hnames : ∀ a ∈ top, ∀ b ∈ top, a.addr ≠ b.addr → (G a).name_entered = true →
      (G b).name_entered = true → (G a).name ≠ (G b).name)
    (hnonempty : ∀ a ∈ top, (G a).name_entered = true → (G a).name ≠ []) :
    Core (top.map G) :=
  core_sub_map h (List.Sublist.refl top) haddr hfd hpaired hbattle hunnamed hnames hnonempty

/-- Frame rule: an update of the records that keeps the fields the matching logic reads
and keeps the battle facts of the records in a game preserves the invariant. -/
theorem inv_frame {top : List Client} {G : Client → Client} (h : Inv top)
    (hlink : ∀ c ∈ top, (G c).addr = c.addr ∧ (G c).fd = c.fd ∧
      (G c).in_game = c.in_game ∧ (G c).last_opponent = c.last_opponent ∧
      (G c).name_entered = c.name_entered ∧
      (c.name_entered = true → (G c).name = c.name))
    (hturn : ∀ c ∈ top, ∀ d ∈ top, c.in_game = true → c.last_opponent = some d.addr →
      (G d).is_turn = !(G c).is_turn)
    (hbattle : ∀ c ∈ top, c.in_game = true → 1 ≤ (G c).hitpoints ∧ 0 ≤ (G c).powermoves ∧
      ((G c).is_turn = true → (G c).time_left = 30)) :
    Inv (top.map G) := by
  refine ⟨core_map h.toCore (fun c hc => (hlink c hc).1) (fun c hc => (hlink c hc).2.1)
    ?_ ?_ ?_ ?_ ?_, ?_⟩
  · intro c hc hg
    obtain ⟨_, _, e3, e4, _, _⟩ := hlink c hc
    rw [e3] at hg
    obtain ⟨d, hd, h1, h2, h3, h4, _⟩ := h.paired c hc hg
    obtain ⟨_, _, d3, d4, _, _⟩ := hlink d hd
    exact ⟨d, hd, by rw [e4]; exact h1, h2, by rw [d3]; exact h3, by rw [d4]; exact h4,
      hturn c hc d hd hg h1⟩
  · intro c hc hg
    obtain ⟨_, _, e3, _, e5, _⟩ := hlink c hc
    rw [e3] at hg
    exact ⟨by rw [e5]; exact (h.battle c hc hg).1, hbattle c hc hg⟩
  · intro c hc hn
    obtain ⟨_, _, _, e4, e5, _⟩ := hlink c hc
    rw [e5] at hn; rw [e4]; exact h.unnamed c hc hn
  · intro a ha b hb hab na nb
    obtain ⟨_, _, _, _, a5, a6⟩ := hlink a ha
    obtain ⟨_, _, _, _, b5, b6⟩ := hlink b hb
    rw [a5] at na; rw [b5] at nb
    rw [a6 na, b6 nb]
    exact h.names a ha b hb hab na nb
  · intro a ha na
    obtain ⟨_, _, _, _, a5, a6⟩ := hlink a ha
    rw [a5] at na
    rw [a6 na]; exact h.named_nonempty a ha na
  · intro a ha b hb hab wa wb
    obtain ⟨a0, ha0, rfl⟩ := List.mem_map.1 ha
    obtain ⟨b0, hb0, rfl⟩ := List.mem_map.1 hb
    obtain ⟨a1, _, a3, a4, a5, _⟩ := hlink a0 ha0
    obtain ⟨b1, _, b3, b4, b5, _⟩ := hlink b0 hb0
    unfold Waiting at wa wb
    unfold Settled
    rw [a3, a5] at wa; rw [b3, b5] at wb
    rw [a1, b1] at hab
    rw [a4, b4, a1, b1]
    exact h.waiting a0 ha0 b0 hb0 hab wa wb

theorem turn_pair {top : List Client} (h : Core top) {pc oc : Client} (hp : pc ∈ top)
    (hoc : oc ∈ top) (hg : pc.in_game = true) (hl : pc.last_opponent = some oc.addr)
    {G : Client → Client}
    (hother : ∀ c ∈ top, c.addr ≠ pc.addr → c.addr ≠ oc.addr → (G c).is_turn = c.is_turn)
    (hpair : (G oc).is_turn = !(G pc).is_turn) :
    ∀ c ∈ top, ∀ d ∈ top, c.in_game = true → c.last_opponent = some d.addr →
      (G d).is_turn = !(G c).is_turn := by
  intro c hc d hd1 hcg hcl
  obtain ⟨hne, hog, hol, hot⟩ := h.partner hp hoc hg hl
  obtain ⟨hdc, hdg, hdl, hdt⟩ := h.partner hc hd1 hcg hcl
  by_cases h1 : c.addr = pc.addr
  · have hcp : c = pc := h.eq_of_addr hc hp h1
    subst hcp
    have hdo : d = oc := h.eq_of_addr hd1 hoc (by
      rw [hl] at hcl; exact (Option.some.inj hcl).symm)
    subst hdo
    exact hpair
  · by_cases h2 : c.addr = oc.addr
    · have hco : c = oc := h.eq_of_addr hc hoc h2
      subst hco
      have hdp : d = pc := h.eq_of_addr hd1 hp (by
        rw [hol] at hcl; exact (Option.some.inj hcl).symm)
      subst hdp
      rw [hpair]; simp
    · have h3 : d.addr ≠ pc.addr := by
        intro e
        have := h.eq_of_addr hd1 hp e
        subst this
        rw [hl] at hdl
        exact h2 (Option.some.inj hdl).symm
      have h4 : d.addr ≠ oc.addr := by
        intro e
        have := h.eq_of_addr hd1 hoc e
        subst this
        rw [hol] at hdl
        exact h1 (Option.some.inj hdl).symm
      rw [hother c hc h1 h2, hother d hd1 h3 h4]; exact hdt

/-- Frame rule for updates that touch none of the fields the invariant reads. -/
theorem inv_frame_same {top : List Client} {G : Client → Client} (h : Inv top)
    (hsame : ∀ c ∈ top, (G c).addr = c.addr ∧ (G c).fd = c.fd ∧
      (G c).in_game = c.in_game ∧ (G c).last_opponent = c.last_opponent ∧
      (G c).name_entered = c.name_entered ∧ (c.name_entered = true → (G c).name = c.name) ∧
      (G c).is_turn = c.is_turn ∧ (G c).hitpoints = c.hitpoints ∧
      (G c).powermoves = c.powermoves ∧ (G c).time_left = c.time_left) :
    Inv (top.map G) := by
  apply inv_frame h
  · intro c hc
    obtain ⟨e1, e2, e3, e4, e5, e6, -⟩ := hsame c hc
    exact ⟨e1, e2, e3, e4, e5, e6⟩
  · intro c hc d hd hg hl
    obtain ⟨-, -, -, -, -, -, e7, -⟩ := hsame c hc
    obtain ⟨-, -, -, -, -, -, d7, -⟩ := hsame d hd
    rw [e7, d7]; exact (h.partner hc hd hg hl).2.2.2
  · intro c hc hg
    obtain ⟨-, -, -, -, -, -, e7, e8, e9, e10⟩ := hsame c hc
    rw [e7, e8, e9, e10]; exact (h.battle c hc hg).2

theorem timeout_switch_inv {top top1 : List Client} {pc : Client} {now ret : Int}
    {w : List Write} (h : Inv top) (hp : pc ∈ top) (hg : pc.in_game = true)
    (hres : timeout_switch pc top now = some (ret, top1, w)) : Inv top1 := by
  obtain ⟨oc, hoc, hl, hd, hne, hog, hol, hot⟩ := h.deref_partner hp hg
  simp only [timeout_switch, hl, hd] at hres
  split at hres
  · simp only [Option.some.injEq, Prod.mk.injEq] at hres
    obtain ⟨-, rfl, -⟩ := hres
    simp only [assign, List.map_map]
    apply inv_frame h
    · intro c _
      simp only [Function.comp]
      split_ifs <;> simp
    · apply turn_pair h.toCore hp hoc hg hl
      · intro c _ h1 h2
        simp [Function.comp, h1, h2]
      · simp [Function.comp, hne, hne.symm]
    · intro c hc hcg
      obtain ⟨-, b2, b3, b4⟩ := h.battle c hc hcg
      simp only [Function.comp]
      split_ifs <;> simp_all
  · simp at hres

theorem chat_byte_inv {top top1 : List Client} {pc : Client} {b : Nat} {ret : Int}
    {w : List Write} (h : Inv top)
    (hres : chat_byte pc top b = some (ret, top1, w)) : Inv top1 := by
  unfold chat_byte at hres
  dsimp only at hres
  repeat' split at hres
  all_goals first
    | (simp at hres; done)
    | (simp only [Option.some.injEq, Prod.mk.injEq] at hres
       obtain ⟨-, rfl, -⟩ := hres
       first
       | exact h
       | (apply inv_frame_same h
          intro c _
          split_ifs <;> simp))

@[simp] theorem begin_battle_addr (c : Client) (x : Nat) (o : Oracle) (t : Bool) :
    (begin_battle c x o t).addr = c.addr := by
  unfold begin_battle init_battle; split <;> rfl

@[simp] theorem begin_battle_fd (c : Client) (x : Nat) (o : Oracle) (t : Bool) :
    (begin_battle c x o t).fd = c.fd := by
  unfold begin_battle init_battle; split <;> rfl

@[simp] theorem begin_battle_name (c : Client) (x : Nat) (o : Oracle) (t : Bool) :
    (begin_battle c x o t).name = c.name := by
  unfold begin_battle init_battle; split <;> rfl

@[simp] theorem begin_battle_name_entered (c : Client) (x : Nat) (o : Oracle) (t : Bool) :
    (begin_battle c x o t).name_entered = c.name_entered := by
  unfold begin_battle init_battle; split <;> rfl

@[simp] theorem begin_battle_in_game (c : Client) (x : Nat) (o : Oracle) (t : Bool) :
    (begin_battle c x o t).in_game = true := by
  unfold begin_battle init_battle; split <;> rfl

@[simp] theorem begin_battle_last_opponent (c : Client) (x : Nat) (o : Oracle) (t : Bool) :
    (begin_battle c x o t).last_opponent = some x := by
  unfold begin_battle init_battle; split <;> rfl

@[simp] theorem begin_battle_is_turn (c : Client) (x : Nat) (o : Oracle) (t : Bool) :
    (begin_battle c x o t).is_turn = t := by
  unfold begin_battle init_battle; split <;> simp_all

@[simp] theorem begin_battle_hitpoints (c : Client) (x : Nat) (o : Oracle) (t : Bool) :
    (begin_battle c x o t).hitpoints = ((o.rand 0 % 11 : Nat) : Int) + 20 := by
  unfold begin_battle init_battle; split <;> rfl

@[simp] theorem begin_battle_powermoves (c : Client) (x : Nat) (o : Oracle) (t : Bool) :
    (begin_battle c x o t).powermoves = ((o.rand 1 % 3 : Nat) : Int) + 1 := by
  unfold begin_battle init_battle; split <;> rfl

theorem begin_battle_time_left (c : Client) (x : Nat) (o : Oracle) :
    (begin_battle c x o true).time_left = 30 ∧ (begin_battle c x o true).start_time = o.time 0 := by
  unfold begin_battle init_battle; simp

theorem begin_battle_chat (c : Client) (x : Nat) (o : Oracle) (t : Bool) :
    (begin_battle c x o t).is_messaging = c.is_messaging ∧
    (begin_battle c x o t).message = c.message ∧
    (begin_battle c x o t).message_length = c.message_length := by
  unfold begin_battle init_battle; split <;> simp

theorem match_upd_left {x y : Nat} (hxy : x ≠ y) (o : Oracle) {c : Client} (hc : c.addr = x) :
    match_upd x y o c = begin_battle c y o (o.rand 4 % 2 == 0) := by
  simp [match_upd, hc, hxy]

theorem match_upd_right {x y : Nat} (hxy : x ≠ y) (o : Oracle) {c : Client} (hc : c.addr = y) :
    match_upd x y o c = begin_battle c x (o.skip 2 0) (!(o.rand 4 % 2 == 0)) := by
  simp [match_upd, hc, hxy.symm]

theorem match_upd_other {x y : Nat} (o : Oracle) {c : Client} (h1 : c.addr ≠ x)
    (h2 : c.addr ≠ y) : match_upd x y o c = c := by
  simp [match_upd, h1, h2]

@[simp] theorem match_upd_addr (x y : Nat) (o : Oracle) (c : Client) :
    (match_upd x y o c).addr = c.addr := by
  unfold match_upd; dsimp only; split_ifs <;> simp

@[simp] theorem match_upd_fd (x y : Nat) (o : Oracle) (c : Client) :
    (match_upd x y o c).fd = c.fd := by
  unfold match_upd; dsimp only; split_ifs <;> simp

@[simp] theorem match_upd_name (x y : Nat) (o : Oracle) (c : Client) :
    (match_upd x y o c).name = c.name := by
  unfold match_upd; dsimp only; split_ifs <;> simp

@[simp] theorem match_upd_name_entered (x y : Nat) (o : Oracle) (c : Client) :
    (match_upd x y o c).name_entered = c.name_entered := by
  unfold match_upd; dsimp only; split_ifs <;> simp

theorem match_upd_in_game (x y : Nat) (o : Oracle) {c : Client} (h : c.addr = x ∨ c.addr = y) :
    (match_upd x y o c).in_game = true := by
  unfold match_upd; dsimp only; split_ifs <;> simp_all

theorem start_match_eq {x y : Nat} {top top1 : List Client} {o o1 : Oracle} {w : List Write}
    (h : start_match x y top o = some (top1, w, o1)) :
    top1 = top.map (match_upd x y o) ∧ o1 = o.skip 5 1 := by
  unfold start_match at h
  dsimp only at h
  split at h
  · simp only [Option.some.injEq, Prod.mk.injEq] at h
    obtain ⟨rfl, -, rfl⟩ := h
    refine ⟨?_, rfl⟩
    simp only [assign, List.map_map]
    apply List.map_congr_left
    intro c _
    simp [match_upd, Function.comp]
  · simp at h

theorem start_match_isSome {x y : Nat} {top : List Client} {xc yc : Client} (o : Oracle)
    (hx : deref top x = some xc) (hy : deref top y = some yc) :
    ∃ w, start_match x y top o = some (top.map (match_upd x y o), w, o.skip 5 1) := by
  have hr : ∃ r, start_match x y top o = some r := by
    unfold start_match
    dsimp only
    rw [deref_assign (by intro c; simp), deref_assign (by intro c; simp),
      deref_assign (by intro c; simp), deref_assign (by intro c; simp), hx, hy]
    simp
  obtain ⟨⟨t, w, o1⟩, hr⟩ := hr
  obtain ⟨rfl, rfl⟩ := start_match_eq hr
  exact ⟨w, hr⟩

theorem waiting_of_match {x y : Nat} {o : Oracle} {top : List Client} {a : Client}
    (ha : a ∈ top.map (match_upd x y o)) (hw : Waiting a) :
    a ∈ top ∧ a.addr ≠ x ∧ a.addr ≠ y := by
  obtain ⟨c, hc, rfl⟩ := List.mem_map.1 ha
  by_cases h1 : c.addr = x
  · have := match_upd_in_game x y o (Or.inl h1)
    rw [hw.1] at this; cases this
  · by_cases h2 : c.addr = y
    · have := match_upd_in_game x y o (Or.inr h2)
      rw [hw.1] at this; cases this
    · rw [match_upd_other o h1 h2]
      exact ⟨hc, h1, h2⟩

theorem mem_match_of_other {x y : Nat} {o : Oracle} {top : List Client} {a : Client}
    (ha : a ∈ top) (h1 : a.addr ≠ x) (h2 : a.addr ≠ y) : a ∈ top.map (match_upd x y o) :=
  List.mem_map.2 ⟨a, ha, match_upd_other o h1 h2⟩

theorem core_start_match {top : List Client} (h : Core top) {xc yc : Client} (o : Oracle)
    (hx : xc ∈ top) (hy : yc ∈ top) (hxy : xc.addr ≠ yc.addr) (wx : Waiting xc)
    (wy : Waiting yc) : Core (top.map (match_upd xc.addr yc.addr o)) := by
  have key : ∀ c ∈ top, c.in_game = true → c.addr ≠ xc.addr ∧ c.addr ≠ yc.addr := by
    intro c hc hg
    constructor
    · intro e; have := h.eq_of_addr hc hx e; subst this; rw [wx.1] at hg; cases hg
    · intro e; have := h.eq_of_addr hc hy e; subst this; rw [wy.1] at hg; cases hg
  apply core_map h (fun c _ => by simp) (fun c _ => by simp)
  · intro c hc hg
    by_cases h1 : c.addr = xc.addr
    · refine ⟨yc, hy, ?_, ?_, ?_, ?_, ?_⟩
      · rw [match_upd_left hxy o h1]; simp
      · rw [h1]; exact hxy.symm
      · exact match_upd_in_game _ _ o (Or.inr rfl)
      · rw [match_upd_right hxy o rfl, h1]; simp
      · rw [match_upd_right hxy o rfl, match_upd_left hxy o h1]; simp
    · by_cases h2 : c.addr = yc.addr
      · refine ⟨xc, hx, ?_, ?_, ?_, ?_, ?_⟩
        · rw [match_upd_right hxy o h2]; simp
        · rw [h2]; exact hxy
        · exact match_upd_in_game _ _ o (Or.inl rfl)
        · rw [match_upd_left hxy o rfl, h2]; simp
        · rw [match_upd_left hxy o rfl, match_upd_right hxy o h2]; simp
      · rw [match_upd_other o h1 h2] at hg ⊢
        obtain ⟨d, hd, e1, e2, e3, e4, e5⟩ := h.paired c hc hg
        obtain ⟨d1, d2⟩ := key d hd e3
        exact ⟨d, hd, e1, e2, by rw [match_upd_other o d1 d2]; exact e3,
          by rw [match_upd_other o d1 d2]; exact e4,
          by rw [match_upd_other o d1 d2]; exact e5⟩
  · intro c hc hg
    by_cases h1 : c.addr = xc.addr
    · have := h.eq_of_addr hc hx h1; subst this
      rw [match_upd_left hxy o rfl]
      refine ⟨by simpa using wx.2, by simp; omega, by simp; omega, ?_⟩
      intro ht
      simp only [begin_battle_is_turn] at ht
      rw [ht]; exact (begin_battle_time_left _ _ _).1
    · by_cases h2 : c.addr = yc.addr
      · have := h.eq_of_addr hc hy h2; subst this
        rw [match_upd_right hxy o rfl]
        refine ⟨by simpa using wy.2, by simp; omega, by simp; omega, ?_⟩
        intro ht
        simp only [begin_battle_is_turn] at ht
        rw [ht]; exact (begin_battle_time_left _ _ _).1
      · rw [match_upd_other o h1 h2] at hg ⊢
        exact h.battle c hc hg
  · intro c hc hn
    simp only [match_upd_name_entered] at hn
    have h1 : c.addr ≠ xc.addr := by
      intro e; have := h.eq_of_addr hc hx e; subst this; rw [wx.2] at hn; cases hn
    have h2 : c.addr ≠ yc.addr := by
      intro e; have := h.eq_of_addr hc hy e; subst this; rw [wy.2] at hn; cases hn
    rw [match_upd_other o h1 h2]
    exact h.unnamed c hc hn
  · intro a ha b hb hab na nb
    simp only [match_upd_name_entered, match_upd_name] at na nb ⊢
    exact h.names a ha b hb hab na nb
  · intro a ha na
    simp only [match_upd_name_entered, match_upd_name] at na ⊢
    exact h.named_nonempty a ha na

theorem deref_map {top : List Client} {G : Client → Client} (hG : ∀ c, (G c).addr = c.addr)
    (a : Nat) : deref (top.map G) a = (deref top a).map G := by
  have hq : ((fun c : Client => c.addr == a) ∘ G) = fun c : Client => c.addr == a := by
    funext c; simp [Function.comp, hG]
  simp only [deref, List.find?_map, hq]

theorem leave_battle_left {x y : Nat} (hxy : x ≠ y) {c : Client} (hc : c.addr = x) :
    leave_battle x y c = { c with in_game := false, last_opponent := some y } := by
  simp [leave_battle, hc, hxy]

theorem leave_battle_right {x y : Nat} (hxy : x ≠ y) {c : Client} (hc : c.addr = y) :
    leave_battle x y c = { c with in_game := false, last_opponent := some x } := by
  simp [leave_battle, hc, hxy.symm]

theorem leave_battle_other {x y : Nat} {c : Client} (h1 : c.addr ≠ x) (h2 : c.addr ≠ y) :
    leave_battle x y c = c := by
  simp [leave_battle, h1, h2]

@[simp] theorem leave_battle_addr (x y : Nat) (c : Client) :
    (leave_battle x y c).addr = c.addr := by
  unfold leave_battle; dsimp only; split_ifs <;> rfl

@[simp] theorem leave_battle_fd (x y : Nat) (c : Client) :
    (leave_battle x y c).fd = c.fd := by
  unfold leave_battle; dsimp only; split_ifs <;> rfl

@[simp] theorem leave_battle_name (x y : Nat) (c : Client) :
    (leave_battle x y c).name = c.name := by
  unfold leave_battle; dsimp only; split_ifs <;> rfl

@[simp] theorem leave_battle_name_entered (x y : Nat) (c : Client) :
    (leave_battle x y c).name_entered = c.name_entered := by
  unfold leave_battle; dsimp only; split_ifs <;> rfl

theorem assign_leave_battle (x y : Nat) (top : List Client) :
    assign (assign (assign (assign top x (fun c => { c with in_game := false })) y
      (fun c => { c with in_game := false })) x
      (fun c => { c with last_opponent := some y })) y
      (fun c => { c with last_opponent := some x }) = top.map (leave_battle x y) := by
  simp only [assign, List.map_map]
  apply List.map_congr_left
  intro c _
  simp [leave_battle, Function.comp]

theorem assign_name_entered_id {L : List Client} {a : Nat}
    (h : ∀ c ∈ L, c.addr = a → c.name_entered = true) :
    assign L a (fun c => { c with name_entered := true }) = L := by
  unfold assign
  conv_rhs => rw [← List.map_id L]
  apply List.map_congr_left
  intro c hc
  split_ifs with e
  · have := h c hc e
    cases c
    simp_all
  · rfl

theorem matchmaker_eq_find (top : List Client) (m : Client) :
    matchmaker top m = top.find? (fun cur => decide (Eligible m cur)) := by
  induction top with
  | nil => rfl
  | cons cur rest ih =>
    simp only [matchmaker, List.find?_cons, ih, Eligible]
    by_cases h1 : cur.addr ≠ m.addr ∧ cur.in_game = false ∧ cur.name_entered = true
    · by_cases h2 : m.last_opponent ≠ some cur.addr ∧ cur.last_opponent ≠ some m.addr
      · have : (cur.addr ≠ m.addr ∧ cur.in_game = false ∧ cur.name_entered = true ∧
            m.last_opponent ≠ some cur.addr ∧ cur.last_opponent ≠ some m.addr) :=
          ⟨h1.1, h1.2.1, h1.2.2, h2.1, h2.2⟩
        simp [h1, h2, this]
      · have : ¬ (cur.addr ≠ m.addr ∧ cur.in_game = false ∧ cur.name_entered = true ∧
            m.last_opponent ≠ some cur.addr ∧ cur.last_opponent ≠ some m.addr) :=
          fun h => h2 ⟨h.2.2.2.1, h.2.2.2.2⟩
        simp [h1, h2, this]
    · have : ¬ (cur.addr ≠ m.addr ∧ cur.in_game = false ∧ cur.name_entered = true ∧
          m.last_opponent ≠ some cur.addr ∧ cur.last_opponent ≠ some m.addr) :=
        fun h => h1 ⟨h.1, h.2.1, h.2.2.1⟩
      simp [h1, this]

theorem matchmaker_some {top : List Client} {m c : Client} (h : matchmaker top m = some c) :
    c ∈ top ∧ Eligible m c := by
  rw [matchmaker_eq_find] at h
  exact ⟨List.mem_of_find?_eq_some h, by simpa using List.find?_some h⟩

theorem matchmaker_none {top : List Client} {m : Client} :
    matchmaker top m = none ↔ ∀ x ∈ top, ¬ Eligible m x := by
  rw [matchmaker_eq_find]; simp

theorem mem_assign {top : List Client} {a : Nat} {f : Client → Client} {c1 : Client} :
    c1 ∈ assign top a f ↔ ∃ c ∈ top, (if c.addr = a then f c else c) = c1 := by
  simp [assign]

theorem name_taken_false {top : List Client} {pc : Client} :
    name_taken top pc = false ↔ ∀ e ∈ top, e.addr ≠ pc.addr → e.name ≠ pc.name := by
  induction top with
  | nil => simp [name_taken]
  | cons x rest ih =>
    simp only [name_taken, List.mem_cons, forall_eq_or_imp]
    split_ifs with hx
    · constructor
      · intro h; cases h
      · intro h; exact absurd hx.2 (h.1 hx.1)
    · rw [ih]
      constructor
      · intro h; exact ⟨fun h1 h2 => hx ⟨h1, h2⟩, h⟩
      · intro h; exact h.2

theorem core_confirm {top : List Client} (h : Core top) {pc : Client}
    (hfree : ∀ e ∈ top, e.addr ≠ pc.addr → e.name ≠ pc.name) (hne : pc.name ≠ [])
    (hp : pc ∈ top) :
    Core (assign top pc.addr (fun c => { c with name_entered := true })) := by
  unfold assign
  have hG : ∀ c ∈ top, c.addr = pc.addr → c = pc := fun c hc e => h.eq_of_addr hc hp e
  apply core_map h
  · intro c _; split_ifs <;> rfl
  · intro c _; split_ifs <;> rfl
  · intro c hc hg
    have hg1 : c.in_game = true := by split_ifs at hg <;> exact hg
    obtain ⟨d, hd, e1, e2, e3, e4, e5⟩ := h.paired c hc hg1
    refine ⟨d, hd, ?_, e2, ?_, ?_, ?_⟩
    · split_ifs <;> exact e1
    · split_ifs <;> exact e3
    · split_ifs <;> exact e4
    · split_ifs <;> exact e5
  · intro c hc hg
    have hg1 : c.in_game = true := by split_ifs at hg <;> exact hg
    obtain ⟨b1, b2, b3, b4⟩ := h.battle c hc hg1
    split_ifs
    · exact ⟨rfl, b2, b3, b4⟩
    · exact ⟨b1, b2, b3, b4⟩
  · intro c hc hn
    split_ifs at hn ⊢ with h1
    exact h.unnamed c hc hn
  · intro a ha b hb hab na nb
    by_cases h1 : a.addr = pc.addr
    · have := hG a ha h1; subst this
      have h2 : b.addr ≠ a.addr := fun e => hab e.symm
      simp only [h2, if_false, if_true] at nb ⊢
      exact fun e => hfree b hb h2 e.symm
    · by_cases h2 : b.addr = pc.addr
      · have := hG b hb h2; subst this
        simp only [h1, if_false, if_true] at na ⊢
        exact hfree a ha h1
      · simp only [h1, h2, if_false] at na nb ⊢
        exact h.names a ha b hb hab na nb
  · intro a ha na
    by_cases h1 : a.addr = pc.addr
    · have := hG a ha h1; subst this
      simpa using hne
    · simp only [h1, if_false] at na ⊢
      exact h.named_nonempty a ha na

theorem rematch_spec {K K1 : List Client} {xc : Client} {o o1 : Oracle} {w : List Write}
    (hx : deref K xc.addr = some xc)
    (hres : rematch xc.addr K o = some (K1, w, o1)) :
    (∃ n ∈ K, Eligible xc n ∧ K1 = K.map (match_upd xc.addr n.addr o) ∧ o1 = o.skip 5 1) ∨
    ((∀ a ∈ K, ¬ Eligible xc a) ∧ K1 = K ∧ o1 = o) := by
  simp only [rematch, hx] at hres
  split at hres
  · rename_i n hn
    obtain ⟨hn1, hn2⟩ := matchmaker_some hn
    obtain ⟨rfl, rfl⟩ := start_match_eq hres
    exact Or.inl ⟨n, hn1, hn2, rfl, rfl⟩
  · rename_i hn
    simp only [Option.some.injEq, Prod.mk.injEq] at hres
    obtain ⟨rfl, -, rfl⟩ := hres
    exact Or.inr ⟨matchmaker_none.1 hn, rfl, rfl⟩

theorem rematch_isSome {K : List Client} {xc : Client} (o : Oracle)
    (hx : deref K xc.addr = some xc) (hn : (K.map Client.addr).Nodup) :
    ∃ r, rematch xc.addr K o = some r := by
  simp only [rematch, hx]
  split
  · rename_i n hm
    obtain ⟨w, hw⟩ := start_match_isSome o hx (deref_of_mem hn (matchmaker_some hm).1)
    exact ⟨_, hw⟩
  · exact ⟨_, rfl⟩

theorem name_byte_inv {top top1 : List Client} {pc : Client} {b : Nat} {o : Oracle}
    {ret : Int} {w : List Write} (h : Inv top) (hp : pc ∈ top)
    (hn : pc.name_entered = false)
    (hres : name_byte pc top b o = some (ret, top1, w)) : Inv top1 := by
  have hG : ∀ c ∈ top, c.addr = pc.addr → c = pc := fun c hc e => h.eq_of_addr hc hp e
  have hframe : ∀ f : Client → Client, (∀ c, f c = { c with name := (f c).name }) →
      Inv (assign top pc.addr f) := by
    intro f hf
    apply inv_frame_same h
    intro c hc
    split_ifs with h1
    · have := hG c hc h1; subst this
      rw [hf c]
      simp [hn]
    · simp
  unfold name_byte at hres
  dsimp only at hres
  split_ifs at hres with h1 h2 h3 h4 h5 h6
  · simp only [Option.some.injEq, Prod.mk.injEq] at hres
    obtain ⟨-, rfl, -⟩ := hres
    exact h
  · simp only [Option.some.injEq, Prod.mk.injEq] at hres
    obtain ⟨-, rfl, -⟩ := hres
    exact hframe _ (fun c => rfl)
  · -- the name is confirmed
    have h3f : name_taken top pc = false := by simpa using h3
    have hK : Core (assign top pc.addr (fun c => { c with name_entered := true })) :=
      core_confirm h.toCore (name_taken_false.1 h3f)
        (by intro e; apply h2; rw [e]; rfl) hp
    have hd : deref (assign top pc.addr (fun c => { c with name_entered := true })) pc.addr =
        some { pc with name_entered := true } := by
      rw [deref_assign (by intro c; rfl), deref_of_mem h.nodup_addr hp]; simp
    have hpl : pc.last_opponent = none := h.unnamed pc hp hn
    have hpg : pc.in_game = false := by
      cases hg : pc.in_game
      · rfl
      · have := (h.battle pc hp hg).1; rw [hn] at this; cases this
    -- records of the new registry other than `pc` are records of the old one
    have hold : ∀ a ∈ assign top pc.addr (fun c => { c with name_entered := true }),
        a.addr ≠ pc.addr → a ∈ top := by
      intro a ha hne
      obtain ⟨c, hc, rfl⟩ := mem_assign.1 ha
      split_ifs at hne ⊢ with e
      · exact absurd e hne
      · exact hc
    rw [hd] at hres
    dsimp only at hres
    split at hres
    · rename_i n hm
      obtain ⟨hn1, hn2⟩ := matchmaker_some hm
      have hnn : n.name_entered = true := hn2.2.2.1
      rw [if_pos hnn] at hres
      split at hres
      · simp at hres
      · rename_i top2 w3 o3 hs
        simp only [Option.some.injEq, Prod.mk.injEq] at hres
        obtain ⟨-, rfl, -⟩ := hres
        obtain ⟨rfl, -⟩ := start_match_eq hs
        have hpm := (deref_some hd).1
        have hc2 := @core_start_match _ hK { pc with name_entered := true } n o hpm hn1
          (Ne.symm hn2.1) ⟨hpg, rfl⟩ ⟨hn2.2.1, hnn⟩
        refine ⟨hc2, ?_⟩
        intro a ha b hb hab wa wb
        obtain ⟨ha1, ha2, -⟩ := waiting_of_match ha wa
        obtain ⟨hb1, hb2, -⟩ := waiting_of_match hb wb
        exact h.waiting a (hold a ha1 ha2) b (hold b hb1 hb2) hab wa wb
    · rename_i hm
      simp only [Option.some.injEq, Prod.mk.injEq] at hres
      obtain ⟨-, rfl, -⟩ := hres
      have hnone := matchmaker_none.1 hm
      refine ⟨hK, ?_⟩
      -- a waiting record other than `pc` is not eligible, so it points at `pc`
      have hpt : ∀ a ∈ assign top pc.addr (fun c => { c with name_entered := true }),
          a.addr ≠ pc.addr → Waiting a → a.last_opponent = some pc.addr := by
        intro a ha hne wa
        by_contra hcon
        exact hnone a ha ⟨hne, wa.1, wa.2, by simp [hpl], hcon⟩
      have hpc : ∀ a ∈ assign top pc.addr (fun c => { c with name_entered := true }),
          a.addr = pc.addr → a.last_opponent = none := by
        intro a ha he
        obtain ⟨c, hc, rfl⟩ := mem_assign.1 ha
        split_ifs at he ⊢ with e
        · have := hG c hc e; subst this; exact hpl
        · exact absurd he e
      intro a ha b hb hab wa wb
      by_cases e1 : a.addr = pc.addr
      · have e2 : b.addr ≠ pc.addr := fun e => hab (e1.trans e.symm)
        refine ⟨Or.inr (hpc a ha e1), Or.inr ?_⟩
        rw [e1]; exact hpt b hb e2 wb
      · by_cases e2 : b.addr = pc.addr
        · have := hpt a ha e1 wa
          rw [← e2] at this
          exact ⟨Or.inl this, Or.inl this⟩
        · exact h.waiting a (hold a ha e1) b (hold b hb e2) hab wa wb
  · simp only [Option.some.injEq, Prod.mk.injEq] at hres
    obtain ⟨-, rfl, -⟩ := hres
    exact h
  · simp only [Option.some.injEq, Prod.mk.injEq] at hres
    obtain ⟨-, rfl, -⟩ := hres
    exact hframe _ (fun c => rfl)
  · simp only [Option.some.injEq, Prod.mk.injEq] at hres
    obtain ⟨-, rfl, -⟩ := hres
    exact h

theorem deref_match_other {x y : Nat} {o : Oracle} {K : List Client} {c : Client}
    (hn : (K.map Client.addr).Nodup) (hc : c ∈ K) (h1 : c.addr ≠ x) (h2 : c.addr ≠ y) :
    deref (K.map (match_upd x y o)) c.addr = some c := by
  have e : (K.map (match_upd x y o)).map Client.addr = K.map Client.addr := by
    rw [List.map_map]; exact List.map_congr_left (fun c _ => by simp)
  exact deref_of_mem (e ▸ hn) (mem_match_of_other hc h1 h2)

/-- The two rematch attempts at the end of a battle re-establish the invariant. -/
theorem rematch_pass_inv {K K5 K6 : List Client} {kp ko : Client} {o o5 o6 : Oracle}
    {w5 w6 : List Write} {x y : Nat} (ex : kp.addr = x) (ey : ko.addr = y)
    (hK : Core K) (hp : kp ∈ K) (ho : ko ∈ K)
    (hpo : kp.addr ≠ ko.addr) (wp : Waiting kp) (wo : Waiting ko)
    (hpl : kp.last_opponent = some ko.addr) (hol : ko.last_opponent = some kp.addr)
    (hW : ∀ a ∈ K, ∀ b ∈ K, a.addr ≠ kp.addr → a.addr ≠ ko.addr → b.addr ≠ kp.addr →
      b.addr ≠ ko.addr → a.addr ≠ b.addr → Waiting a → Waiting b → Settled a b)
    (h5 : rematch x K o = some (K5, w5, o5))
    (h6 : rematch y K5 o5 = some (K6, w6, o6)) : Inv K6 := by
  subst ex; subst ey
  have hdp : deref K kp.addr = some kp := deref_of_mem hK.nodup_addr hp
  have hdo : deref K ko.addr = some ko := deref_of_mem hK.nodup_addr ho
  rcases rematch_spec hdp h5 with ⟨n1, hn1, e1, rfl, rfl⟩ | ⟨hno1, hk5, hk5o⟩
  · -- the winner side is matched with n1
    have n1p : n1.addr ≠ kp.addr := e1.1
    have n1o : n1.addr ≠ ko.addr := by
      intro e; apply e1.2.2.2.1; rw [hpl, e]
    have wn1 : Waiting n1 := ⟨e1.2.1, e1.2.2.1⟩
    have hK5 := core_start_match hK o hp hn1 (Ne.symm n1p) wp wn1
    have hdo5 : deref (K.map (match_upd kp.addr n1.addr o)) ko.addr = some ko :=
      deref_match_other hK.nodup_addr ho (Ne.symm hpo) (Ne.symm n1o)
    have ho5 := (deref_some hdo5).1
    rcases rematch_spec hdo5 h6 with ⟨n2, hn2, e2, rfl, rfl⟩ | ⟨hno2, hk6, -⟩
    · have wn2 : Waiting n2 := ⟨e2.2.1, e2.2.2.1⟩
      refine ⟨core_start_match hK5 _ ho5 hn2 (Ne.symm e2.1) wo wn2, ?_⟩
      intro a ha b hb hab wa wb
      obtain ⟨ha1, ha2, -⟩ := waiting_of_match ha wa
      obtain ⟨hb1, hb2, -⟩ := waiting_of_match hb wb
      obtain ⟨ha3, ha4, -⟩ := waiting_of_match ha1 wa
      obtain ⟨hb3, hb4, -⟩ := waiting_of_match hb1 wb
      exact hW a ha3 b hb3 ha4 ha2 hb4 hb2 hab wa wb
    · rw [hk6]
      refine ⟨hK5, ?_⟩
      have key : ∀ a ∈ K.map (match_upd kp.addr n1.addr o), Waiting a →
          a.addr = ko.addr := by
        intro a ha wa
        by_contra hne
        obtain ⟨ha3, ha4, ha5⟩ := waiting_of_match ha wa
        have hal : a.last_opponent = some ko.addr := by
          by_contra hcon
          refine hno2 a ha ⟨hne, wa.1, wa.2, ?_, hcon⟩
          rw [hol]; intro e; exact ha4 (Option.some.inj e).symm
        have := (hW a ha3 n1 hn1 ha4 hne n1p n1o ha5 wa wn1).1
        rw [hal] at this
        rcases this with e | e
        · exact n1o (Option.some.inj e).symm
        · cases e
      intro a ha b hb hab wa wb
      exact absurd ((key a ha wa).trans (key b hb wb).symm) hab
  · -- the winner side stays unmatched: every other waiting record points at it
    have factA : ∀ a ∈ K, a.addr ≠ kp.addr → a.addr ≠ ko.addr → Waiting a →
        a.last_opponent = some kp.addr := by
      intro a ha h1 h2 wa
      by_contra hcon
      refine hno1 a ha ⟨h1, wa.1, wa.2, ?_, hcon⟩
      rw [hpl]; intro e; exact h2 (Option.some.inj e).symm
    rw [hk5] at h6
    rcases rematch_spec hdo h6 with ⟨n2, hn2, e2, rfl, rfl⟩ | ⟨hno2, hk6, -⟩
    · have wn2 : Waiting n2 := ⟨e2.2.1, e2.2.2.1⟩
      have n2o : n2.addr ≠ ko.addr := e2.1
      have n2p : n2.addr ≠ kp.addr := by
        intro e; apply e2.2.2.2.1; rw [hol, e]
      refine ⟨core_start_match hK _ ho hn2 (Ne.symm n2o) wo wn2, ?_⟩
      have key : ∀ a ∈ K.map (match_upd ko.addr n2.addr o5), Waiting a →
          a.addr = kp.addr := by
        intro a ha wa
        by_contra hne
        obtain ⟨ha3, ha4, ha5⟩ := waiting_of_match ha wa
        have hal := factA a ha3 hne ha4 wa
        have := (hW a ha3 n2 hn2 hne ha4 n2p n2o ha5 wa wn2).1
        rw [hal] at this
        rcases this with e | e
        · exact n2p (Option.some.inj e).symm
        · cases e
      intro a ha b hb hab wa wb
      exact absurd ((key a ha wa).trans (key b hb wb).symm) hab
    · rw [hk6]
      refine ⟨hK, ?_⟩
      have key : ∀ a ∈ K, Waiting a → a.addr = kp.addr ∨ a.addr = ko.addr := by
        intro a ha wa
        by_contra hne
        push_neg at hne
        have hal := factA a ha hne.1 hne.2 wa
        have hal2 : a.last_opponent = some ko.addr := by
          by_contra hcon
          refine hno2 a ha ⟨hne.2, wa.1, wa.2, ?_, hcon⟩
          rw [hol]; intro e; exact hne.1 (Option.some.inj e).symm
        rw [hal] at hal2
        exact hpo (Option.some.inj hal2)
      intro a ha b hb hab wa wb
      rcases key a ha wa with ea | ea <;> rcases key b hb wb with eb | eb
      · exact absurd (ea.trans eb.symm) hab
      · have := hK.eq_of_addr ha hp ea; subst this
        have := hK.eq_of_addr hb ho eb; subst this
        exact ⟨Or.inl hpl, Or.inl hpl⟩
      · have := hK.eq_of_addr ha ho ea; subst this
        have := hK.eq_of_addr hb hp eb; subst this
        exact ⟨Or.inl hol, Or.inl hol⟩
      · exact absurd (ea.trans eb.symm) hab

theorem rematch_names {K K1 : List Client} {x : Nat} {o o1 : Oracle} {w : List Write}
    (hres : rematch x K o = some (K1, w, o1)) :
    K1.map (fun c => (c.addr, c.name_entered)) = K.map (fun c => (c.addr, c.name_entered)) := by
  unfold rematch at hres
  split at hres
  · simp at hres
  · split at hres
    · obtain ⟨rfl, -⟩ := start_match_eq hres
      rw [List.map_map]
      apply List.map_congr_left
      intro c _
      simp
    · simp only [Option.some.injEq, Prod.mk.injEq] at hres
      obtain ⟨rfl, -⟩ := hres
      rfl

/-- The registry in which the two players of a battle have left the game and point at
each other: it satisfies the core invariant, both players wait in it, and the waiting
clause holds among the other records. -/
theorem leave_facts {top : List Client} (h : Inv top) {pc oc : Client}
    {F : Client → Client}
    (hp : pc ∈ top) (hoc : oc ∈ top) (hg : pc.in_game = true)
    (hl : pc.last_opponent = some oc.addr)
    (hFo : ∀ c ∈ top, c.addr ≠ pc.addr → c.addr ≠ oc.addr → F c = c)
    (hFl : ∀ c, (F c).addr = c.addr ∧ (F c).fd = c.fd ∧ (F c).in_game = c.in_game ∧
      (F c).last_opponent = c.last_opponent ∧ (F c).name_entered = c.name_entered ∧
      (F c).name = c.name) :
    Core (top.map (fun c => leave_battle pc.addr oc.addr (F c))) ∧
    leave_battle pc.addr oc.addr (F pc) ∈
      top.map (fun c => leave_battle pc.addr oc.addr (F c)) ∧
    leave_battle pc.addr oc.addr (F oc) ∈
      top.map (fun c => leave_battle pc.addr oc.addr (F c)) ∧
    leave_battle pc.addr oc.addr (F pc) =
      { F pc with in_game := false, last_opponent := some oc.addr } ∧
    leave_battle pc.addr oc.addr (F oc) =
      { F oc with in_game := false, last_opponent := some pc.addr } ∧
    Waiting (leave_battle pc.addr oc.addr (F pc)) ∧
    Waiting (leave_battle pc.addr oc.addr (F oc)) ∧
    (∀ a ∈ top.map (fun c => leave_battle pc.addr oc.addr (F c)),
      ∀ b ∈ top.map (fun c => leave_battle pc.addr oc.addr (F c)),
      a.addr ≠ pc.addr → a.addr ≠ oc.addr → b.addr ≠ pc.addr → b.addr ≠ oc.addr →
      a.addr ≠ b.addr → Waiting a → Waiting b → Settled a b) := by
  obtain ⟨hne, hog, hol, hot⟩ := h.partner hp hoc hg hl
  have hpo : pc.addr ≠ oc.addr := Ne.symm hne
  have hpn : pc.name_entered = true := (h.battle pc hp hg).1
  have hon : oc.name_entered = true := (h.battle oc hoc hog).1
  have hdp : deref (top.map F) pc.addr = some (F pc) := by
    rw [deref_map (fun c => (hFl c).1), deref_of_mem h.nodup_addr hp]; rfl
  have hdo : deref (top.map F) oc.addr = some (F oc) := by
    rw [deref_map (fun c => (hFl c).1), deref_of_mem h.nodup_addr hoc]; rfl
  -- the registry after the four assignments
  have hG : ∀ c ∈ top, c.addr ≠ pc.addr → c.addr ≠ oc.addr →
      leave_battle pc.addr oc.addr (F c) = c := by
    intro c hc h1 h2
    rw [hFo c hc h1 h2, leave_battle_other h1 h2]
  have hGp : ∀ c, c.addr = pc.addr ∨ c.addr = oc.addr →
      (leave_battle pc.addr oc.addr (F c)).in_game = false := by
    intro c hc
    rcases hc with e | e
    · rw [leave_battle_left hpo (by rw [(hFl c).1]; exact e)]
    · rw [leave_battle_right hpo (by rw [(hFl c).1]; exact e)]
  have hout : ∀ c ∈ top, (leave_battle pc.addr oc.addr (F c)).in_game = true →
      c.addr ≠ pc.addr ∧ c.addr ≠ oc.addr := by
    intro c _ hcg
    constructor
    · intro e; rw [hGp c (Or.inl e)] at hcg; cases hcg
    · intro e; rw [hGp c (Or.inr e)] at hcg; cases hcg
  have hK : Core (top.map (fun c => leave_battle pc.addr oc.addr (F c))) := by
    apply core_map h.toCore
    · intro c _; simp [(hFl c).1]
    · intro c _; simp [(hFl c).2.1]
    · intro c hc hcg
      obtain ⟨h1, h2⟩ := hout c hc hcg
      rw [hG c hc h1 h2] at hcg ⊢
      obtain ⟨d, hd, e1, e2, e3, e4, e5⟩ := h.paired c hc hcg
      have d1 : d.addr ≠ pc.addr := by
        intro e
        have := h.eq_of_addr hd hp e; subst this
        rw [hl] at e4; exact h2 (Option.some.inj e4).symm
      have d2 : d.addr ≠ oc.addr := by
        intro e
        have := h.eq_of_addr hd hoc e; subst this
        rw [hol] at e4; exact h1 (Option.some.inj e4).symm
      exact ⟨d, hd, e1, e2, by rw [hG d hd d1 d2]; exact e3,
        by rw [hG d hd d1 d2]; exact e4, by rw [hG d hd d1 d2]; exact e5⟩
    · intro c hc hcg
      obtain ⟨h1, h2⟩ := hout c hc hcg
      rw [hG c hc h1 h2] at hcg ⊢
      exact h.battle c hc hcg
    · intro c hc hcn
      simp only [leave_battle_name_entered, (hFl c).2.2.2.2.1] at hcn
      have h1 : c.addr ≠ pc.addr := by
        intro e; have := h.eq_of_addr hc hp e; subst this; rw [hpn] at hcn; cases hcn
      have h2 : c.addr ≠ oc.addr := by
        intro e; have := h.eq_of_addr hc hoc e; subst this; rw [hon] at hcn; cases hcn
      rw [hG c hc h1 h2]
      exact h.unnamed c hc hcn
    · intro a ha b hb hab na nb
      simp only [leave_battle_name_entered, leave_battle_name, (hFl a).2.2.2.2.1,
        (hFl b).2.2.2.2.1, (hFl a).2.2.2.2.2, (hFl b).2.2.2.2.2] at na nb ⊢
      exact h.names a ha b hb hab na nb
    · intro a ha na
      simp only [leave_battle_name_entered, leave_battle_name, (hFl a).2.2.2.2.1,
        (hFl a).2.2.2.2.2] at na ⊢
      exact h.named_nonempty a ha na
  have hkp : leave_battle pc.addr oc.addr (F pc) ∈
      top.map (fun c => leave_battle pc.addr oc.addr (F c)) :=
    List.mem_map.2 ⟨pc, hp, rfl⟩
  have hko : leave_battle pc.addr oc.addr (F oc) ∈
      top.map (fun c => leave_battle pc.addr oc.addr (F c)) :=
    List.mem_map.2 ⟨oc, hoc, rfl⟩
  have ekp : leave_battle pc.addr oc.addr (F pc) =
      { F pc with in_game := false, last_opponent := some oc.addr } :=
    leave_battle_left hpo (hFl pc).1
  have eko : leave_battle pc.addr oc.addr (F oc) =
      { F oc with in_game := false, last_opponent := some pc.addr } :=
    leave_battle_right hpo (hFl oc).1
  have hW : ∀ a ∈ top.map (fun c => leave_battle pc.addr oc.addr (F c)),
      ∀ b ∈ top.map (fun c => leave_battle pc.addr oc.addr (F c)),
      a.addr ≠ pc.addr → a.addr ≠ oc.addr → b.addr ≠ pc.addr → b.addr ≠ oc.addr →
      a.addr ≠ b.addr → Waiting a → Waiting b → Settled a b := by
    intro a ha b hb a1 a2 b1 b2 hab wa wb
    obtain ⟨a0, ha0, rfl⟩ := List.mem_map.1 ha
    obtain ⟨b0, hb0, rfl⟩ := List.mem_map.1 hb
    simp only [leave_battle_addr, (hFl a0).1, (hFl b0).1] at a1 a2 b1 b2
    rw [hG a0 ha0 a1 a2] at hab wa ⊢
    rw [hG b0 hb0 b1 b2] at hab wb ⊢
    exact h.waiting a0 ha0 b0 hb0 hab wa wb
  refine ⟨hK, hkp, hko, ekp, eko, ?_, ?_, hW⟩
  · rw [ekp]; exact ⟨rfl, by simp [(hFl pc).2.2.2.2.1, hpn]⟩
  · rw [eko]; exact ⟨rfl, by simp [(hFl oc).2.2.2.2.1, hon]⟩

/-- The end of a battle by defeat re-establishes the invariant, whatever the attack did
to the hitpoints and powermoves of the two players. -/
theorem end_battle_inv {top top1 : List Client} (h : Inv top) {pc oc : Client}
    {F : Client → Client} {won : Bool} {o : Oracle} {w : List Write}
    (hp : pc ∈ top) (hoc : oc ∈ top) (hg : pc.in_game = true)
    (hl : pc.last_opponent = some oc.addr)
    (hFo : ∀ c ∈ top, c.addr ≠ pc.addr → c.addr ≠ oc.addr → F c = c)
    (hFl : ∀ c, (F c).addr = c.addr ∧ (F c).fd = c.fd ∧ (F c).in_game = c.in_game ∧
      (F c).last_opponent = c.last_opponent ∧ (F c).name_entered = c.name_entered ∧
      (F c).name = c.name)
    (hres : end_battle pc.addr oc.addr (top.map F) won o = some (top1, w)) : Inv top1 := by
  obtain ⟨hK, hkp, hko, ekp, eko, wkp, wko, hW⟩ := leave_facts h hp hoc hg hl hFo hFl
  obtain ⟨hne, hog, hol, hot⟩ := h.partner hp hoc hg hl
  have hpo : pc.addr ≠ oc.addr := Ne.symm hne
  have hpn : pc.name_entered = true := (h.battle pc hp hg).1
  have hon : oc.name_entered = true := (h.battle oc hoc hog).1
  have hdp : deref (top.map F) pc.addr = some (F pc) := by
    rw [deref_map (fun c => (hFl c).1), deref_of_mem h.nodup_addr hp]; rfl
  have hdo : deref (top.map F) oc.addr = some (F oc) := by
    rw [deref_map (fun c => (hFl c).1), deref_of_mem h.nodup_addr hoc]; rfl
  unfold end_battle at hres
  rw [hdp, hdo] at hres
  dsimp only at hres
  rw [assign_leave_battle, List.map_map] at hres
  split at hres
  · simp at hres
  · rename_i K5 w5 o5 h5
    split at hres
    · simp at hres
    · rename_i K6 w6 o6 h6
      simp only [Option.some.injEq, Prod.mk.injEq] at hres
      obtain ⟨rfl, -⟩ := hres
      have a5 : (leave_battle pc.addr oc.addr (F pc)).addr = pc.addr := by simp [(hFl pc).1]
      have a6 : (leave_battle pc.addr oc.addr (F oc)).addr = oc.addr := by simp [(hFl oc).1]
      have hI : Inv K6 := by
        refine rematch_pass_inv a5 a6 hK hkp hko (by rw [a5, a6]; exact hpo) ?_ ?_ ?_ ?_ ?_
          h5 h6
        · rw [ekp]; exact ⟨rfl, by simp [(hFl pc).2.2.2.2.1, hpn]⟩
        · rw [eko]; exact ⟨rfl, by simp [(hFl oc).2.2.2.2.1, hon]⟩
        · rw [a6, ekp]
        · rw [a5, eko]
        · rw [a5, a6]; exact hW
      -- both names were entered before the battle, so the last two assignments change nothing
      have hnm : ∀ c ∈ K6, c.addr = pc.addr ∨ c.addr = oc.addr → c.name_entered = true := by
        intro c hc hca
        have hm : (c.addr, c.name_entered) ∈ K6.map (fun c => (c.addr, c.name_entered)) :=
          List.mem_map.2 ⟨c, hc, rfl⟩
        rw [rematch_names h6, rematch_names h5, List.map_map] at hm
        obtain ⟨c0, hc0, e0⟩ := List.mem_map.1 hm
        simp only [Function.comp, leave_battle_addr, leave_battle_name_entered,
          (hFl c0).1, (hFl c0).2.2.2.2.1, Prod.mk.injEq] at e0
        rw [← e0.2]
        rcases hca with e | e
        · have := h.eq_of_addr hc0 hp (e0.1.trans e); subst this; exact hpn
        · have := h.eq_of_addr hc0 hoc (e0.1.trans e); subst this; exact hon
      rw [assign_name_entered_id (fun c hc e => hnm c hc (Or.inl e)),
        assign_name_entered_id (fun c hc e => hnm c hc (Or.inr e))]
      exact hI

theorem attack_damage_nonneg (b : Nat) (o : Oracle) : 0 ≤ (attack_damage b o).1 := by
  unfold attack_damage
  split_ifs <;> simp <;> omega

theorem attack_upd_link (p oa b : Nat) (o : Oracle) (c : Client) :
    (attack_upd p oa b o c).addr = c.addr ∧ (attack_upd p oa b o c).fd = c.fd ∧
    (attack_upd p oa b o c).in_game = c.in_game ∧
    (attack_upd p oa b o c).last_opponent = c.last_opponent ∧
    (attack_upd p oa b o c).name_entered = c.name_entered ∧
    (attack_upd p oa b o c).name = c.name := by
  unfold attack_upd; dsimp only; split_ifs <;> simp

theorem attack_upd_other {p oa b : Nat} {o : Oracle} {c : Client} (h1 : c.addr ≠ p)
    (h2 : c.addr ≠ oa) : attack_upd p oa b o c = c := by
  simp [attack_upd, h1, h2]

theorem attack_top2 (p oa b : Nat) (o : Oracle) (top : List Client) :
    assign (if b = 97 then top
        else assign top p (fun c => { c with powermoves := c.powermoves - 1 })) oa
      (fun c => { c with hitpoints := c.hitpoints - (attack_damage b o).1 }) =
    top.map (attack_upd p oa b o) := by
  by_cases hb : b = 97
  · simp only [hb, if_true, assign]
    apply List.map_congr_left
    intro c _
    simp [attack_upd]
  · simp only [hb, if_false, assign, List.map_map]
    apply List.map_congr_left
    intro c _
    simp [attack_upd, hb, Function.comp]

theorem attack_top5 (p oa : Nat) (t : Int) (top : List Client) :
    assign (assign (assign top p (fun c => { c with is_turn := false })) oa
      (fun c => { c with is_turn := true })) oa
      (fun c => { c with start_time := t, time_left := 30 }) = top.map (pass_turn p oa t) := by
  simp only [assign, List.map_map]
  apply List.map_congr_left
  intro c _
  simp [pass_turn, Function.comp]

theorem attack_inv {top top1 : List Client} {pc : Client} {b : Nat} {o : Oracle}
    {ret : Int} {w : List Write} (h : Inv top) (hp : pc ∈ top) (hg : pc.in_game = true)
    (hb : b = 97 ∨ (b = 112 ∧ 0 < pc.powermoves))
    (hres : attack pc top b o = some (ret, top1, w)) : Inv top1 := by
  obtain ⟨oc, hoc, hl, hd, hne, hog, hol, hot⟩ := h.deref_partner hp hg
  unfold attack at hres
  split at hres
  · simp only [Option.some.injEq, Prod.mk.injEq] at hres
    obtain ⟨-, rfl, -⟩ := hres
    exact h
  · dsimp only at hres
    rw [hl] at hres
    dsimp only at hres
    split at hres
    · simp at hres
    · rw [attack_top2] at hres
      rw [deref_map (fun c => (attack_upd_link _ _ _ _ c).1),
        deref_map (fun c => (attack_upd_link _ _ _ _ c).1), hd,
        deref_of_mem h.nodup_addr hp] at hres
      simp only [Option.map_some'] at hres
      have hFo : ∀ c ∈ top, c.addr ≠ pc.addr → c.addr ≠ oc.addr →
          attack_upd pc.addr oc.addr b o c = c := fun c _ h1 h2 => attack_upd_other h1 h2
      split at hres
      · split at hres
        · simp at hres
        · rename_i top3 w3 he
          simp only [Option.some.injEq, Prod.mk.injEq] at hres
          obtain ⟨-, rfl, -⟩ := hres
          exact end_battle_inv h hp hoc hg hl hFo (attack_upd_link _ _ _ _) he
      · rename_i hA
        split at hres
        · split at hres
          · simp at hres
          · rename_i top3 w3 he
            simp only [Option.some.injEq, Prod.mk.injEq] at hres
            obtain ⟨-, rfl, -⟩ := hres
            exact end_battle_inv h hp hoc hg hl hFo (attack_upd_link _ _ _ _) he
        · simp only [Option.some.injEq, Prod.mk.injEq] at hres
          obtain ⟨-, rfl, -⟩ := hres
          rw [attack_top5, List.map_map]
          have hpo : pc.addr ≠ oc.addr := Ne.symm hne
          have hohp : 1 ≤ oc.hitpoints - (attack_damage b o).1 := by
            have e : (attack_upd pc.addr oc.addr b o oc).hitpoints =
                oc.hitpoints - (attack_damage b o).1 := by
              simp [attack_upd, hne]
            have e2 : (attack_upd pc.addr oc.addr b o oc).in_game = true := by
              rw [(attack_upd_link _ _ _ _ oc).2.2.1]; exact hog
            rw [e, e2] at hA
            simp only [and_true, not_le] at hA
            omega
          apply inv_frame h
          · intro c _
            obtain ⟨e1, e2, e3, e4, e5, e6⟩ := attack_upd_link pc.addr oc.addr b o c
            simp only [Function.comp, pass_turn]
            rw [← e1, ← e2, ← e3, ← e4, ← e5, ← e6]
            split_ifs <;> simp
          · apply turn_pair h.toCore hp hoc hg hl
            · intro c _ h1 h2
              simp [Function.comp, pass_turn, attack_upd_other h1 h2, h1, h2]
            · simp [Function.comp, pass_turn, (attack_upd_link _ _ _ _ _).1, hne, hpo]
          · intro c hc hcg
            obtain ⟨-, b2, b3, b4⟩ := h.battle c hc hcg
            by_cases h1 : c.addr = pc.addr
            · have := h.eq_of_addr hc hp h1; subst this
              have : 0 ≤ (attack_upd c.addr oc.addr b o c).powermoves := by
                simp only [attack_upd, hpo, if_false]
                split_ifs <;> (try simp) <;> omega
              have e2 : (attack_upd c.addr oc.addr b o c).hitpoints = c.hitpoints := by
                simp only [attack_upd, hpo, if_false]
                split_ifs <;> simp [hpo]
              simp [Function.comp, pass_turn, (attack_upd_link _ _ _ _ _).1, hpo, this, e2, b2]
            · by_cases h2 : c.addr = oc.addr
              · have := h.eq_of_addr hc hoc h2; subst this
                simp [Function.comp, pass_turn, (attack_upd_link _ _ _ _ _).1, hne]
                simp [attack_upd, hne, hohp, b3]
              · simp [Function.comp, pass_turn, attack_upd_other h1 h2, h1, h2, b2, b3]
                exact b4

theorem command_byte_inv {top top1 : List Client} {pc : Client} {b : Nat} {o : Oracle}
    {ret : Int} {w : List Write} (h : Inv top) (hp : pc ∈ top) (hg : pc.in_game = true)
    (hres : command_byte pc top b o = some (ret, top1, w)) : Inv top1 := by
  unfold command_byte at hres
  split at hres
  · exact chat_byte_inv h hres
  · split at hres
    · repeat' split at hres
      all_goals first
        | (simp at hres; done)
        | (simp only [Option.some.injEq, Prod.mk.injEq] at hres
           obtain ⟨-, rfl, -⟩ := hres
           exact h)
    · split at hres
      · simp only [Option.some.injEq, Prod.mk.injEq] at hres
        obtain ⟨-, rfl, -⟩ := hres
        apply inv_frame_same h
        intro c _
        split_ifs <;> simp
      · split at hres
        · rename_i hb
          exact attack_inv h hp hg hb.1 hres
        · simp only [Option.some.injEq, Prod.mk.injEq] at hres
          obtain ⟨-, rfl, -⟩ := hres
          exact h

theorem battle_byte_inv {top top1 : List Client} {pc : Client} {b : Nat} {o : Oracle}
    {ret : Int} {w : List Write} (h : Inv top) (hp : pc ∈ top) (hg : pc.in_game = true)
    (hres : battle_byte pc top b o = some (ret, top1, w)) : Inv top1 := by
  unfold battle_byte at hres
  split at hres
  · simp only [Option.some.injEq, Prod.mk.injEq] at hres
    obtain ⟨-, rfl, -⟩ := hres
    exact h
  · rename_i ht
    have ht1 : pc.is_turn = true := by simpa using ht
    dsimp only at hres
    rw [if_pos ⟨ht1, hg⟩] at hres
    split at hres
    · exact timeout_switch_inv h hp hg hres
    · exact command_byte_inv h hp hg hres

theorem timeout_switch_ret {top top1 : List Client} {pc : Client} {now ret : Int}
    {w : List Write} (hres : timeout_switch pc top now = some (ret, top1, w)) : ret = 0 := by
  unfold timeout_switch at hres
  dsimp only at hres
  repeat' split at hres
  all_goals first
    | (simp at hres; done)
    | (simp only [Option.some.injEq, Prod.mk.injEq] at hres; exact hres.1.symm)

theorem chat_byte_ret {top top1 : List Client} {pc : Client} {b : Nat} {ret : Int}
    {w : List Write} (hres : chat_byte pc top b = some (ret, top1, w)) : ret = 0 := by
  unfold chat_byte at hres
  dsimp only at hres
  repeat' split at hres
  all_goals first
    | (simp at hres; done)
    | (simp only [Option.some.injEq, Prod.mk.injEq] at hres; exact hres.1.symm)

theorem attack_ret {top top1 : List Client} {pc : Client} {b : Nat} {o : Oracle} {ret : Int}
    {w : List Write} (hres : attack pc top b o = some (ret, top1, w)) : ret = 0 := by
  unfold attack at hres
  dsimp only at hres
  repeat' split at hres
  all_goals first
    | (simp at hres; done)
    | (simp only [Option.some.injEq, Prod.mk.injEq] at hres; exact hres.1.symm)

theorem command_byte_ret {top top1 : List Client} {pc : Client} {b : Nat} {o : Oracle}
    {ret : Int} {w : List Write} (hres : command_byte pc top b o = some (ret, top1, w)) :
    ret = 0 := by
  unfold command_byte at hres
  split at hres
  · exact chat_byte_ret hres
  · split at hres
    · repeat' split at hres
      all_goals first
        | (simp at hres; done)
        | (simp only [Option.some.injEq, Prod.mk.injEq] at hres; exact hres.1.symm)
    · split at hres
      · simp only [Option.some.injEq, Prod.mk.injEq] at hres; exact hres.1.symm
      · split at hres
        · exact attack_ret hres
        · simp only [Option.some.injEq, Prod.mk.injEq] at hres; exact hres.1.symm

theorem battle_byte_ret {top top1 : List Client} {pc : Client} {b : Nat} {o : Oracle}
    {ret : Int} {w : List Write} (hres : battle_byte pc top b o = some (ret, top1, w)) :
    ret = 0 := by
  unfold battle_byte at hres
  dsimp only at hres
  split at hres
  · simp only [Option.some.injEq, Prod.mk.injEq] at hres; exact hres.1.symm
  · split at hres
    · split at hres
      · exact timeout_switch_ret hres
      · exact command_byte_ret hres
    · exact command_byte_ret hres

theorem name_byte_ret {top top1 : List Client} {pc : Client} {b : Nat} {o : Oracle}
    {ret : Int} {w : List Write} (hres : name_byte pc top b o = some (ret, top1, w)) :
    ret = 0 := by
  unfold name_byte at hres
  dsimp only at hres
  repeat' split at hres
  all_goals first
    | (simp at hres; done)
    | (simp only [Option.some.injEq, Prod.mk.injEq] at hres; exact hres.1.symm)

theorem handleclient_inv {top top1 : List Client} {p : Nat} {r : ReadResult} {o : Oracle}
    {ret : Int} {w : List Write} (h : Inv top)
    (hres : handleclient p top r o = some (ret, top1, w)) :
    Inv top1 ∧ (ret = -1 → top1 = top) := by
  unfold handleclient at hres
  split at hres
  · simp at hres
  · rename_i pc hd
    have hp := (deref_some hd).1
    split at hres
    · simp only [Option.some.injEq, Prod.mk.injEq] at hres
      obtain ⟨-, rfl, -⟩ := hres
      exact ⟨h, fun _ => rfl⟩
    · simp only [Option.some.injEq, Prod.mk.injEq] at hres
      obtain ⟨rfl, rfl, -⟩ := hres
      exact ⟨h, fun _ => rfl⟩
    · split at hres
      · simp only [Option.some.injEq, Prod.mk.injEq] at hres
        obtain ⟨rfl, rfl, -⟩ := hres
        exact ⟨h, fun _ => rfl⟩
      · split at hres
        · rename_i hg
          refine ⟨battle_byte_inv h hp hg hres, ?_⟩
          intro e; rw [battle_byte_ret hres] at e; cases e
        · split at hres
          · rename_i hn
            refine ⟨name_byte_inv h hp hn hres, ?_⟩
            intro e; rw [name_byte_ret hres] at e; cases e
          · simp only [Option.some.injEq, Prod.mk.injEq] at hres
            obtain ⟨rfl, rfl, -⟩ := hres
            exact ⟨h, fun _ => rfl⟩

theorem mem_remove {top : List Client} {pc a : Client} (h : Core top) (hp : pc ∈ top) :
    a ∈ top.filter (fun c => !decide (c.fd = pc.fd)) ↔ a ∈ top ∧ a.addr ≠ pc.addr := by
  simp only [List.mem_filter, Bool.not_eq_true', decide_eq_false_iff_not]
  constructor
  · rintro ⟨ha, hf⟩
    exact ⟨ha, fun e => hf (by rw [h.eq_of_addr ha hp e])⟩
  · rintro ⟨ha, hf⟩
    exact ⟨ha, fun e => hf (by rw [h.eq_of_fd ha hp e])⟩

theorem core_remove {top : List Client} {pc : Client} (h : Core top) (hp : pc ∈ top)
    (hg : pc.in_game = false) : Core (top.filter (fun c => !decide (c.fd = pc.fd))) := by
  have := @core_sub_map top (top.filter (fun c => !decide (c.fd = pc.fd))) id h
    (List.filter_sublist top) (fun _ _ => rfl) (fun _ _ => rfl) ?_ ?_ ?_ ?_ ?_
  · simpa using this
  · intro c hc hcg
    have hc1 := (mem_remove h hp).1 hc
    obtain ⟨d, hd, e1, e2, e3, e4, e5⟩ := h.paired c hc1.1 hcg
    refine ⟨d, (mem_remove h hp).2 ⟨hd, ?_⟩, e1, e2, e3, e4, e5⟩
    intro e
    have := h.eq_of_addr hd hp e; subst this
    rw [hg] at e3; cases e3
  · intro c hc hcg
    exact h.battle c ((mem_remove h hp).1 hc).1 hcg
  · intro c hc hcn
    exact h.unnamed c ((mem_remove h hp).1 hc).1 hcn
  · intro a ha b hb hab na nb
    exact h.names a ((mem_remove h hp).1 ha).1 b ((mem_remove h hp).1 hb).1 hab na nb
  · intro a ha na
    exact h.named_nonempty a ((mem_remove h hp).1 ha).1 na

theorem removeclient_assign {top : List Client} {pc : Client} {a : Nat} {f : Client → Client}
    (h : Core top) (hp : pc ∈ top) (hf : ∀ c, (f c).fd = c.fd) :
    removeclient (assign top a f) pc.fd =
      (top.filter (fun c => !decide (c.fd = pc.fd))).map
        (fun c => if c.addr = a then f c else c) := by
  have hfd : ∀ c : Client, (if c.addr = a then f c else c).fd = c.fd := by
    intro c; split_ifs <;> simp [hf]
  have e2 : (assign top a f).map Client.fd = top.map Client.fd := by
    unfold assign
    rw [List.map_map]; exact List.map_congr_left (fun c _ => hfd c)
  have hm : (if pc.addr = a then f pc else pc) ∈ assign top a f :=
    mem_assign.2 ⟨pc, hp, rfl⟩
  have := removeclient_eq_filter (e2 ▸ h.nodup_fd) hm
  rw [hfd pc] at this
  rw [this]
  unfold assign
  rw [List.filter_map]
  congr 1
  apply List.filter_congr
  intro c _
  simp [Function.comp, hfd]

theorem disconnect_inv {top top1 : List Client} {p : Nat} {o : Oracle} {w : List Write}
    (h : Inv top) (hres : disconnect_client p top o = some (top1, w)) : Inv top1 := by
  unfold disconnect_client at hres
  split at hres
  · simp at hres
  · rename_i pc hd
    have hp := (deref_some hd).1
    have hpa := (deref_some hd).2
    have hfd := h.fd_nonneg pc hp
    rw [if_neg (not_lt.2 hfd)] at hres
    dsimp only at hres
    by_cases hg : pc.in_game = true
    · obtain ⟨oc, hoc, hl, hdo, hne, hog, hol, hot⟩ := h.deref_partner hp hg
      have hcond : pc.in_game = true ∧ pc.last_opponent ≠ none := ⟨hg, by rw [hl]; simp⟩
      rw [if_pos hcond] at hres
      simp only [hl, Option.some_bind, hdo] at hres
      rw [@removeclient_assign top pc oc.addr
        (fun c => { c with in_game := false, last_opponent := none }) h.toCore hp
        (fun c => rfl)] at hres
      have hon : oc.name_entered = true := (h.battle oc hoc hog).1
      -- the records that stay, after the forfeit
      have hG : ∀ c : Client, c.addr ≠ oc.addr →
          (if c.addr = oc.addr then
            ({ c with in_game := false, last_opponent := none } : Client) else c) = c :=
        fun c hc => if_neg hc
      have hGo : (if oc.addr = oc.addr then
            ({ oc with in_game := false, last_opponent := none } : Client) else oc) =
          { oc with in_game := false, last_opponent := none } := if_pos rfl
      have hoL : oc ∈ top.filter (fun c => !decide (c.fd = pc.fd)) :=
        (mem_remove h.toCore hp).2 ⟨hoc, hne⟩
      have hR : Core ((top.filter (fun c => !decide (c.fd = pc.fd))).map
          (fun c => if c.addr = oc.addr then
            ({ c with in_game := false, last_opponent := none } : Client) else c)) := by
        apply core_sub_map h.toCore (List.filter_sublist top)
        · intro c _; split_ifs <;> rfl
        · intro c _; split_ifs <;> rfl
        · intro c hc hcg
          have hc1 := (mem_remove h.toCore hp).1 hc
          have h2 : c.addr ≠ oc.addr := by
            intro e; rw [if_pos e] at hcg; cases hcg
          rw [hG c h2] at hcg ⊢
          obtain ⟨d, hd1, e1, e2, e3, e4, e5⟩ := h.paired c hc1.1 hcg
          have d1 : d.addr ≠ pc.addr := by
            intro e
            have := h.eq_of_addr hd1 hp e; subst this
            rw [hl] at e4; exact h2 (Option.some.inj e4).symm
          have d2 : d.addr ≠ oc.addr := by
            intro e
            have := h.eq_of_addr hd1 hoc e; subst this
            rw [hol] at e4; exact hc1.2 (Option.some.inj e4).symm
          exact ⟨d, (mem_remove h.toCore hp).2 ⟨hd1, d1⟩, e1, e2, by rw [hG d d2]; exact e3,
            by rw [hG d d2]; exact e4, by rw [hG d d2]; exact e5⟩
        · intro c hc hcg
          have h2 : c.addr ≠ oc.addr := by
            intro e; rw [if_pos e] at hcg; cases hcg
          rw [hG c h2] at hcg ⊢
          exact h.battle c ((mem_remove h.toCore hp).1 hc).1 hcg
        · intro c hc hcn
          have hc1 := (mem_remove h.toCore hp).1 hc
          have h2 : c.addr ≠ oc.addr := by
            intro e
            have := h.eq_of_addr hc1.1 hoc e; subst this
            rw [if_pos rfl] at hcn
            simp only [] at hcn
            rw [hon] at hcn; cases hcn
          rw [hG c h2] at hcn ⊢
          exact h.unnamed c hc1.1 hcn
        · intro a ha b hb hab na nb
          have ea : ∀ c : Client, (if c.addr = oc.addr then
              ({ c with in_game := false, last_opponent := none } : Client) else c).name_entered
                = c.name_entered ∧ (if c.addr = oc.addr then
              ({ c with in_game := false, last_opponent := none } : Client) else c).name
                = c.name := by
            intro c; split_ifs <;> exact ⟨rfl, rfl⟩
          rw [(ea a).1] at na; rw [(ea b).1] at nb; rw [(ea a).2, (ea b).2]
          exact h.names a ((mem_remove h.toCore hp).1 ha).1 b
            ((mem_remove h.toCore hp).1 hb).1 hab na nb
        · intro a ha na
          have ea : (if a.addr = oc.addr then
              ({ a with in_game := false, last_opponent := none } : Client) else a).name_entered
                = a.name_entered ∧ (if a.addr = oc.addr then
              ({ a with in_game := false, last_opponent := none } : Client) else a).name
                = a.name := by
            split_ifs <;> exact ⟨rfl, rfl⟩
          rw [ea.1] at na; rw [ea.2]
          exact h.named_nonempty a ((mem_remove h.toCore hp).1 ha).1 na
      set R := (top.filter (fun c => !decide (c.fd = pc.fd))).map
          (fun c => if c.addr = oc.addr then
            ({ c with in_game := false, last_opponent := none } : Client) else c) with hRdef
      have hmem : ∀ a ∈ R, (a.addr ≠ oc.addr → a ∈ top ∧ a.addr ≠ pc.addr) ∧
          (a.addr = oc.addr → a.last_opponent = none) ∧ a.addr ≠ pc.addr := by
        intro a ha
        obtain ⟨c, hc, rfl⟩ := List.mem_map.1 ha
        have hc1 := (mem_remove h.toCore hp).1 hc
        by_cases e : c.addr = oc.addr
        · simp [e, hne]
        · rw [if_neg e]
          exact ⟨fun _ => hc1, fun e2 => absurd e2 e, hc1.2⟩
      have hGoR : ({ oc with in_game := false, last_opponent := none } : Client) ∈ R :=
        List.mem_map.2 ⟨oc, hoL, hGo⟩
      have hdR : deref R oc.addr = some { oc with in_game := false, last_opponent := none } :=
        deref_of_mem hR.nodup_addr hGoR
      have hnone : deref R p = none := by
        rw [deref_eq_none]
        intro c hc
        rw [← hpa]; exact (hmem c hc).2.2
      rw [hnone] at hres
      simp only [Option.isSome_none, Bool.false_eq_true, if_false, matchmaker_ptr, hdR]
        at hres
      split at hres
      · rename_i hm; simp at hm
      · rename_i hm
        simp only [Option.some.injEq] at hm
        simp only [Option.some.injEq, Prod.mk.injEq] at hres
        obtain ⟨rfl, -⟩ := hres
        have hno := matchmaker_none.1 hm
        refine ⟨hR, ?_⟩
        have hpt : ∀ a ∈ R, a.addr ≠ oc.addr → Waiting a →
            a.last_opponent = some oc.addr := by
          intro a ha hna wa
          by_contra hcon
          exact hno a ha ⟨hna, wa.1, wa.2, by simp, hcon⟩
        intro a ha b hb hab wa wb
        by_cases e1 : a.addr = oc.addr
        · have e2 : b.addr ≠ oc.addr := fun e => hab (e1.trans e.symm)
          refine ⟨Or.inr ((hmem a ha).2.1 e1), Or.inr ?_⟩
          rw [e1]; exact hpt b hb e2 wb
        · by_cases e2 : b.addr = oc.addr
          · have := hpt a ha e1 wa
            rw [← e2] at this
            exact ⟨Or.inl this, Or.inl this⟩
          · exact h.waiting a ((hmem a ha).1 e1).1 b ((hmem b hb).1 e2).1 hab wa wb
      · rename_i n hm
        simp only [Option.some.injEq] at hm
        obtain ⟨hn1, hn2⟩ := matchmaker_some hm
        split at hres
        · simp at hres
        · rename_i top3 w3 o3 hs
          simp only [Option.some.injEq, Prod.mk.injEq] at hres
          obtain ⟨rfl, -⟩ := hres
          obtain ⟨rfl, -⟩ := start_match_eq hs
          have hc2 := @core_start_match _ hR
            { oc with in_game := false, last_opponent := none } n o hGoR hn1
            (Ne.symm hn2.1) ⟨rfl, hon⟩ ⟨hn2.2.1, hn2.2.2.1⟩
          refine ⟨hc2, ?_⟩
          intro a ha b hb hab wa wb
          obtain ⟨ha1, ha2, -⟩ := waiting_of_match ha wa
          obtain ⟨hb1, hb2, -⟩ := waiting_of_match hb wb
          exact h.waiting a ((hmem a ha1).1 ha2).1 b ((hmem b hb1).1 hb2).1 hab wa wb
    · have hcond : ¬ (pc.in_game = true ∧ pc.last_opponent ≠ none) := fun hc => hg hc.1
      have hg0 : pc.in_game = false := by simpa using hg
      rw [if_neg hcond] at hres
      dsimp only at hres
      rw [removeclient_eq_filter h.nodup_fd hp] at hres
      have hL := core_remove h.toCore hp hg0
      have hnone : deref (top.filter (fun c => !decide (c.fd = pc.fd))) p = none := by
        rw [deref_eq_none]
        intro c hc
        rw [← hpa]; exact ((mem_remove h.toCore hp).1 hc).2
      have hI : Inv (top.filter (fun c => !decide (c.fd = pc.fd))) :=
        ⟨hL, fun a ha b hb hab wa wb =>
          h.waiting a ((mem_remove h.toCore hp).1 ha).1 b ((mem_remove h.toCore hp).1 hb).1
            hab wa wb⟩
      rw [hnone] at hres
      simp only [Option.isSome_none, Bool.false_eq_true, if_false] at hres
      split at hres
      · simp only [Option.some.injEq, Prod.mk.injEq] at hres
        obtain ⟨rfl, -⟩ := hres
        exact hI
      · rename_i oa hoa
        have hpn : pc.name_entered = true := by
          cases hn : pc.name_entered
          · have := h.unnamed pc hp hn; rw [hoa] at this; cases this
          · rfl
        have key : ∀ a ∈ top.filter (fun c => !decide (c.fd = pc.fd)), Waiting a →
            a.addr = oa := by
          intro a ha wa
          have ha1 := (mem_remove h.toCore hp).1 ha
          have := (h.waiting pc hp a ha1.1 (Ne.symm ha1.2) ⟨hg0, hpn⟩ wa).1
          rw [hoa] at this
          rcases this with e | e
          · exact (Option.some.inj e).symm
          · cases e
        have hmp : matchmaker_ptr (top.filter (fun c => !decide (c.fd = pc.fd))) oa =
            some none := by
          unfold matchmaker_ptr
          split
          · rename_i m hm
            congr 1
            rw [matchmaker_none]
            intro x hx hel
            have := key x hx ⟨hel.2.1, hel.2.2.1⟩
            exact hel.1 (this.trans (deref_some hm).2.symm)
          · rw [if_neg]
            simp only [List.any_eq_true, Bool.and_eq_true, bne_iff_ne, ne_eq,
              Bool.not_eq_true', not_exists, not_and]
            intro x hx hxa hxn
            exact hxa.1 (key x hx ⟨hxa.2, hxn⟩)
        rw [hmp] at hres
        simp only [Option.some.injEq, Prod.mk.injEq] at hres
        obtain ⟨rfl, -⟩ := hres
        exact hI

theorem addclient_inv {top : List Client} {fd : Int} {addr : Nat} {junk : Client}
    {welcome_ok : Bool} (h : Inv top) (hfd : 0 ≤ fd) (hf : ∀ c ∈ top, c.fd ≠ fd)
    (ha : ∀ c ∈ top, c.addr ≠ addr) : Inv (addclient top fd addr junk welcome_ok).1 := by
  unfold addclient
  dsimp only
  split_ifs
  swap
  · exact h
  · dsimp only
    refine ⟨⟨?_, ?_, ?_, ?_, ?_, ?_, ?_, ?_⟩, ?_⟩
    · rw [List.map_append, List.nodup_append]
      refine ⟨h.nodup_addr, by simp, ?_⟩
      intro x hx hy
      obtain ⟨c, hc, rfl⟩ := List.mem_map.1 hx
      simp only [List.map_cons, List.map_nil, List.mem_singleton] at hy
      exact ha c hc hy
    · rw [List.map_append, List.nodup_append]
      refine ⟨h.nodup_fd, by simp, ?_⟩
      intro x hx hy
      obtain ⟨c, hc, rfl⟩ := List.mem_map.1 hx
      simp only [List.map_cons, List.map_nil, List.mem_singleton] at hy
      exact hf c hc hy
    · intro c hc
      rcases List.mem_append.1 hc with hc | hc
      · exact h.fd_nonneg c hc
      · simp only [List.mem_singleton] at hc; subst hc; exact hfd
    · intro c hc hg
      rcases List.mem_append.1 hc with hc | hc
      · obtain ⟨d, hd, e⟩ := h.paired c hc hg
        exact ⟨d, List.mem_append_left _ hd, e⟩
      · simp only [List.mem_singleton] at hc; subst hc; cases hg
    · intro c hc hg
      rcases List.mem_append.1 hc with hc | hc
      · exact h.battle c hc hg
      · simp only [List.mem_singleton] at hc; subst hc; cases hg
    · intro c hc hn
      rcases List.mem_append.1 hc with hc | hc
      · exact h.unnamed c hc hn
      · simp only [List.mem_singleton] at hc; subst hc; rfl
    · intro a ha1 b hb hab na nb
      rcases List.mem_append.1 ha1 with ha1 | ha1
      · rcases List.mem_append.1 hb with hb | hb
        · exact h.names a ha1 b hb hab na nb
        · simp only [List.mem_singleton] at hb; subst hb; cases nb
      · simp only [List.mem_singleton] at ha1; subst ha1; cases na
    · intro a ha1 na
      rcases List.mem_append.1 ha1 with ha1 | ha1
      · exact h.named_nonempty a ha1 na
      · simp only [List.mem_singleton] at ha1; subst ha1; cases na
    · intro a ha1 b hb hab wa wb
      rcases List.mem_append.1 ha1 with ha1 | ha1
      · rcases List.mem_append.1 hb with hb | hb
        · exact h.waiting a ha1 b hb hab wa wb
        · simp only [List.mem_singleton] at hb; subst hb; cases wb.2
      · simp only [List.mem_singleton] at ha1; subst ha1; cases wa.2

theorem inv_nil : Inv [] :=
  ⟨⟨List.nodup_nil, List.nodup_nil, by simp, by simp, by simp, by simp, by simp, by simp⟩,
    by simp⟩

theorem main_step_inv {top top1 : List Client} {e : Event} {w : List Write} (h : Inv top)
    (hres : main_step top e = some (top1, w)) : Inv top1 := by
  cases e with
  | connect fd addr junk ok =>
    simp only [main_step] at hres
    split_ifs at hres with hc
    simp only [Option.some.injEq] at hres
    have := @addclient_inv top fd addr junk ok h hc.1 hc.2.1 hc.2.2.1
    rw [hres] at this
    exact this
  | ready p r o =>
    simp only [main_step] at hres
    split at hres
    · simp at hres
    · rename_i ret t1 w1 hh
      obtain ⟨hi, hr⟩ := handleclient_inv h hh
      split_ifs at hres with hret
      · split at hres
        · simp at hres
        · rename_i t2 w2 hdc
          simp only [Option.some.injEq, Prod.mk.injEq] at hres
          obtain ⟨rfl, -⟩ := hres
          exact disconnect_inv hi hdc
      · simp only [Option.some.injEq, Prod.mk.injEq] at hres
        obtain ⟨rfl, -⟩ := hres
        exact hi

/-- Every registry the server can reach satisfies the invariant. -/
theorem reachable_inv {top : List Client} (h : Reachable top) : Inv top := by
  induction h with
  | init => exact inv_nil
  | step e _ hs ih => exact main_step_inv ih hs

theorem reachable_run {top top1 : List Client} (evs : List Event) (h : Reachable top)
    (hr : run top evs = some top1) : Reachable top1 := by
  induction evs generalizing top with
  | nil =>
    simp only [run, Option.some.injEq] at hr
    exact hr ▸ h
  | cons e es ih =>
    simp only [run] at hr
    split at hr
    · cases hr
    · rename_i t w hs
      exact ih (Reachable.step e h hs) hr

theorem demo_battle_run : run [] demo_events = some demo_battle := by rfl

theorem demo_battle_reachable : Reachable demo_battle :=
  reachable_run demo_events Reachable.init demo_battle_run

/-- C1: in every reachable registry, a record with `in_game` set has a `last_opponent`
that points to a live record of the registry, which is itself in a game and whose
`last_opponent` points back. -/
theorem in_game_linked (top : List Client) (h : Reachable top) (c : Client) (hc : c ∈ top)
    (hg : c.in_game = true) :
    ∃ d, d ∈ top ∧ c.last_opponent = some d.addr ∧ deref top d.addr = some d ∧
      d.addr ≠ c.addr ∧ d.in_game = true ∧ d.last_opponent = some c.addr := by
  obtain ⟨d, h1, h2, h3, h4, h5, h6, -⟩ := (reachable_inv h).deref_partner hc hg
  exact ⟨d, h1, h2, h3, h4, h5, h6⟩

theorem in_game_linked_witness :
    ∃ c ∈ demo_battle, c.in_game = true ∧
      ∃ d, d ∈ demo_battle ∧ c.last_opponent = some d.addr ∧
        deref demo_battle d.addr = some d ∧ d.addr ≠ c.addr ∧ d.in_game = true ∧
        d.last_opponent = some c.addr :=
  ⟨_, List.mem_cons_self _ _, rfl,
    in_game_linked demo_battle demo_battle_reachable _ (List.mem_cons_self _ _) rfl⟩

/-- C6: in every reachable registry, of two records that are in a battle with each
other exactly one has `is_turn` set. -/
theorem one_turn_holder (top : List Client) (h : Reachable top) (a b : Client)
    (ha : a ∈ top) (hb : b ∈ top) (hg : a.in_game = true)
    (hl : a.last_opponent = some b.addr) :
    (a.is_turn = true ∧ b.is_turn = false) ∨ (a.is_turn = false ∧ b.is_turn = true) := by
  obtain ⟨-, -, -, ht⟩ := (reachable_inv h).partner ha hb hg hl
  cases hat : a.is_turn <;> simp [ht, hat]

theorem one_turn_holder_witness :
    ∃ a ∈ demo_battle, ∃ b ∈ demo_battle, a.in_game = true ∧
      a.last_opponent = some b.addr ∧
      ((a.is_turn = true ∧ b.is_turn = false) ∨ (a.is_turn = false ∧ b.is_turn = true)) :=
  ⟨_, List.mem_cons_self _ _, _, List.mem_cons_of_mem _ (List.mem_cons_self _ _), rfl, rfl,
    one_turn_holder demo_battle demo_battle_reachable _ _ (List.mem_cons_self _ _)
      (List.mem_cons_of_mem _ (List.mem_cons_self _ _)) rfl rfl⟩

/-- C7: in every reachable registry two distinct records with `name_entered` set have
different names, and such a name is never empty. -/
theorem confirmed_names_distinct (top : List Client) (h : Reachable top) (a b : Client)
    (ha : a ∈ top) (hb : b ∈ top) (hab : a ≠ b) (na : a.name_entered = true)
    (nb : b.name_entered = true) : a.name ≠ b.name ∧ a.name ≠ [] ∧ b.name ≠ [] := by
  have hi := reachable_inv h
  exact ⟨hi.names a ha b hb (fun e => hab (hi.eq_of_addr ha hb e)) na nb,
    hi.named_nonempty a ha na, hi.named_nonempty b hb nb⟩

theorem confirmed_names_distinct_witness :
    ∃ a ∈ demo_battle, ∃ b ∈ demo_battle, a ≠ b ∧ a.name_entered = true ∧
      b.name_entered = true ∧ a.name ≠ b.name ∧ a.name ≠ [] ∧ b.name ≠ [] :=
  ⟨_, List.mem_cons_self _ _, _, List.mem_cons_of_mem _ (List.mem_cons_self _ _),
    by decide, rfl, rfl,
    confirmed_names_distinct demo_battle demo_battle_reachable _ _ (List.mem_cons_self _ _)
      (List.mem_cons_of_mem _ (List.mem_cons_self _ _)) (by decide) rfl rfl⟩

/-- C8: `start_match` on two distinct live records returns; afterwards both have
hitpoints in [20,30] and powermoves in [1,3], both are in a game and point at each
other, exactly one holds the turn, with `time_left = 30` and `start_time` the clock
reading, and the notices tell the turn holder that it goes first and the other that it
goes second, each naming the other player. -/
theorem start_match_spec (top : List Client) (a b : Client) (o : Oracle)
    (ha : deref top a.addr = some a) (hb : deref top b.addr = some b)
    (hab : a.addr ≠ b.addr) :
    ∃ top1 a1 b1, start_match a.addr b.addr top o = some (top1,
        [(a.fd, Msg.match_started), (b.fd, Msg.match_started),
         (a.fd, Msg.matched b.name a1.is_turn), (b.fd, Msg.matched a.name b1.is_turn),
         switch_turn a1 b1, switch_turn b1 a1], o.skip 5 1) ∧
      deref top1 a.addr = some a1 ∧ deref top1 b.addr = some b1 ∧
      (20 ≤ a1.hitpoints ∧ a1.hitpoints ≤ 30) ∧ (20 ≤ b1.hitpoints ∧ b1.hitpoints ≤ 30) ∧
      (1 ≤ a1.powermoves ∧ a1.powermoves ≤ 3) ∧ (1 ≤ b1.powermoves ∧ b1.powermoves ≤ 3) ∧
      a1.in_game = true ∧ b1.in_game = true ∧
      a1.last_opponent = some b.addr ∧ b1.last_opponent = some a.addr ∧
      b1.is_turn = (!a1.is_turn) ∧
      (a1.is_turn = true → a1.time_left = 30 ∧ a1.start_time = o.time 0) ∧
      (b1.is_turn = true → b1.time_left = 30 ∧ b1.start_time = o.time 0) ∧
      (∀ n, (Msg.matched n true).text =
        "You are matched with " ++ cstring n ++ "! Let the battle begin!\nYou go first.\n") ∧
      (∀ n, (Msg.matched n false).text =
        "You are matched with " ++ cstring n ++ "! Let the battle begin!\nYou go second.\n") := by
  refine ⟨top.map (match_upd a.addr b.addr o),
    begin_battle a b.addr o (o.rand 4 % 2 == 0),
    begin_battle b a.addr (o.skip 2 0) (!(o.rand 4 % 2 == 0)), ?_, ?_, ?_, ?_, ?_, ?_, ?_,
    ?_, ?_, ?_, ?_, ?_, ?_, ?_, fun _ => rfl, fun _ => rfl⟩
  · obtain ⟨w, hw⟩ := start_match_isSome o ha hb
    rw [hw]
    unfold start_match at hw
    dsimp only at hw
    rw [deref_assign (by intro c; simp), deref_assign (by intro c; simp),
      deref_assign (by intro c; simp), deref_assign (by intro c; simp), ha, hb] at hw
    simp only [Option.map_some', if_true, begin_battle_addr, hab, hab.symm, if_false,
      Option.some.injEq, Prod.mk.injEq, begin_battle_fd, begin_battle_name, true_and,
      and_true] at hw
    simp only [begin_battle_is_turn]
    rw [← hw.2]
  · rw [deref_map (by intro c; simp), ha, Option.map_some', match_upd_left hab o rfl]
  · rw [deref_map (by intro c; simp), hb, Option.map_some', match_upd_right hab o rfl]
  · simp only [begin_battle_hitpoints]; omega
  · simp only [begin_battle_hitpoints]; omega
  · simp only [begin_battle_powermoves]; omega
  · simp only [begin_battle_powermoves]; omega
  · simp
  · simp
  · simp
  · simp
  · simp
  · intro ht
    simp only [begin_battle_is_turn] at ht
    rw [ht]; exact begin_battle_time_left _ _ _
  · intro ht
    simp only [begin_battle_is_turn] at ht
    rw [ht]
    have := begin_battle_time_left b a.addr (o.skip 2 0)
    simpa [Oracle.skip] using this

theorem start_match_spec_witness :
    (deref demo_lobby demo_a.addr = some demo_a ∧ deref demo_lobby demo_b.addr = some demo_b ∧
      demo_a.addr ≠ demo_b.addr) ∧
    ∃ top1 a1 b1, start_match demo_a.addr demo_b.addr demo_lobby demo_oracle = some (top1,
        [(demo_a.fd, Msg.match_started), (demo_b.fd, Msg.match_started),
         (demo_a.fd, Msg.matched demo_b.name a1.is_turn),
         (demo_b.fd, Msg.matched demo_a.name b1.is_turn),
         switch_turn a1 b1, switch_turn b1 a1], demo_oracle.skip 5 1) ∧
      deref top1 demo_a.addr = some a1 ∧ deref top1 demo_b.addr = some b1 ∧
      (20 ≤ a1.hitpoints ∧ a1.hitpoints ≤ 30) ∧ (20 ≤ b1.hitpoints ∧ b1.hitpoints ≤ 30) ∧
      (1 ≤ a1.powermoves ∧ a1.powermoves ≤ 3) ∧ (1 ≤ b1.powermoves ∧ b1.powermoves ≤ 3) ∧
      a1.in_game = true ∧ b1.in_game = true ∧
      a1.last_opponent = some demo_b.addr ∧ b1.last_opponent = some demo_a.addr ∧
      b1.is_turn = (!a1.is_turn) ∧
      (a1.is_turn = true → a1.time_left = 30 ∧ a1.start_time = demo_oracle.time 0) ∧
      (b1.is_turn = true → b1.time_left = 30 ∧ b1.start_time = demo_oracle.time 0) ∧
      (∀ n, (Msg.matched n true).text =
        "You are matched with " ++ cstring n ++ "! Let the battle begin!\nYou go first.\n") ∧
      (∀ n, (Msg.matched n false).text =
        "You are matched with " ++ cstring n ++ "! Let the battle begin!\nYou go second.\n") :=
  ⟨⟨rfl, rfl, by decide⟩,
    start_match_spec demo_lobby demo_a demo_b demo_oracle rfl rfl (by decide)⟩

theorem handleclient_turn {top : List Client} {p : Nat} {pc : Client} (b : Nat) (o : Oracle)
    (hd : deref top p = some pc) (hg : pc.in_game = true) (ht : pc.is_turn = true) :
    handleclient p top (.byte b) o =
      if pc.time_left ≤ o.time 0 - pc.start_time then timeout_switch pc top (o.time 0)
      else command_byte pc top b o := by
  simp [handleclient, hd, hg, ht, battle_byte]

theorem deref_of_addr_mem {L : List Client} {a : Nat} (h : a ∈ L.map Client.addr) :
    ∃ c, deref L a = some c := by
  cases hd : deref L a with
  | some c => exact ⟨c, rfl⟩
  | none =>
    obtain ⟨c, hc, e⟩ := List.mem_map.1 h
    exact absurd e (deref_eq_none.1 hd c hc)

theorem rematch_addrs {K K1 : List Client} {x : Nat} {o o1 : Oracle} {w : List Write}
    (hres : rematch x K o = some (K1, w, o1)) :
    K1.map Client.addr = K.map Client.addr := by
  have := congrArg (List.map Prod.fst) (rematch_names hres)
  simpa [List.map_map, Function.comp] using this

theorem rematch_total {K : List Client} {x : Nat} (o : Oracle)
    (hx : x ∈ K.map Client.addr) (hn : (K.map Client.addr).Nodup) :
    ∃ K1 w o1, rematch x K o = some (K1, w, o1) := by
  obtain ⟨xc, hxc⟩ := deref_of_addr_mem hx
  have e := (deref_some hxc).2
  subst e
  obtain ⟨⟨K1, w, o1⟩, hr⟩ := rematch_isSome o hxc hn
  exact ⟨K1, w, o1, hr⟩

/-- The end of a battle by defeat always returns: it is the two rematch attempts made
on the registry in which both players have left the game and point at each other. -/
theorem end_battle_spec {top : List Client} (h : Inv top) {pc oc : Client}
    {F : Client → Client} (won : Bool) (o : Oracle)
    (hp : pc ∈ top) (hoc : oc ∈ top) (hg : pc.in_game = true)
    (hl : pc.last_opponent = some oc.addr)
    (hFl : ∀ c, (F c).addr = c.addr ∧ (F c).fd = c.fd ∧ (F c).in_game = c.in_game ∧
      (F c).last_opponent = c.last_opponent ∧ (F c).name_entered = c.name_entered ∧
      (F c).name = c.name) :
    ∃ K5 w5 o5 K6 w6 o6,
      rematch pc.addr (top.map (fun c => leave_battle pc.addr oc.addr (F c))) o =
        some (K5, w5, o5) ∧
      rematch oc.addr K5 o5 = some (K6, w6, o6) ∧
      end_battle pc.addr oc.addr (top.map F) won o = some (K6,
        (if won then [(pc.fd, Msg.you_defeated oc.name), (oc.fd, Msg.defeated_you pc.name)]
          else [(pc.fd, Msg.defeated_you oc.name), (oc.fd, Msg.you_defeated pc.name)]) ++
        (if won then
          broadcast (top.map (fun c => leave_battle pc.addr oc.addr (F c)))
              (Msg.entered_arena oc.name) ++
            broadcast (top.map (fun c => leave_battle pc.addr oc.addr (F c)))
              (Msg.entered_arena pc.name)
          else
          broadcast (top.map (fun c => leave_battle pc.addr oc.addr (F c)))
              (Msg.entered_arena pc.name) ++
            broadcast (top.map (fun c => leave_battle pc.addr oc.addr (F c)))
              (Msg.entered_arena oc.name)) ++ w5 ++ w6) := by
  obtain ⟨hne, hog, hol, hot⟩ := h.partner hp hoc hg hl
  have hpn : pc.name_entered = true := (h.battle pc hp hg).1
  have hon : oc.name_entered = true := (h.battle oc hoc hog).1
  have hdp : deref (top.map F) pc.addr = some (F pc) := by
    rw [deref_map (fun c => (hFl c).1), deref_of_mem h.nodup_addr hp]; rfl
  have hdo : deref (top.map F) oc.addr = some (F oc) := by
    rw [deref_map (fun c => (hFl c).1), deref_of_mem h.nodup_addr hoc]; rfl
  have hKa : (top.map (fun c => leave_battle pc.addr oc.addr (F c))).map Client.addr =
      top.map Client.addr := by
    rw [List.map_map]
    exact List.map_congr_left (fun c _ => by simp [(hFl c).1])
  have hpa : pc.addr ∈ top.map Client.addr := List.mem_map_of_mem _ hp
  have hoa : oc.addr ∈ top.map Client.addr := List.mem_map_of_mem _ hoc
  obtain ⟨K5, w5, o5, h5⟩ := rematch_total o (hKa ▸ hpa) (hKa ▸ h.nodup_addr)
  have hK5a := (rematch_addrs h5).trans hKa
  obtain ⟨K6, w6, o6, h6⟩ := rematch_total o5 (hK5a ▸ hoa) (hK5a ▸ h.nodup_addr)
  refine ⟨K5, w5, o5, K6, w6, o6, h5, h6, ?_⟩
  have hnm : ∀ c ∈ K6, c.addr = pc.addr ∨ c.addr = oc.addr → c.name_entered = true := by
    intro c hc hca
    have hm : (c.addr, c.name_entered) ∈ K6.map (fun c => (c.addr, c.name_entered)) :=
      List.mem_map.2 ⟨c, hc, rfl⟩
    rw [rematch_names h6, rematch_names h5, List.map_map] at hm
    obtain ⟨c0, hc0, e0⟩ := List.mem_map.1 hm
    simp only [Function.comp, leave_battle_addr, leave_battle_name_entered,
      (hFl c0).1, (hFl c0).2.2.2.2.1, Prod.mk.injEq] at e0
    rw [← e0.2]
    rcases hca with e | e
    · have := h.eq_of_addr hc0 hp (e0.1.trans e); subst this; exact hpn
    · have := h.eq_of_addr hc0 hoc (e0.1.trans e); subst this; exact hon
  unfold end_battle
  rw [hdp, hdo]
  dsimp only
  rw [assign_leave_battle, List.map_map]
  have h5c : rematch pc.addr (List.map (leave_battle pc.addr oc.addr ∘ F) top) o =
      some (K5, w5, o5) := h5
  rw [h5c]
  dsimp only
  rw [h6]
  dsimp only
  rw [assign_name_entered_id (fun c hc e => hnm c hc (Or.inl e)),
    assign_name_entered_id (fun c hc e => hnm c hc (Or.inr e))]
  simp only [(hFl pc).2.1, (hFl oc).2.1, (hFl pc).2.2.2.2.2, (hFl oc).2.2.2.2.2]
  cases won <;> simp [Function.comp] <;> rfl

theorem attack_upd_opp {p : Nat} {oc : Client} (b : Nat) (o : Oracle) (hne : oc.addr ≠ p) :
    attack_upd p oc.addr b o oc =
      { oc with hitpoints := oc.hitpoints - (attack_damage b o).1 } := by
  simp [attack_upd, hne]

theorem attack_upd_self {pc : Client} {oa : Nat} (b : Nat) (o : Oracle)
    (hne : pc.addr ≠ oa) :
    attack_upd pc.addr oa b o pc =
      if b = 97 then pc else { pc with powermoves := pc.powermoves - 1 } := by
  by_cases hb : b = 97 <;> simp [attack_upd, hne, hb]

/-- What an accepted move of the turn holder does: the damage is applied, and then
either the battle ends by defeat or the turn passes. -/
theorem attack_spec {top : List Client} (h : Inv top) {pc : Client} {b : Nat}
    (hp : pc ∈ top) (hg : pc.in_game = true)
    (hb : b = 97 ∨ (b = 112 ∧ 0 < pc.powermoves)) (o : Oracle) :
    ∃ oc, oc ∈ top ∧ pc.last_opponent = some oc.addr ∧ oc.addr ≠ pc.addr ∧
      (if oc.hitpoints - (attack_damage b o).1 ≤ 0 then
        ∃ top1 w3, end_battle pc.addr oc.addr (top.map (attack_upd pc.addr oc.addr b o)) true
            (o.skip (attack_damage b o).2 1) = some (top1, w3) ∧
          attack pc top b o = some (0, top1,
            [(pc.fd, Msg.you_attacked oc.name (attack_damage b o).1),
             (oc.fd, Msg.attacked_you pc.name (attack_damage b o).1)] ++
            (if b = 112 ∧ (attack_damage b o).1 = 0 then
              [(pc.fd, Msg.your_power_move_missed), (oc.fd, Msg.power_move_missed pc.name)]
             else []) ++ w3)
      else
        attack pc top b o = some (0,
          top.map (fun c => pass_turn pc.addr oc.addr (o.time 1)
            (attack_upd pc.addr oc.addr b o c)),
          [(pc.fd, Msg.you_attacked oc.name (attack_damage b o).1),
           (oc.fd, Msg.attacked_you pc.name (attack_damage b o).1)] ++
          (if b = 112 ∧ (attack_damage b o).1 = 0 then
            [(pc.fd, Msg.your_power_move_missed), (oc.fd, Msg.power_move_missed pc.name)]
           else []) ++
          [(oc.fd, Msg.your_turn (oc.hitpoints - (attack_damage b o).1) oc.powermoves pc.name
              pc.hitpoints),
           (pc.fd, Msg.waiting_for oc.name)])) := by
  obtain ⟨oc, hoc, hl, hd, hne, hog, hol, hot⟩ := h.deref_partner hp hg
  refine ⟨oc, hoc, hl, hne, ?_⟩
  have hpo : pc.addr ≠ oc.addr := Ne.symm hne
  have hrefuse : ¬ (b ≠ 97 ∧ b = 112 ∧ pc.powermoves = 0) := by
    rintro ⟨h1, h2, h3⟩
    rcases hb with e | ⟨-, e⟩
    · exact h1 e
    · omega
  have hphp : 1 ≤ pc.hitpoints := (h.battle pc hp hg).2.1
  have e1 : (attack_upd pc.addr oc.addr b o oc).hitpoints =
      oc.hitpoints - (attack_damage b o).1 := by rw [attack_upd_opp b o hne]
  have e2 : (attack_upd pc.addr oc.addr b o oc).in_game = true := by
    rw [(attack_upd_link _ _ _ _ oc).2.2.1]; exact hog
  have e3 : (attack_upd pc.addr oc.addr b o pc).hitpoints = pc.hitpoints := by
    rw [attack_upd_self b o hpo]; split_ifs <;> rfl
  have e4 : (attack_upd pc.addr oc.addr b o oc).powermoves = oc.powermoves := by
    rw [attack_upd_opp b o hne]
  have hd1 : deref (if b = 97 then top else assign top pc.addr
      (fun c => { c with powermoves := c.powermoves - 1 })) oc.addr = some oc := by
    split_ifs
    · exact hd
    · rw [@deref_assign top pc.addr oc.addr
        (fun c => { c with powermoves := c.powermoves - 1 }) (fun c => rfl), hd]
      simp [hne]
  unfold attack
  rw [if_neg hrefuse]
  dsimp only
  rw [hl]
  dsimp only
  rw [hd1]
  dsimp only
  rw [attack_top2, deref_map (fun c => (attack_upd_link _ _ _ _ c).1),
    deref_map (fun c => (attack_upd_link _ _ _ _ c).1), hd, deref_of_mem h.nodup_addr hp]
  simp only [Option.map_some', e1, e2, e3, e4, and_true, (attack_upd_link _ _ _ _ _).2.1,
    (attack_upd_link _ _ _ _ _).2.2.2.2.2]
  split_ifs with hA hmiss hB hmiss
  all_goals first
    | (exfalso; omega)
    | (obtain ⟨K5, w5, o5, K6, w6, o6, -, -, he⟩ :=
        end_battle_spec h true (o.skip (attack_damage b o).2 1) hp hoc hg hl
          (attack_upd_link pc.addr oc.addr b o)
       refine ⟨K6, _, he, ?_⟩
       rw [he])
    | (rw [attack_top5, List.map_map]; rfl)

theorem handleclient_attack {top : List Client} {p : Nat} {pc : Client} {b : Nat}
    (h : Inv top) (o : Oracle) (hd : deref top p = some pc) (hg : pc.in_game = true)
    (ht : pc.is_turn = true) (hm : pc.is_messaging = false)
    (hdl : o.time 0 - pc.start_time < 30)
    (hb : b = 97 ∨ (b = 112 ∧ 0 < pc.powermoves)) :
    handleclient p top (.byte b) o = attack pc top b o := by
  have htl : pc.time_left = 30 := (h.battle pc (deref_some hd).1 hg).2.2.2 ht
  rw [handleclient_turn b o hd hg ht, htl, if_neg (by omega)]
  have h1 : b ≠ 116 := by rcases hb with e | ⟨e, -⟩ <;> omega
  have h2 : b ≠ 115 := by rcases hb with e | ⟨e, -⟩ <;> omega
  simp [command_byte, hm, h1, h2, hb]

theorem pass_turn_self {p oa : Nat} {c : Client} (t : Int) (hc : c.addr = p)
    (hne : p ≠ oa) : pass_turn p oa t c = { c with is_turn := false } := by
  simp [pass_turn, hc, hne]

theorem pass_turn_opp {p oa : Nat} {c : Client} (t : Int) (hc : c.addr = oa)
    (hne : oa ≠ p) :
    pass_turn p oa t c = { c with is_turn := true, start_time := t, time_left := 30 } := by
  simp [pass_turn, hc, hne]

@[simp] theorem pass_turn_addr (p oa : Nat) (t : Int) (c : Client) :
    (pass_turn p oa t c).addr = c.addr := by
  unfold pass_turn; dsimp only; split_ifs <;> rfl

/-- C9: when the accepted move of the turn holder leaves the opponent with hitpoints
above 0, the step returns, the attacker loses the turn and the opponent gets it with
`time_left = 30` and `start_time` the clock reading, and the two result lines name
the other player and the damage, which is exactly the drop of the opponent's
hitpoints. -/
theorem attack_passes_turn (top : List Client) (h : Reachable top) (p : Nat) (pc : Client)
    (b : Nat) (o : Oracle) (hd : deref top p = some pc) (hg : pc.in_game = true)
    (ht : pc.is_turn = true) (hm : pc.is_messaging = false)
    (hdl : o.time 0 - pc.start_time < 30)
    (hb : b = 97 ∨ (b = 112 ∧ 0 < pc.powermoves)) :
    ∃ oc, deref top oc.addr = some oc ∧ pc.last_opponent = some oc.addr ∧
      (0 < oc.hitpoints - (attack_damage b o).1 →
        ∃ top1 p1 o1, handleclient p top (.byte b) o = some (0, top1,
            [(pc.fd, Msg.you_attacked oc.name (attack_damage b o).1),
             (oc.fd, Msg.attacked_you pc.name (attack_damage b o).1)] ++
            (if b = 112 ∧ (attack_damage b o).1 = 0 then
              [(pc.fd, Msg.your_power_move_missed), (oc.fd, Msg.power_move_missed pc.name)]
             else []) ++
            [(oc.fd, Msg.your_turn o1.hitpoints o1.powermoves pc.name p1.hitpoints),
             (pc.fd, Msg.waiting_for oc.name)]) ∧
          deref top1 p = some p1 ∧ deref top1 oc.addr = some o1 ∧
          p1.is_turn = false ∧ o1.is_turn = true ∧
          o1.time_left = 30 ∧ o1.start_time = o.time 1 ∧
          o1.hitpoints = oc.hitpoints - (attack_damage b o).1 ∧
          p1.in_game = true ∧ o1.in_game = true) ∧
      (∀ n d, (Msg.you_attacked n d).text =
        "\nYou attacked " ++ cstring n ++ " for " ++ toString d ++ " damage.\n") ∧
      (∀ n d, (Msg.attacked_you n d).text =
        cstring n ++ " attacked you for " ++ toString d ++ " damage.\n") := by
  have hi := reachable_inv h
  have hp := (deref_some hd).1
  have hpa := (deref_some hd).2
  obtain ⟨oc, hoc, hl, hne, hspec⟩ := attack_spec hi hp hg hb o
  have hpo : pc.addr ≠ oc.addr := Ne.symm hne
  obtain ⟨-, hog, -, -⟩ := hi.partner hp hoc hg hl
  refine ⟨oc, deref_of_mem hi.nodup_addr hoc, hl, ?_, fun _ _ => rfl, fun _ _ => rfl⟩
  intro hpos
  rw [if_neg (by omega)] at hspec
  have ep : pass_turn pc.addr oc.addr (o.time 1) (attack_upd pc.addr oc.addr b o pc) =
      { attack_upd pc.addr oc.addr b o pc with is_turn := false } :=
    pass_turn_self _ (attack_upd_link _ _ _ _ pc).1 hpo
  have eo : pass_turn pc.addr oc.addr (o.time 1) (attack_upd pc.addr oc.addr b o oc) =
      { attack_upd pc.addr oc.addr b o oc with
        is_turn := true, start_time := o.time 1, time_left := 30 } :=
    pass_turn_opp _ (attack_upd_link _ _ _ _ oc).1 hne
  refine ⟨top.map (fun c => pass_turn pc.addr oc.addr (o.time 1)
      (attack_upd pc.addr oc.addr b o c)),
    pass_turn pc.addr oc.addr (o.time 1) (attack_upd pc.addr oc.addr b o pc),
    pass_turn pc.addr oc.addr (o.time 1) (attack_upd pc.addr oc.addr b o oc),
    ?_, ?_, ?_, ?_, ?_, ?_, ?_, ?_, ?_, ?_⟩
  · rw [handleclient_attack hi o hd hg ht hm hdl hb, hspec, ep, eo]
    have e3 : (attack_upd pc.addr oc.addr b o pc).hitpoints = pc.hitpoints := by
      rw [attack_upd_self b o hpo]; split_ifs <;> rfl
    simp only [e3, attack_upd_opp b o hne]
  · rw [← hpa, deref_map (by intro c; simp [(attack_upd_link _ _ _ _ c).1]),
      deref_of_mem hi.nodup_addr hp, Option.map_some']
  · rw [deref_map (by intro c; simp [(attack_upd_link _ _ _ _ c).1]),
      deref_of_mem hi.nodup_addr hoc, Option.map_some']
  · rw [ep]
  · rw [eo]
  · rw [eo]
  · rw [eo]
  · rw [eo, attack_upd_opp b o hne]
  · rw [ep]; exact (attack_upd_link _ _ _ _ pc).2.2.1.trans hg
  · rw [eo]; exact (attack_upd_link _ _ _ _ oc).2.2.1.trans hog

/-- C10 (amended): when the turn holder of a battle sends any byte 30 or more seconds
after its turn began, the byte is not interpreted: the step only passes the turn and
gives both players `time_left = 30` and `start_time` the clock reading, the opponent is
sent the notice that states 0 damage and its status prompt, and the sender is sent a
notice that it did not attack; with fewer than 30 seconds elapsed there is no forced
switch and the byte is handled as a command. -/
theorem timeout_forces_switch (top : List Client) (h : Reachable top) (p : Nat)
    (pc : Client) (b : Nat) (o : Oracle) (hd : deref top p = some pc)
    (hg : pc.in_game = true) (ht : pc.is_turn = true) :
    ∃ oc, deref top oc.addr = some oc ∧ pc.last_opponent = some oc.addr ∧
      oc.addr ≠ p ∧
      (30 ≤ o.time 0 - pc.start_time →
        handleclient p top (.byte b) o = some (0,
          top.map (fun c =>
            if c.addr = p then
              { c with is_turn := false, time_left := 30, start_time := o.time 0 }
            else if c.addr = oc.addr then
              { c with is_turn := true, time_left := 30, start_time := o.time 0 }
            else c),
          [(oc.fd, Msg.times_up_opponent pc.name), (pc.fd, Msg.times_up_self),
           (oc.fd, Msg.status oc.hitpoints oc.powermoves pc.hitpoints)])) ∧
      (o.time 0 - pc.start_time < 30 →
        handleclient p top (.byte b) o = command_byte pc top b o) ∧
      (∀ n, (Msg.times_up_opponent n).text = "\nTime's up! " ++ cstring n ++
        " didn't make a move in time. 0 damage dealt. It's now your turn.\n") ∧
      Msg.times_up_self.text = "\nTime's up! You didnt attack. Wait till your turn.\n" := by
  have hi := reachable_inv h
  have hp := (deref_some hd).1
  have hpa := (deref_some hd).2
  obtain ⟨oc, hoc, hl, hdo, hne, hog, hol, hot⟩ := hi.deref_partner hp hg
  have htl : pc.time_left = 30 := (hi.battle pc hp hg).2.2.2 ht
  refine ⟨oc, hdo, hl, hpa ▸ hne, ?_, ?_, fun _ => rfl, rfl⟩
  · intro hlate
    rw [handleclient_turn b o hd hg ht, htl, if_pos hlate]
    have hmap : assign (assign (assign top pc.addr (fun c => { c with is_turn := false }))
        oc.addr (fun c => { c with is_turn := true, time_left := 30, start_time := o.time 0 }))
        pc.addr (fun c => { c with time_left := 30, start_time := o.time 0 }) =
        top.map (fun c =>
          if c.addr = p then
            { c with is_turn := false, time_left := 30, start_time := o.time 0 }
          else if c.addr = oc.addr then
            { c with is_turn := true, time_left := 30, start_time := o.time 0 }
          else c) := by
      simp only [assign, List.map_map]
      apply List.map_congr_left
      intro c _
      rw [← hpa]
      by_cases h1 : c.addr = pc.addr
      · simp [Function.comp, h1, Ne.symm hne]
      · by_cases h2 : c.addr = oc.addr
        · simp [Function.comp, h1, h2, hne]
        · simp [Function.comp, h1, h2]
    unfold timeout_switch
    rw [hl]
    dsimp only
    rw [hdo]
    dsimp only
    rw [hmap, deref_map (by intro c; split_ifs <;> rfl),
      deref_map (by intro c; split_ifs <;> rfl), hdo, deref_of_mem hi.nodup_addr hp]
    have hne2 : oc.addr ≠ p := hpa ▸ hne
    simp only [Option.map_some', hpa, if_true, hne2, if_false, switch_turn]
  · intro hearly
    rw [handleclient_turn b o hd hg ht, htl, if_neg (by omega)]

theorem timeout_forces_switch_witness :
    (deref demo_battle 200 = some demo_mover ∧ demo_mover.in_game = true ∧
      demo_mover.is_turn = true) ∧
    ∃ oc, deref demo_battle oc.addr = some oc ∧ demo_mover.last_opponent = some oc.addr ∧
      oc.addr ≠ 200 ∧
      (30 ≤ (fixed_oracle [] [1030]).time 0 - demo_mover.start_time →
        handleclient 200 demo_battle (.byte 97) (fixed_oracle [] [1030]) = some (0,
          demo_battle.map (fun c =>
            if c.addr = 200 then
              { c with is_turn := false, time_left := 30,
                       start_time := (fixed_oracle [] [1030]).time 0 }
            else if c.addr = oc.addr then
              { c with is_turn := true, time_left := 30,
                       start_time := (fixed_oracle [] [1030]).time 0 }
            else c),
          [(oc.fd, Msg.times_up_opponent demo_mover.name), (demo_mover.fd, Msg.times_up_self),
           (oc.fd, Msg.status oc.hitpoints oc.powermoves demo_mover.hitpoints)])) ∧
      ((fixed_oracle [] [1030]).time 0 - demo_mover.start_time < 30 →
        handleclient 200 demo_battle (.byte 97) (fixed_oracle [] [1030]) =
          command_byte demo_mover demo_battle 97 (fixed_oracle [] [1030])) ∧
      (∀ n, (Msg.times_up_opponent n).text = "\nTime's up! " ++ cstring n ++
        " didn't make a move in time. 0 damage dealt. It's now your turn.\n") ∧
      Msg.times_up_self.text = "\nTime's up! You didnt attack. Wait till your turn.\n" :=
  ⟨⟨rfl, rfl, rfl⟩,
    timeout_forces_switch demo_battle demo_battle_reachable 200 demo_mover 97
      (fixed_oracle [] [1030]) rfl rfl rfl⟩

/-- C10 (counterexample): in the reachable registry `demo_battle` the turn holder sends
a byte 30 seconds after its turn began; the one notice written to its own descriptor
is the text that it did not attack, in which the words 0 damage do not occur. -/
theorem timeout_notice_counterexample :
    Reachable demo_battle ∧ deref demo_battle 200 = some demo_mover ∧
    demo_mover.in_game = true ∧ demo_mover.is_turn = true ∧
    30 ≤ (fixed_oracle [] [1030]).time 0 - demo_mover.start_time ∧
    ∃ top1 w, handleclient 200 demo_battle (.byte 97) (fixed_oracle [] [1030]) =
        some (0, top1, w) ∧
      w.filter (fun x => decide (x.1 = demo_mover.fd)) = [(demo_mover.fd, Msg.times_up_self)] ∧
      contains_text "0 damage".data Msg.times_up_self.text.data = false :=
  ⟨demo_battle_reachable, rfl, rfl, rfl, by decide, _, _, rfl, rfl, by decide⟩

theorem attack_passes_turn_witness :
    (deref demo_battle 200 = some demo_mover ∧ demo_mover.in_game = true ∧
      demo_mover.is_turn = true ∧ demo_mover.is_messaging = false ∧
      (fixed_oracle [0] [1001, 1002]).time 0 - demo_mover.start_time < 30 ∧
      ((97 : Nat) = 97 ∨ ((97 : Nat) = 112 ∧ 0 < demo_mover.powermoves))) ∧
    ∃ oc, deref demo_battle oc.addr = some oc ∧ demo_mover.last_opponent = some oc.addr ∧
      (0 < oc.hitpoints - (attack_damage 97 (fixed_oracle [0] [1001, 1002])).1 →
        ∃ top1 p1 o1, handleclient 200 demo_battle (.byte 97)
            (fixed_oracle [0] [1001, 1002]) = some (0, top1,
            [(demo_mover.fd, Msg.you_attacked oc.name
                (attack_damage 97 (fixed_oracle [0] [1001, 1002])).1),
             (oc.fd, Msg.attacked_you demo_mover.name
                (attack_damage 97 (fixed_oracle [0] [1001, 1002])).1)] ++
            (if (97 : Nat) = 112 ∧ (attack_damage 97 (fixed_oracle [0] [1001, 1002])).1 = 0 then
              [(demo_mover.fd, Msg.your_power_move_missed),
               (oc.fd, Msg.power_move_missed demo_mover.name)]
             else []) ++
            [(oc.fd, Msg.your_turn o1.hitpoints o1.powermoves demo_mover.name p1.hitpoints),
             (demo_mover.fd, Msg.waiting_for oc.name)]) ∧
          deref top1 200 = some p1 ∧ deref top1 oc.addr = some o1 ∧
          p1.is_turn = false ∧ o1.is_turn = true ∧
          o1.time_left = 30 ∧ o1.start_time = (fixed_oracle [0] [1001, 1002]).time 1 ∧
          o1.hitpoints = oc.hitpoints - (attack_damage 97 (fixed_oracle [0] [1001, 1002])).1 ∧
          p1.in_game = true ∧ o1.in_game = true) ∧
      (∀ n d, (Msg.you_attacked n d).text =
        "\nYou attacked " ++ cstring n ++ " for " ++ toString d ++ " damage.\n") ∧
      (∀ n d, (Msg.attacked_you n d).text =
        cstring n ++ " attacked you for " ++ toString d ++ " damage.\n") :=
  ⟨⟨rfl, rfl, rfl, rfl, by decide, Or.inl rfl⟩,
    attack_passes_turn demo_battle demo_battle_reachable 200 demo_mover 97
      (fixed_oracle [0] [1001, 1002]) rfl rfl rfl rfl (by decide) (Or.inl rfl)⟩

theorem mem_match_addr {x y : Nat} {o : Oracle} {K : List Client} (hK : Core K) {c kc : Client}
    (hc : c ∈ K.map (match_upd x y o)) (hk : kc ∈ K) (e : c.addr = kc.addr) :
    c = match_upd x y o kc := by
  obtain ⟨c0, hc0, rfl⟩ := List.mem_map.1 hc
  rw [match_upd_addr] at e
  rw [hK.eq_of_addr hc0 hk e]

/-- After the two rematch attempts at the end of a battle neither player is in a game
with the other: each is either still waiting, pointing at the other, or in a game with
a third record. -/
theorem rematch_pass_links {K K5 K6 : List Client} {kp ko : Client} {o o5 o6 : Oracle}
    {w5 w6 : List Write} {x y : Nat} (ex : kp.addr = x) (ey : ko.addr = y)
    (hK : Core K) (hp : kp ∈ K) (ho : ko ∈ K)
    (hpo : kp.addr ≠ ko.addr) (wp : Waiting kp) (wo : Waiting ko)
    (hpl : kp.last_opponent = some ko.addr) (hol : ko.last_opponent = some kp.addr)
    (h5 : rematch x K o = some (K5, w5, o5))
    (h6 : rematch y K5 o5 = some (K6, w6, o6)) :
    ∀ c ∈ K6,
      (c.addr = x → (c.in_game = false ∧ c.last_opponent = some y) ∨
        (c.in_game = true ∧ c.last_opponent ≠ some y ∧ c.last_opponent ≠ none)) ∧
      (c.addr = y → (c.in_game = false ∧ c.last_opponent = some x) ∨
        (c.in_game = true ∧ c.last_opponent ≠ some x ∧ c.last_opponent ≠ none)) := by
  subst ex; subst ey
  have hdp : deref K kp.addr = some kp := deref_of_mem hK.nodup_addr hp
  have hdo : deref K ko.addr = some ko := deref_of_mem hK.nodup_addr ho
  rcases rematch_spec hdp h5 with ⟨n1, hn1, e1, rfl, rfl⟩ | ⟨hno1, hk5, hk5o⟩
  · have n1p : n1.addr ≠ kp.addr := e1.1
    have n1o : n1.addr ≠ ko.addr := by
      intro e; apply e1.2.2.2.1; rw [hpl, e]
    have wn1 : Waiting n1 := ⟨e1.2.1, e1.2.2.1⟩
    have hK5 := core_start_match hK o hp hn1 (Ne.symm n1p) wp wn1
    have hdo5 : deref (K.map (match_upd kp.addr n1.addr o)) ko.addr = some ko :=
      deref_match_other hK.nodup_addr ho (Ne.symm hpo) (Ne.symm n1o)
    have ho5 := (deref_some hdo5).1
    have hp5 : match_upd kp.addr n1.addr o kp ∈ K.map (match_upd kp.addr n1.addr o) :=
      List.mem_map_of_mem _ hp
    have ep5 : match_upd kp.addr n1.addr o kp =
        begin_battle kp n1.addr o (o.rand 4 % 2 == 0) := match_upd_left (Ne.symm n1p) o rfl
    rcases rematch_spec hdo5 h6 with ⟨n2, hn2, e2, rfl, rfl⟩ | ⟨hno2, hk6, -⟩
    · have n2p : n2.addr ≠ kp.addr := by
        intro e
        have := hK5.eq_of_addr hn2 hp5 (by rw [match_upd_addr]; exact e)
        have hg := e2.2.1
        rw [this, ep5] at hg
        simp at hg
      intro c hc
      constructor
      · intro ec
        have := mem_match_addr hK5 hc hp5 (by rw [match_upd_addr]; exact ec)
        rw [match_upd_other _ (by rw [match_upd_addr]; exact hpo)
          (by rw [match_upd_addr]; exact Ne.symm n2p), ep5] at this
        right
        rw [this]
        refine ⟨by simp, ?_, by simp⟩
        simp only [begin_battle_last_opponent, ne_eq, Option.some.injEq]
        exact n1o
      · intro ec
        have := mem_match_addr hK5 hc ho5 ec
        rw [match_upd_left (Ne.symm e2.1) _ rfl] at this
        right
        rw [this]
        refine ⟨by simp, ?_, by simp⟩
        simp only [begin_battle_last_opponent, ne_eq, Option.some.injEq]
        exact n2p
    · rw [hk6]
      intro c hc
      constructor
      · intro ec
        have := hK5.eq_of_addr hc hp5 (by rw [match_upd_addr]; exact ec)
        right
        rw [this, ep5]
        refine ⟨by simp, ?_, by simp⟩
        simp only [begin_battle_last_opponent, ne_eq, Option.some.injEq]
        exact n1o
      · intro ec
        have := hK5.eq_of_addr hc ho5 ec
        left
        rw [this]
        exact ⟨wo.1, hol⟩
  · rw [hk5] at h6
    rcases rematch_spec hdo h6 with ⟨n2, hn2, e2, rfl, rfl⟩ | ⟨hno2, hk6, -⟩
    · have n2o : n2.addr ≠ ko.addr := e2.1
      have n2p : n2.addr ≠ kp.addr := by
        intro e; apply e2.2.2.2.1; rw [hol, e]
      intro c hc
      constructor
      · intro ec
        have := mem_match_addr hK hc hp ec
        rw [match_upd_other _ hpo (Ne.symm n2p)] at this
        left
        rw [this]
        exact ⟨wp.1, hpl⟩
      · intro ec
        have := mem_match_addr hK hc ho ec
        rw [match_upd_left (Ne.symm n2o) _ rfl] at this
        right
        rw [this]
        refine ⟨by simp, ?_, by simp⟩
        simp only [begin_battle_last_opponent, ne_eq, Option.some.injEq]
        exact n2p
    · rw [hk6]
      intro c hc
      constructor
      · intro ec
        have := hK.eq_of_addr hc hp ec
        left; rw [this]; exact ⟨wp.1, hpl⟩
      · intro ec
        have := hK.eq_of_addr hc ho ec
        left; rw [this]; exact ⟨wo.1, hol⟩

/-- The step in which an accepted move defeats the opponent, in full: the registry `K`
in which both players have left the game and point at each other, the two rematch
attempts made on it, the writes, and the links of the two players afterwards. -/
theorem defeat_spec {top : List Client} (h : Inv top) {p : Nat} {pc : Client} {b : Nat}
    (o : Oracle) (hd : deref top p = some pc) (hg : pc.in_game = true)
    (ht : pc.is_turn = true) (hm : pc.is_messaging = false)
    (hdl : o.time 0 - pc.start_time < 30)
    (hb : b = 97 ∨ (b = 112 ∧ 0 < pc.powermoves)) :
    ∃ oc, deref top oc.addr = some oc ∧ pc.last_opponent = some oc.addr ∧ oc.addr ≠ p ∧
      (oc.hitpoints - (attack_damage b o).1 ≤ 0 →
        ∃ K K5 w5 o5 K6 w6 o6 kp ko,
          K = top.map (fun c => leave_battle p oc.addr (attack_upd p oc.addr b o c)) ∧
          deref K p = some kp ∧ deref K oc.addr = some ko ∧
          kp.in_game = false ∧ ko.in_game = false ∧
          kp.last_opponent = some oc.addr ∧ ko.last_opponent = some p ∧
          rematch p K (o.skip (attack_damage b o).2 1) = some (K5, w5, o5) ∧
          rematch oc.addr K5 o5 = some (K6, w6, o6) ∧
          handleclient p top (.byte b) o = some (0, K6,
            [(pc.fd, Msg.you_attacked oc.name (attack_damage b o).1),
             (oc.fd, Msg.attacked_you pc.name (attack_damage b o).1)] ++
            (if b = 112 ∧ (attack_damage b o).1 = 0 then
              [(pc.fd, Msg.your_power_move_missed), (oc.fd, Msg.power_move_missed pc.name)]
             else []) ++
            ([(pc.fd, Msg.you_defeated oc.name), (oc.fd, Msg.defeated_you pc.name)] ++
              (broadcast K (Msg.entered_arena oc.name) ++
                broadcast K (Msg.entered_arena pc.name)) ++ w5 ++ w6)) ∧
          ∀ c ∈ K6,
            (c.addr = p → (c.in_game = false ∧ c.last_opponent = some oc.addr) ∨
              (c.in_game = true ∧ c.last_opponent ≠ some oc.addr ∧ c.last_opponent ≠ none)) ∧
            (c.addr = oc.addr → (c.in_game = false ∧ c.last_opponent = some p) ∨
              (c.in_game = true ∧ c.last_opponent ≠ some p ∧ c.last_opponent ≠ none))) := by
  have hp := (deref_some hd).1
  have hpa := (deref_some hd).2
  subst hpa
  obtain ⟨oc, hoc, hl, hne, hspec⟩ := attack_spec h hp hg hb o
  refine ⟨oc, deref_of_mem h.nodup_addr hoc, hl, hne, ?_⟩
  intro hle
  rw [if_pos hle] at hspec
  obtain ⟨top1, w3, he1, hatt⟩ := hspec
  have hFo : ∀ c ∈ top, c.addr ≠ pc.addr → c.addr ≠ oc.addr →
      attack_upd pc.addr oc.addr b o c = c := fun c _ h1 h2 => attack_upd_other h1 h2
  obtain ⟨hK, hkp, hko, ekp, eko, wkp, wko, -⟩ :=
    leave_facts h hp hoc hg hl hFo (attack_upd_link pc.addr oc.addr b o)
  obtain ⟨K5, w5, o5, K6, w6, o6, h5, h6, he⟩ :=
    end_battle_spec h true (o.skip (attack_damage b o).2 1) hp hoc hg hl
      (attack_upd_link pc.addr oc.addr b o)
  rw [he] at he1
  simp only [Option.some.injEq, Prod.mk.injEq] at he1
  obtain ⟨rfl, rfl⟩ := he1
  have a5 : (leave_battle pc.addr oc.addr (attack_upd pc.addr oc.addr b o pc)).addr =
      pc.addr := by simp [(attack_upd_link _ _ _ _ pc).1]
  have a6 : (leave_battle pc.addr oc.addr (attack_upd pc.addr oc.addr b o oc)).addr =
      oc.addr := by simp [(attack_upd_link _ _ _ _ oc).1]
  refine ⟨_, K5, w5, o5, K6, w6, o6, _, _, rfl, ?_, ?_, wkp.1, wko.1, ?_, ?_, h5, h6, ?_, ?_⟩
  · have := deref_of_mem hK.nodup_addr hkp
    rw [a5] at this; exact this
  · have := deref_of_mem hK.nodup_addr hko
    rw [a6] at this; exact this
  · rw [ekp]
  · rw [eko]
  · rw [handleclient_attack h o hd hg ht hm hdl hb, hatt]
    simp
  · refine rematch_pass_links a5 a6 hK hkp hko (by rw [a5, a6]; exact Ne.symm hne) wkp wko
      ?_ ?_ h5 h6
    · rw [a6, ekp]
    · rw [a5, eko]

/-- The step in which an accepted move leaves the opponent standing, in full. -/
theorem survive_spec {top : List Client} (h : Inv top) {p : Nat} {pc : Client} {b : Nat}
    (o : Oracle) (hd : deref top p = some pc) (hg : pc.in_game = true)
    (ht : pc.is_turn = true) (hm : pc.is_messaging = false)
    (hdl : o.time 0 - pc.start_time < 30)
    (hb : b = 97 ∨ (b = 112 ∧ 0 < pc.powermoves)) :
    ∃ oc, deref top oc.addr = some oc ∧ pc.last_opponent = some oc.addr ∧ oc.addr ≠ p ∧
      oc.in_game = true ∧ oc.last_opponent = some p ∧
      (0 < oc.hitpoints - (attack_damage b o).1 →
        ∃ top1 w, handleclient p top (.byte b) o = some (0, top1, w) ∧
          top1 = top.map (fun c => pass_turn p oc.addr (o.time 1)
            (attack_upd p oc.addr b o c)) ∧
          deref top1 p = some { attack_upd p oc.addr b o pc with is_turn := false } ∧
          deref top1 oc.addr = some { attack_upd p oc.addr b o oc with
            is_turn := true, start_time := o.time 1, time_left := 30 }) := by
  have hp := (deref_some hd).1
  have hpa := (deref_some hd).2
  subst hpa
  obtain ⟨oc, hoc, hl, hne, hspec⟩ := attack_spec h hp hg hb o
  obtain ⟨-, hog, hol, -⟩ := h.partner hp hoc hg hl
  refine ⟨oc, deref_of_mem h.nodup_addr hoc, hl, hne, hog, hol, ?_⟩
  intro hpos
  rw [if_neg (by omega)] at hspec
  refine ⟨_, _, (handleclient_attack h o hd hg ht hm hdl hb).trans hspec, rfl, ?_, ?_⟩
  · rw [deref_map (by intro c; simp [(attack_upd_link _ _ _ _ c).1]),
      deref_of_mem h.nodup_addr hp, Option.map_some',
      pass_turn_self _ (attack_upd_link _ _ _ _ pc).1 (Ne.symm hne)]
  · rw [deref_map (by intro c; simp [(attack_upd_link _ _ _ _ c).1]),
      deref_of_mem h.nodup_addr hoc, Option.map_some',
      pass_turn_opp _ (attack_upd_link _ _ _ _ oc).1 hne]

/-- C4: in every reachable registry a record in a battle has hitpoints of at least 1;
an accepted move that brings the opponent to 0 hitpoints or below ends the battle in
the same step with the attacker as the winner: both records leave the game and point
at each other (the registry `K`) before the two rematch attempts run on it, and after
the step neither is in a game with the other; an accepted move that leaves the opponent
with 1 hitpoint or more keeps both in the game and linked. -/
theorem defeat_ends_battle (top : List Client) (h : Reachable top) :
    (∀ c ∈ top, c.in_game = true → 1 ≤ c.hitpoints) ∧
    ∀ (p : Nat) (pc : Client) (b : Nat) (o : Oracle), deref top p = some pc →
      pc.in_game = true → pc.is_turn = true → pc.is_messaging = false →
      o.time 0 - pc.start_time < 30 → (b = 97 ∨ (b = 112 ∧ 0 < pc.powermoves)) →
      ∃ oc, deref top oc.addr = some oc ∧ pc.last_opponent = some oc.addr ∧ oc.addr ≠ p ∧
        (oc.hitpoints - (attack_damage b o).1 ≤ 0 →
          ∃ K K5 w5 o5 K6 w6 o6 kp ko,
            K = top.map (fun c => leave_battle p oc.addr (attack_upd p oc.addr b o c)) ∧
            deref K p = some kp ∧ deref K oc.addr = some ko ∧
            kp.in_game = false ∧ ko.in_game = false ∧
            kp.last_opponent = some oc.addr ∧ ko.last_opponent = some p ∧
            rematch p K (o.skip (attack_damage b o).2 1) = some (K5, w5, o5) ∧
            rematch oc.addr K5 o5 = some (K6, w6, o6) ∧
            handleclient p top (.byte b) o = some (0, K6,
              [(pc.fd, Msg.you_attacked oc.name (attack_damage b o).1),
               (oc.fd, Msg.attacked_you pc.name (attack_damage b o).1)] ++
              (if b = 112 ∧ (attack_damage b o).1 = 0 then
                [(pc.fd, Msg.your_power_move_missed),
                 (oc.fd, Msg.power_move_missed pc.name)]
               else []) ++
              ([(pc.fd, Msg.you_defeated oc.name), (oc.fd, Msg.defeated_you pc.name)] ++
                (broadcast K (Msg.entered_arena oc.name) ++
                  broadcast K (Msg.entered_arena pc.name)) ++ w5 ++ w6)) ∧
            ∀ c ∈ K6,
              (c.addr = p → c.in_game = true → c.last_opponent ≠ some oc.addr) ∧
              (c.addr = oc.addr → c.in_game = true → c.last_opponent ≠ some p)) ∧
        (0 < oc.hitpoints - (attack_damage b o).1 →
          ∃ top1 w p1 o1, handleclient p top (.byte b) o = some (0, top1, w) ∧
            deref top1 p = some p1 ∧ deref top1 oc.addr = some o1 ∧
            p1.in_game = true ∧ o1.in_game = true ∧
            p1.last_opponent = some oc.addr ∧ o1.last_opponent = some p ∧
            o1.hitpoints = oc.hitpoints - (attack_damage b o).1) := by
  have hi := reachable_inv h
  refine ⟨fun c hc hg => (hi.battle c hc hg).2.1, ?_⟩
  intro p pc b o hd hg ht hm hdl hb
  obtain ⟨oc, h1, h2, h3, hdef⟩ := defeat_spec hi o hd hg ht hm hdl hb
  obtain ⟨oc2, g1, g2, g3, g4, g5, hsur⟩ := survive_spec hi o hd hg ht hm hdl hb
  have hoo : oc2 = oc := by
    have e : oc2.addr = oc.addr := by rw [h2] at g2; exact (Option.some.inj g2).symm
    rw [e, h1] at g1
    exact (Option.some.inj g1).symm
  subst hoo
  refine ⟨oc2, h1, h2, h3, ?_, ?_⟩
  · intro hle
    obtain ⟨K, K5, w5, o5, K6, w6, o6, kp, ko, e1, e2, e3, e4, e5, e6, e7, e8, e9, e10, e11⟩ :=
      hdef hle
    refine ⟨K, K5, w5, o5, K6, w6, o6, kp, ko, e1, e2, e3, e4, e5, e6, e7, e8, e9, e10, ?_⟩
    intro c hc
    obtain ⟨f1, f2⟩ := e11 c hc
    constructor
    · intro ea hcg
      rcases f1 ea with ⟨x, -⟩ | ⟨-, x, -⟩
      · rw [hcg] at x; cases x
      · exact x
    · intro ea hcg
      rcases f2 ea with ⟨x, -⟩ | ⟨-, x, -⟩
      · rw [hcg] at x; cases x
      · exact x
  · intro hpos
    obtain ⟨top1, w, e1, -, e3, e4⟩ := hsur hpos
    have hpa := (deref_some hd).2
    refine ⟨top1, w, _, _, e1, e3, e4, ?_, ?_, ?_, ?_, ?_⟩
    · exact (attack_upd_link _ _ _ _ pc).2.2.1.trans hg
    · exact (attack_upd_link _ _ _ _ oc2).2.2.1.trans g4
    · exact (attack_upd_link _ _ _ _ pc).2.2.2.1.trans h2
    · exact (attack_upd_link _ _ _ _ oc2).2.2.2.1.trans g5
    · show (attack_upd p oc2.addr b o oc2).hitpoints = _
      rw [attack_upd_opp b o h3]

theorem demo_endgame_run : run [] demo_events2 = some demo_endgame := by rfl

theorem demo_endgame_reachable : Reachable demo_endgame :=
  reachable_run demo_events2 Reachable.init demo_endgame_run

theorem defeat_ends_battle_witness :
    Reachable demo_endgame ∧
    (deref demo_endgame 200 = some demo_victor ∧ demo_victor.in_game = true ∧
      demo_victor.is_turn = true ∧ demo_victor.is_messaging = false ∧
      (fixed_oracle [0] [1005, 1006]).time 0 - demo_victor.start_time < 30) ∧
    (∀ c ∈ demo_endgame, c.in_game = true → 1 ≤ c.hitpoints) ∧
    ∃ oc, deref demo_endgame oc.addr = some oc ∧
      demo_victor.last_opponent = some oc.addr ∧ oc.addr ≠ 200 ∧
      (oc.hitpoints - (attack_damage 97 (fixed_oracle [0] [1005, 1006])).1 ≤ 0 →
        ∃ K K5 w5 o5 K6 w6 o6 kp ko,
          K = demo_endgame.map (fun c => leave_battle 200 oc.addr
            (attack_upd 200 oc.addr 97 (fixed_oracle [0] [1005, 1006]) c)) ∧
          deref K 200 = some kp ∧ deref K oc.addr = some ko ∧
          kp.in_game = false ∧ ko.in_game = false ∧
          kp.last_opponent = some oc.addr ∧ ko.last_opponent = some 200 ∧
          rematch 200 K ((fixed_oracle [0] [1005, 1006]).skip
            (attack_damage 97 (fixed_oracle [0] [1005, 1006])).2 1) = some (K5, w5, o5) ∧
          rematch oc.addr K5 o5 = some (K6, w6, o6) ∧
          handleclient 200 demo_endgame (.byte 97) (fixed_oracle [0] [1005, 1006]) =
            some (0, K6,
              [(demo_victor.fd, Msg.you_attacked oc.name
                  (attack_damage 97 (fixed_oracle [0] [1005, 1006])).1),
               (oc.fd, Msg.attacked_you demo_victor.name
                  (attack_damage 97 (fixed_oracle [0] [1005, 1006])).1)] ++
              (if (97 : Nat) = 112 ∧
                  (attack_damage 97 (fixed_oracle [0] [1005, 1006])).1 = 0 then
                [(demo_victor.fd, Msg.your_power_move_missed),
                 (oc.fd, Msg.power_move_missed demo_victor.name)]
               else []) ++
              ([(demo_victor.fd, Msg.you_defeated oc.name),
                (oc.fd, Msg.defeated_you demo_victor.name)] ++
                (broadcast K (Msg.entered_arena oc.name) ++
                  broadcast K (Msg.entered_arena demo_victor.name)) ++ w5 ++ w6)) ∧
          ∀ c ∈ K6,
            (c.addr = 200 → c.in_game = true → c.last_opponent ≠ some oc.addr) ∧
            (c.addr = oc.addr → c.in_game = true → c.last_opponent ≠ some 200)) ∧
      (0 < oc.hitpoints - (attack_damage 97 (fixed_oracle [0] [1005, 1006])).1 →
        ∃ top1 w p1 o1, handleclient 200 demo_endgame (.byte 97)
            (fixed_oracle [0] [1005, 1006]) = some (0, top1, w) ∧
          deref top1 200 = some p1 ∧ deref top1 oc.addr = some o1 ∧
          p1.in_game = true ∧ o1.in_game = true ∧
          p1.last_opponent = some oc.addr ∧ o1.last_opponent = some 200 ∧
          o1.hitpoints = oc.hitpoints - (attack_damage 97 (fixed_oracle [0] [1005, 1006])).1) :=
  ⟨demo_endgame_reachable, ⟨rfl, rfl, rfl, rfl, by decide⟩,
    (defeat_ends_battle demo_endgame demo_endgame_reachable).1,
    (defeat_ends_battle demo_endgame demo_endgame_reachable).2 200 demo_victor 97
      (fixed_oracle [0] [1005, 1006]) rfl rfl rfl rfl (by decide) (Or.inl rfl)⟩

theorem kept_refl {top : List Client} {c : Client} (hc : c ∈ top) : Kept top c :=
  ⟨c, hc, rfl, Or.inl rfl, fun _ => Or.inl rfl⟩

theorem kept_map {top : List Client} {G : Client → Client}
    (hG : ∀ c ∈ top, (G c).addr = c.addr ∧
      ((G c).powermoves = c.powermoves ∨ 0 ≤ (G c).powermoves) ∧ (Waiting c → G c = c)) :
    ∀ k ∈ top.map G, Kept top k := by
  intro k hk
  obtain ⟨c, hc, rfl⟩ := List.mem_map.1 hk
  obtain ⟨h1, h2, h3⟩ := hG c hc
  exact ⟨c, hc, h1, h2, fun w => Or.inl (h3 w)⟩

/-- A match started by a record that was not waiting before the event keeps `Kept`. -/
theorem kept_match {top K : List Client} {x y : Nat} {o : Oracle} (h : Core top)
    (hK : ∀ k ∈ K, Kept top k) {c0 : Client} (hc0 : c0 ∈ top) (hx : c0.addr = x)
    (hw : ¬ Waiting c0) : ∀ k ∈ K.map (match_upd x y o), Kept top k := by
  intro k hk
  obtain ⟨k0, hk0, rfl⟩ := List.mem_map.1 hk
  obtain ⟨c, hc, e1, e2, e3⟩ := hK k0 hk0
  by_cases h1 : k0.addr = x
  · refine ⟨c, hc, by simp [e1], Or.inr ?_, ?_⟩
    · unfold match_upd; dsimp only; rw [if_pos h1]; split_ifs <;> simp <;> omega
    · intro wc
      have : c = c0 := h.eq_of_addr hc hc0 (by rw [← e1, h1, hx])
      exact absurd (this ▸ wc) hw
  · by_cases h2 : k0.addr = y
    · refine ⟨c, hc, by simp [e1], Or.inr ?_, ?_⟩
      · unfold match_upd; dsimp only; rw [if_neg h1, if_pos h2]; simp; omega
      · intro _
        right
        refine ⟨match_upd_in_game x y o (Or.inr h2), c0, hc0, ?_, hw⟩
        unfold match_upd; dsimp only; rw [if_neg h1, if_pos h2, hx]; simp
    · rw [match_upd_other o h1 h2]
      exact ⟨c, hc, e1, e2, e3⟩

theorem kept_rematch {top K K1 : List Client} {x : Nat} {o o1 : Oracle} {w : List Write}
    (h : Core top) (hK : ∀ k ∈ K, Kept top k) {c0 : Client} (hc0 : c0 ∈ top)
    (hx : c0.addr = x) (hw : ¬ Waiting c0)
    (hres : rematch x K o = some (K1, w, o1)) : ∀ k ∈ K1, Kept top k := by
  unfold rematch at hres
  split at hres
  · simp at hres
  · split at hres
    · obtain ⟨rfl, -⟩ := start_match_eq hres
      exact kept_match h hK hc0 hx hw
    · simp only [Option.some.injEq, Prod.mk.injEq] at hres
      obtain ⟨rfl, -⟩ := hres
      exact hK

theorem not_waiting_of_in_game {c : Client} (hg : c.in_game = true) : ¬ Waiting c := by
  intro w; rw [w.1] at hg; cases hg

theorem timeout_switch_kept {top top1 : List Client} {pc : Client} {now ret : Int}
    {w : List Write} (h : Inv top) (hp : pc ∈ top) (hg : pc.in_game = true)
    (hres : timeout_switch pc top now = some (ret, top1, w)) : ∀ k ∈ top1, Kept top k := by
  obtain ⟨oc, hoc, hl, hd, hne, hog, hol, hot⟩ := h.deref_partner hp hg
  simp only [timeout_switch, hl, hd] at hres
  split at hres
  · simp only [Option.some.injEq, Prod.mk.injEq] at hres
    obtain ⟨-, rfl, -⟩ := hres
    simp only [assign, List.map_map]
    apply kept_map
    intro c hc
    simp only [Function.comp]
    by_cases h1 : c.addr = pc.addr
    · have := h.eq_of_addr hc hp h1; subst this
      refine ⟨?_, ?_, fun wc => absurd wc (not_waiting_of_in_game hg)⟩ <;>
        split_ifs <;> simp
    · by_cases h2 : c.addr = oc.addr
      · have := h.eq_of_addr hc hoc h2; subst this
        refine ⟨?_, ?_, fun wc => absurd wc (not_waiting_of_in_game hog)⟩ <;>
          split_ifs <;> simp
      · simp [h1, h2]
  · simp at hres

theorem chat_byte_kept {top top1 : List Client} {pc : Client} {b : Nat} {ret : Int}
    {w : List Write} (h : Inv top) (hp : pc ∈ top) (hg : pc.in_game = true)
    (hres : chat_byte pc top b = some (ret, top1, w)) : ∀ k ∈ top1, Kept top k := by
  have hG : ∀ f : Client → Client, (∀ c, (f c).addr = c.addr ∧
      (f c).powermoves = c.powermoves) → ∀ k ∈ assign top pc.addr f, Kept top k := by
    intro f hf
    apply kept_map
    intro c hc
    by_cases h1 : c.addr = pc.addr
    · have := h.eq_of_addr hc hp h1; subst this
      simp only [if_true]
      exact ⟨(hf c).1, Or.inl (hf c).2, fun wc => absurd wc (not_waiting_of_in_game hg)⟩
    · simp [h1]
  unfold chat_byte at hres
  dsimp only at hres
  repeat' split at hres
  all_goals first
    | (simp at hres; done)
    | (simp only [Option.some.injEq, Prod.mk.injEq] at hres
       obtain ⟨-, rfl, -⟩ := hres
       first
       | exact fun k hk => kept_refl hk
       | exact hG _ (fun c => ⟨rfl, rfl⟩))

theorem attack_kept {top top1 : List Client} {pc : Client} {b : Nat} {o : Oracle}
    {ret : Int} {w : List Write} (h : Inv top) (hp : pc ∈ top) (hg : pc.in_game = true)
    (hb : b = 97 ∨ (b = 112 ∧ 0 < pc.powermoves))
    (hres : attack pc top b o = some (ret, top1, w)) : ∀ k ∈ top1, Kept top k := by
  obtain ⟨oc, hoc, hl, hne, hspec⟩ := attack_spec h hp hg hb o
  obtain ⟨-, hog, hol, -⟩ := h.partner hp hoc hg hl
  have hpo : pc.addr ≠ oc.addr := Ne.symm hne
  -- the attack itself keeps every record, and touches none that waits
  have hA : ∀ c ∈ top, (attack_upd pc.addr oc.addr b o c).addr = c.addr ∧
      ((attack_upd pc.addr oc.addr b o c).powermoves = c.powermoves ∨
        0 ≤ (attack_upd pc.addr oc.addr b o c).powermoves) ∧
      (Waiting c → attack_upd pc.addr oc.addr b o c = c) := by
    intro c hc
    refine ⟨(attack_upd_link _ _ _ _ c).1, ?_, ?_⟩
    · by_cases h1 : c.addr = pc.addr
      · have := h.eq_of_addr hc hp h1; subst this
        rw [attack_upd_self b o hpo]
        split_ifs
        · exact Or.inl rfl
        · right
          rcases hb with e | ⟨-, e⟩
          · contradiction
          · show 0 ≤ c.powermoves - 1
            omega
      · by_cases h2 : c.addr = oc.addr
        · have := h.eq_of_addr hc hoc h2; subst this
          rw [attack_upd_opp b o hne]
          exact Or.inl rfl
        · rw [attack_upd_other h1 h2]; exact Or.inl rfl
    · intro wc
      have h1 : c.addr ≠ pc.addr := by
        intro e; have := h.eq_of_addr hc hp e; subst this
        exact not_waiting_of_in_game hg wc
      have h2 : c.addr ≠ oc.addr := by
        intro e; have := h.eq_of_addr hc hoc e; subst this
        exact not_waiting_of_in_game hog wc
      exact attack_upd_other h1 h2
  by_cases hle : oc.hitpoints - (attack_damage b o).1 ≤ 0
  · rw [if_pos hle] at hspec
    obtain ⟨t1, w3, he1, hatt⟩ := hspec
    rw [hatt] at hres
    simp only [Option.some.injEq, Prod.mk.injEq] at hres
    obtain ⟨-, rfl, -⟩ := hres
    obtain ⟨K5, w5, o5, K6, w6, o6, h5, h6, he⟩ :=
      end_battle_spec h true (o.skip (attack_damage b o).2 1) hp hoc hg hl
        (attack_upd_link pc.addr oc.addr b o)
    rw [he] at he1
    simp only [Option.some.injEq, Prod.mk.injEq] at he1
    obtain ⟨rfl, -⟩ := he1
    have hK : ∀ k ∈ top.map (fun c => leave_battle pc.addr oc.addr
        (attack_upd pc.addr oc.addr b o c)), Kept top k := by
      apply kept_map
      intro c hc
      obtain ⟨a1, a2, a3⟩ := hA c hc
      refine ⟨by simp [a1], ?_, ?_⟩
      · have : (leave_battle pc.addr oc.addr (attack_upd pc.addr oc.addr b o c)).powermoves =
            (attack_upd pc.addr oc.addr b o c).powermoves := by
          unfold leave_battle; dsimp only; split_ifs <;> rfl
        rw [this]; exact a2
      · intro wc
        rw [a3 wc]
        apply leave_battle_other
        · intro e; have := h.eq_of_addr hc hp e; subst this
          exact not_waiting_of_in_game hg wc
        · intro e; have := h.eq_of_addr hc hoc e; subst this
          exact not_waiting_of_in_game hog wc
    have hK5 := kept_rematch h.toCore hK hp rfl (not_waiting_of_in_game hg) h5
    exact kept_rematch h.toCore hK5 hoc rfl (not_waiting_of_in_game hog) h6
  · rw [if_neg hle] at hspec
    rw [hspec] at hres
    simp only [Option.some.injEq, Prod.mk.injEq] at hres
    obtain ⟨-, rfl, -⟩ := hres
    apply kept_map
    intro c hc
    obtain ⟨a1, a2, a3⟩ := hA c hc
    refine ⟨by simp [a1], ?_, ?_⟩
    · have : (pass_turn pc.addr oc.addr (o.time 1)
          (attack_upd pc.addr oc.addr b o c)).powermoves =
          (attack_upd pc.addr oc.addr b o c).powermoves := by
        unfold pass_turn; dsimp only; split_ifs <;> rfl
      rw [this]; exact a2
    · intro wc
      rw [a3 wc]
      have h1 : c.addr ≠ pc.addr := by
        intro e; have := h.eq_of_addr hc hp e; subst this
        exact not_waiting_of_in_game hg wc
      have h2 : c.addr ≠ oc.addr := by
        intro e; have := h.eq_of_addr hc hoc e; subst this
        exact not_waiting_of_in_game hog wc
      simp [pass_turn, h1, h2]

theorem command_byte_kept {top top1 : List Client} {pc : Client} {b : Nat} {o : Oracle}
    {ret : Int} {w : List Write} (h : Inv top) (hp : pc ∈ top) (hg : pc.in_game = true)
    (hres : command_byte pc top b o = some (ret, top1, w)) : ∀ k ∈ top1, Kept top k := by
  have hG : ∀ f : Client → Client, (∀ c, (f c).addr = c.addr ∧
      (f c).powermoves = c.powermoves) → ∀ k ∈ assign top pc.addr f, Kept top k := by
    intro f hf
    apply kept_map
    intro c hc
    by_cases h1 : c.addr = pc.addr
    · have := h.eq_of_addr hc hp h1; subst this
      simp only [if_true]
      exact ⟨(hf c).1, Or.inl (hf c).2, fun wc => absurd wc (not_waiting_of_in_game hg)⟩
    · simp [h1]
  unfold command_byte at hres
  split at hres
  · exact chat_byte_kept h hp hg hres
  · split at hres
    · repeat' split at hres
      all_goals first
        | (simp at hres; done)
        | (simp only [Option.some.injEq, Prod.mk.injEq] at hres
           obtain ⟨-, rfl, -⟩ := hres
           exact fun k hk => kept_refl hk)
    · split at hres
      · simp only [Option.some.injEq, Prod.mk.injEq] at hres
        obtain ⟨-, rfl, -⟩ := hres
        exact hG _ (fun c => ⟨rfl, rfl⟩)
      · split at hres
        · rename_i hb
          exact attack_kept h hp hg hb.1 hres
        · simp only [Option.some.injEq, Prod.mk.injEq] at hres
          obtain ⟨-, rfl, -⟩ := hres
          exact fun k hk => kept_refl hk

theorem battle_byte_kept {top top1 : List Client} {pc : Client} {b : Nat} {o : Oracle}
    {ret : Int} {w : List Write} (h : Inv top) (hp : pc ∈ top) (hg : pc.in_game = true)
    (hres : battle_byte pc top b o = some (ret, top1, w)) : ∀ k ∈ top1, Kept top k := by
  unfold battle_byte at hres
  split at hres
  · simp only [Option.some.injEq, Prod.mk.injEq] at hres
    obtain ⟨-, rfl, -⟩ := hres
    exact fun k hk => kept_refl hk
  · rename_i ht
    have ht1 : pc.is_turn = true := by simpa using ht
    dsimp only at hres
    rw [if_pos ⟨ht1, hg⟩] at hres
    split at hres
    · exact timeout_switch_kept h hp hg hres
    · exact command_byte_kept h hp hg hres

theorem name_byte_kept {top top1 : List Client} {pc : Client} {b : Nat} {o : Oracle}
    {ret : Int} {w : List Write} (h : Inv top) (hp : pc ∈ top)
    (hn : pc.name_entered = false)
    (hres : name_byte pc top b o = some (ret, top1, w)) : ∀ k ∈ top1, Kept top k := by
  have hnw : ¬ Waiting pc := by intro wc; rw [wc.2] at hn; cases hn
  have hG : ∀ f : Client → Client, (∀ c, (f c).addr = c.addr ∧
      (f c).powermoves = c.powermoves) → ∀ k ∈ assign top pc.addr f, Kept top k := by
    intro f hf
    apply kept_map
    intro c hc
    by_cases h1 : c.addr = pc.addr
    · have := h.eq_of_addr hc hp h1; subst this
      simp only [if_true]
      exact ⟨(hf c).1, Or.inl (hf c).2, fun wc => absurd wc hnw⟩
    · simp [h1]
  unfold name_byte at hres
  dsimp only at hres
  split_ifs at hres with h1 h2 h3 h4 h5 h6
  · simp only [Option.some.injEq, Prod.mk.injEq] at hres
    obtain ⟨-, rfl, -⟩ := hres
    exact fun k hk => kept_refl hk
  · simp only [Option.some.injEq, Prod.mk.injEq] at hres
    obtain ⟨-, rfl, -⟩ := hres
    exact hG _ (fun c => ⟨rfl, rfl⟩)
  · split at hres
    · simp at hres
    · split at hres
      · split at hres
        · split at hres
          · simp at hres
          · rename_i top2 w3 o3 hs
            simp only [Option.some.injEq, Prod.mk.injEq] at hres
            obtain ⟨-, rfl, -⟩ := hres
            obtain ⟨rfl, -⟩ := start_match_eq hs
            exact kept_match h.toCore (hG _ (fun c => ⟨rfl, rfl⟩)) hp rfl hnw
        · simp only [Option.some.injEq, Prod.mk.injEq] at hres
          obtain ⟨-, rfl, -⟩ := hres
          exact hG _ (fun c => ⟨rfl, rfl⟩)
      · simp only [Option.some.injEq, Prod.mk.injEq] at hres
        obtain ⟨-, rfl, -⟩ := hres
        exact hG _ (fun c => ⟨rfl, rfl⟩)
  · simp only [Option.some.injEq, Prod.mk.injEq] at hres
    obtain ⟨-, rfl, -⟩ := hres
    exact fun k hk => kept_refl hk
  · simp only [Option.some.injEq, Prod.mk.injEq] at hres
    obtain ⟨-, rfl, -⟩ := hres
    exact hG _ (fun c => ⟨rfl, rfl⟩)
  · simp only [Option.some.injEq, Prod.mk.injEq] at hres
    obtain ⟨-, rfl, -⟩ := hres
    exact fun k hk => kept_refl hk

theorem handleclient_kept {top top1 : List Client} {p : Nat} {r : ReadResult} {o : Oracle}
    {ret : Int} {w : List Write} (h : Inv top)
    (hres : handleclient p top r o = some (ret, top1, w)) : ∀ k ∈ top1, Kept top k := by
  unfold handleclient at hres
  split at hres
  · simp at hres
  · rename_i pc hd
    have hp := (deref_some hd).1
    split at hres
    · simp only [Option.some.injEq, Prod.mk.injEq] at hres
      obtain ⟨-, rfl, -⟩ := hres
      exact fun k hk => kept_refl hk
    · simp only [Option.some.injEq, Prod.mk.injEq] at hres
      obtain ⟨-, rfl, -⟩ := hres
      exact fun k hk => kept_refl hk
    · split at hres
      · simp only [Option.some.injEq, Prod.mk.injEq] at hres
        obtain ⟨-, rfl, -⟩ := hres
        exact fun k hk => kept_refl hk
      · split at hres
        · rename_i hg
          exact battle_byte_kept h hp hg hres
        · split at hres
          · rename_i hn
            exact name_byte_kept h hp hn hres
          · simp only [Option.some.injEq, Prod.mk.injEq] at hres
            obtain ⟨-, rfl, -⟩ := hres
            exact fun k hk => kept_refl hk

theorem disconnect_kept {top top1 : List Client} {p : Nat} {o : Oracle} {w : List Write}
    (h : Inv top) (hres : disconnect_client p top o = some (top1, w)) :
    ∀ k ∈ top1, Kept top k := by
  unfold disconnect_client at hres
  split at hres
  · simp at hres
  · rename_i pc hd
    have hp := (deref_some hd).1
    have hpa := (deref_some hd).2
    have hfd := h.fd_nonneg pc hp
    rw [if_neg (not_lt.2 hfd)] at hres
    dsimp only at hres
    by_cases hg : pc.in_game = true
    · obtain ⟨oc, hoc, hl, hdo, hne, hog, hol, hot⟩ := h.deref_partner hp hg
      have hcond : pc.in_game = true ∧ pc.last_opponent ≠ none := ⟨hg, by rw [hl]; simp⟩
      rw [if_pos hcond] at hres
      simp only [hl, Option.some_bind, hdo] at hres
      rw [@removeclient_assign top pc oc.addr
        (fun c => { c with in_game := false, last_opponent := none }) h.toCore hp
        (fun c => rfl)] at hres
      have hK : ∀ k ∈ (top.filter (fun c => !decide (c.fd = pc.fd))).map
          (fun c => if c.addr = oc.addr then
            ({ c with in_game := false, last_opponent := none } : Client) else c),
          Kept top k := by
        intro k hk
        obtain ⟨c, hc, rfl⟩ := List.mem_map.1 hk
        have hc1 := ((mem_remove h.toCore hp).1 hc).1
        by_cases e : c.addr = oc.addr
        · have := h.eq_of_addr hc1 hoc e; subst this
          rw [if_pos rfl]
          exact ⟨c, hc1, rfl, Or.inl rfl, fun wc => absurd wc (not_waiting_of_in_game hog)⟩
        · rw [if_neg e]; exact kept_refl hc1
      set R := (top.filter (fun c => !decide (c.fd = pc.fd))).map
          (fun c => if c.addr = oc.addr then
            ({ c with in_game := false, last_opponent := none } : Client) else c) with hRdef
      split at hres
      · simp at hres
      · split at hres
        · simp at hres
        · simp only [Option.some.injEq, Prod.mk.injEq] at hres
          obtain ⟨rfl, -⟩ := hres
          exact hK
        · split at hres
          · simp at hres
          · rename_i top3 w3 o3 hs
            simp only [Option.some.injEq, Prod.mk.injEq] at hres
            obtain ⟨rfl, -⟩ := hres
            obtain ⟨rfl, -⟩ := start_match_eq hs
            exact kept_match h.toCore hK hoc rfl (not_waiting_of_in_game hog)
    · have hcond : ¬ (pc.in_game = true ∧ pc.last_opponent ≠ none) := fun hc => hg hc.1
      have hg0 : pc.in_game = false := by simpa using hg
      rw [if_neg hcond] at hres
      dsimp only at hres
      rw [removeclient_eq_filter h.nodup_fd hp] at hres
      have hK : ∀ k ∈ top.filter (fun c => !decide (c.fd = pc.fd)), Kept top k :=
        fun k hk => kept_refl ((mem_remove h.toCore hp).1 hk).1
      have hnone : deref (top.filter (fun c => !decide (c.fd = pc.fd))) p = none := by
        rw [deref_eq_none]
        intro c hc
        rw [← hpa]; exact ((mem_remove h.toCore hp).1 hc).2
      rw [hnone] at hres
      simp only [Option.isSome_none, Bool.false_eq_true, if_false] at hres
      split at hres
      · simp only [Option.some.injEq, Prod.mk.injEq] at hres
        obtain ⟨rfl, -⟩ := hres
        exact hK
      · rename_i oa hoa
        have hpn : pc.name_entered = true := by
          cases hn : pc.name_entered
          · have := h.unnamed pc hp hn; rw [hoa] at this; cases this
          · rfl
        have key : ∀ a ∈ top.filter (fun c => !decide (c.fd = pc.fd)), Waiting a →
            a.addr = oa := by
          intro a ha wa
          have ha1 := (mem_remove h.toCore hp).1 ha
          have := (h.waiting pc hp a ha1.1 (Ne.symm ha1.2) ⟨hg0, hpn⟩ wa).1
          rw [hoa] at this
          rcases this with e | e
          · exact (Option.some.inj e).symm
          · cases e
        have hmp : matchmaker_ptr (top.filter (fun c => !decide (c.fd = pc.fd))) oa =
            some none := by
          unfold matchmaker_ptr
          split
          · rename_i m hm
            congr 1
            rw [matchmaker_none]
            intro x hx hel
            have := key x hx ⟨hel.2.1, hel.2.2.1⟩
            exact hel.1 (this.trans (deref_some hm).2.symm)
          · rw [if_neg]
            simp only [List.any_eq_true, Bool.and_eq_true, bne_iff_ne, ne_eq,
              Bool.not_eq_true', not_exists, not_and]
            intro x hx hxa hxn
            exact hxa.1 (key x hx ⟨hxa.2, hxn⟩)
        rw [hmp] at hres
        simp only [Option.some.injEq, Prod.mk.injEq] at hres
        obtain ⟨rfl, -⟩ := hres
        exact hK

/-- One event of the loop: every record of the new registry is a record of the old one
that satisfies `Kept`, or the record of a connection accepted in this event. -/
theorem main_step_kept {top top1 : List Client} {e : Event} {w : List Write} (h : Inv top)
    (hres : main_step top e = some (top1, w)) :
    ∀ k ∈ top1, Kept top k ∨
      (k.in_game = false ∧ k.name_entered = false ∧ ∀ c ∈ top, c.addr ≠ k.addr) := by
  cases e with
  | connect fd addr junk ok =>
    simp only [main_step] at hres
    split_ifs at hres with hc
    simp only [Option.some.injEq] at hres
    unfold addclient at hres
    dsimp only at hres
    split_ifs at hres
    · simp only [Prod.mk.injEq] at hres
      obtain ⟨rfl, -⟩ := hres
      intro k hk
      rcases List.mem_append.1 hk with hk | hk
      · exact Or.inl (kept_refl hk)
      · simp only [List.mem_singleton] at hk
        subst hk
        exact Or.inr ⟨rfl, rfl, hc.2.2.1⟩
    · simp only [Prod.mk.injEq] at hres
      obtain ⟨rfl, -⟩ := hres
      exact fun k hk => Or.inl (kept_refl hk)
  | ready p r o =>
    simp only [main_step] at hres
    split at hres
    · simp at hres
    · rename_i ret t1 w1 hh
      obtain ⟨hi, hr⟩ := handleclient_inv h hh
      split_ifs at hres with hret
      · split at hres
        · simp at hres
        · rename_i t2 w2 hdc
          simp only [Option.some.injEq, Prod.mk.injEq] at hres
          obtain ⟨rfl, -⟩ := hres
          have := hr hret
          subst this
          exact fun k hk => Or.inl (disconnect_kept h hdc k hk)
      · simp only [Option.some.injEq, Prod.mk.injEq] at hres
        obtain ⟨rfl, -⟩ := hres
        exact fun k hk => Or.inl (handleclient_kept h hh k hk)

theorem idle_of_match {x y : Nat} {o : Oracle} {K : List Client} {a : Client}
    (ha : a ∈ K.map (match_upd x y o)) (hg : a.in_game = false) : a ∈ K := by
  obtain ⟨c, hc, rfl⟩ := List.mem_map.1 ha
  by_cases e : c.addr = x ∨ c.addr = y
  · rw [match_upd_in_game x y o e] at hg; cases hg
  · rw [match_upd_other o (fun e1 => e (Or.inl e1)) (fun e2 => e (Or.inr e2))]
    exact hc

/-- A rematch attempt changes no record that is out of a game after it. -/
theorem idle_of_rematch {x : Nat} {K K1 : List Client} {o o1 : Oracle} {w : List Write}
    (hres : rematch x K o = some (K1, w, o1)) {a : Client} (ha : a ∈ K1)
    (hg : a.in_game = false) : a ∈ K := by
  unfold rematch at hres
  split at hres
  · simp at hres
  · split at hres
    · obtain ⟨rfl, -⟩ := start_match_eq hres
      exact idle_of_match ha hg
    · simp only [Option.some.injEq, Prod.mk.injEq] at hres
      obtain ⟨rfl, -⟩ := hres
      exact ha

theorem attack_upd_fields {p : Nat} {pc oc : Client} (b : Nat) (o : Oracle)
    (hp : pc.addr = p) (hne : oc.addr ≠ p) (hb : b = 97 ∨ b = 112) :
    (attack_upd p oc.addr b o pc).hitpoints = pc.hitpoints ∧
    (attack_upd p oc.addr b o pc).powermoves =
      (if b = 112 then pc.powermoves - 1 else pc.powermoves) ∧
    (attack_upd p oc.addr b o oc).hitpoints = oc.hitpoints - (attack_damage b o).1 ∧
    (attack_upd p oc.addr b o oc).powermoves = oc.powermoves := by
  subst hp
  have hne2 : pc.addr ≠ oc.addr := Ne.symm hne
  rcases hb with rfl | rfl <;> simp [attack_upd, hne, hne2]

theorem attack_damage_range (o : Oracle) :
    (2 ≤ (attack_damage 97 o).1 ∧ (attack_damage 97 o).1 ≤ 6) ∧
    ((attack_damage 112 o).1 = 0 ∨
      ∃ k : Int, 2 ≤ k ∧ k ≤ 6 ∧ (attack_damage 112 o).1 = 3 * k) := by
  constructor
  · simp only [attack_damage, if_true]
    omega
  · unfold attack_damage
    rw [if_neg (by decide)]
    split_ifs
    · right
      exact ⟨((o.rand 1 % 5 : Nat) : Int) + 2, by omega, by omega, by ring⟩
    · left; rfl

/-- C5: for every oracle of random draws the damage of `a` lies in [2,6] and the damage
of `p` is 0 or three times a value in [2,6]; an accepted move of the turn holder takes
exactly that damage from the hitpoints of the opponent, leaves the hitpoints of the
attacker alone and, for `p`, takes one from the powermoves of the attacker: this is the
registry after the step when the opponent survives, and the registry `K` on which the
two rematch attempts run when it does not (a record out of a game after the step still
is its record of `K`).  In every reachable registry a record in a game has powermoves
of at least 0, and one event never changes the powermoves of a record to a negative
value. -/
theorem attack_effect (top : List Client) (h : Reachable top) :
    (∀ o : Oracle, (2 ≤ (attack_damage 97 o).1 ∧ (attack_damage 97 o).1 ≤ 6) ∧
      ((attack_damage 112 o).1 = 0 ∨
        ∃ k : Int, 2 ≤ k ∧ k ≤ 6 ∧ (attack_damage 112 o).1 = 3 * k)) ∧
    (∀ (p : Nat) (pc : Client) (b : Nat) (o : Oracle), deref top p = some pc →
      pc.in_game = true → pc.is_turn = true → pc.is_messaging = false →
      o.time 0 - pc.start_time < 30 → (b = 97 ∨ (b = 112 ∧ 0 < pc.powermoves)) →
      ∃ oc top1 w, deref top oc.addr = some oc ∧ pc.last_opponent = some oc.addr ∧
        oc.addr ≠ p ∧ handleclient p top (.byte b) o = some (0, top1, w) ∧
        (0 < oc.hitpoints - (attack_damage b o).1 →
          ∃ p1 o1, deref top1 p = some p1 ∧ deref top1 oc.addr = some o1 ∧
            o1.hitpoints = oc.hitpoints - (attack_damage b o).1 ∧
            p1.hitpoints = pc.hitpoints ∧
            p1.powermoves = (if b = 112 then pc.powermoves - 1 else pc.powermoves) ∧
            o1.powermoves = oc.powermoves) ∧
        (oc.hitpoints - (attack_damage b o).1 ≤ 0 →
          ∃ K K5 w5 o5 w6 o6 kp ko,
            K = top.map (fun c => leave_battle p oc.addr (attack_upd p oc.addr b o c)) ∧
            deref K p = some kp ∧ deref K oc.addr = some ko ∧
            ko.hitpoints = oc.hitpoints - (attack_damage b o).1 ∧
            kp.hitpoints = pc.hitpoints ∧
            kp.powermoves = (if b = 112 then pc.powermoves - 1 else pc.powermoves) ∧
            ko.powermoves = oc.powermoves ∧
            rematch p K (o.skip (attack_damage b o).2 1) = some (K5, w5, o5) ∧
            rematch oc.addr K5 o5 = some (top1, w6, o6) ∧
            ∀ c ∈ top1, c.in_game = false →
              (c.addr = p → c = kp) ∧ (c.addr = oc.addr → c = ko))) ∧
    (∀ c ∈ top, c.in_game = true → 0 ≤ c.powermoves) ∧
    (∀ (e : Event) (top1 : List Client) (w : List Write),
      main_step top e = some (top1, w) → ∀ k ∈ top1,
        (∃ c ∈ top, c.addr = k.addr ∧
          (k.powermoves = c.powermoves ∨ 0 ≤ k.powermoves)) ∨
        (k.in_game = false ∧ k.name_entered = false ∧ ∀ c ∈ top, c.addr ≠ k.addr)) := by
  have hi := reachable_inv h
  refine ⟨attack_damage_range, ?_, fun c hc hg => (hi.battle c hc hg).2.2.1, ?_⟩
  · intro p pc b o hd hg ht hm hdl hb
    have hpa := (deref_some hd).2
    have hb2 : b = 97 ∨ b = 112 := hb.imp id And.left
    obtain ⟨oc, h1, h2, h3, hdef⟩ := defeat_spec hi o hd hg ht hm hdl hb
    obtain ⟨oc2, g1, g2, g3, g4, g5, hsur⟩ := survive_spec hi o hd hg ht hm hdl hb
    have hoo : oc2 = oc := by
      have e : oc2.addr = oc.addr := by rw [h2] at g2; exact (Option.some.inj g2).symm
      rw [e, h1] at g1
      exact (Option.some.inj g1).symm
    subst hoo
    obtain ⟨f1, f2, f3, f4⟩ := @attack_upd_fields p pc oc2 b o hpa h3 hb2
    by_cases hle : oc2.hitpoints - (attack_damage b o).1 ≤ 0
    · obtain ⟨K, K5, w5, o5, K6, w6, o6, kp, ko, e1, e2, e3, -, -, -, -, e8, e9, e10, -⟩ :=
        hdef hle
      have hG : ∀ c : Client,
          (leave_battle p oc2.addr (attack_upd p oc2.addr b o c)).addr = c.addr := by
        intro c
        rw [leave_battle_addr]
        exact (attack_upd_link p oc2.addr b o c).1
      have hKn : (K.map Client.addr).Nodup := by
        rw [e1, List.map_map]
        have : (Client.addr ∘ fun c => leave_battle p oc2.addr (attack_upd p oc2.addr b o c))
            = Client.addr := funext hG
        rw [this]
        exact hi.nodup_addr
      have ekp : kp = leave_battle p oc2.addr (attack_upd p oc2.addr b o pc) := by
        rw [e1, deref_map hG, hd] at e2
        exact (Option.some.inj e2).symm
      have eko : ko = leave_battle p oc2.addr (attack_upd p oc2.addr b o oc2) := by
        rw [e1, deref_map hG, h1] at e3
        exact (Option.some.inj e3).symm
      have hkp : kp = { attack_upd p oc2.addr b o pc with
          in_game := false, last_opponent := some oc2.addr } := by
        rw [ekp]
        exact leave_battle_left (Ne.symm h3)
          ((attack_upd_link p oc2.addr b o pc).1.trans hpa)
      have hko : ko = { attack_upd p oc2.addr b o oc2 with
          in_game := false, last_opponent := some p } := by
        rw [eko]
        exact leave_battle_right (Ne.symm h3) (attack_upd_link p oc2.addr b o oc2).1
      refine ⟨oc2, K6, _, h1, h2, h3, e10, fun hpos => absurd hle (not_le.2 hpos), fun _ =>
        ⟨K, K5, w5, o5, w6, o6, kp, ko, e1, e2, e3, ?_, ?_, ?_, ?_, e8, e9, ?_⟩⟩
      · rw [hko]; exact f3
      · rw [hkp]; exact f1
      · rw [hkp]; exact f2
      · rw [hko]; exact f4
      · intro c hc hcg
        have hcK : c ∈ K := idle_of_rematch e8 (idle_of_rematch e9 hc hcg) hcg
        have hdc := deref_of_mem hKn hcK
        constructor
        · intro ea
          rw [ea, e2] at hdc
          exact (Option.some.inj hdc).symm
        · intro ea
          rw [ea, e3] at hdc
          exact (Option.some.inj hdc).symm
    · have hpos : 0 < oc2.hitpoints - (attack_damage b o).1 := not_le.1 hle
      obtain ⟨top1, w, e1, -, e3, e4⟩ := hsur hpos
      refine ⟨oc2, top1, w, h1, h2, h3, e1, fun _ => ⟨_, _, e3, e4, f3, f1, f2, f4⟩,
        fun hle2 => absurd hle2 hle⟩
  · intro e top1 w hres k hk
    rcases main_step_kept hi hres k hk with ⟨c, hc, e1, e2, -⟩ | hf
    · exact Or.inl ⟨c, hc, e1.symm, e2⟩
    · exact Or.inr hf

theorem attack_effect_witness :
    Reachable demo_battle ∧
    (deref demo_battle 200 = some demo_mover ∧ demo_mover.in_game = true ∧
      demo_mover.is_turn = true ∧ demo_mover.is_messaging = false ∧
      (fixed_oracle [0, 4] [1001, 1002]).time 0 - demo_mover.start_time < 30 ∧
      ((112 : Nat) = 97 ∨ ((112 : Nat) = 112 ∧ 0 < demo_mover.powermoves))) ∧
    ∃ oc top1 w, deref demo_battle oc.addr = some oc ∧
      demo_mover.last_opponent = some oc.addr ∧ oc.addr ≠ 200 ∧
      handleclient 200 demo_battle (.byte 112) (fixed_oracle [0, 4] [1001, 1002]) =
        some (0, top1, w) ∧
      (0 < oc.hitpoints - (attack_damage 112 (fixed_oracle [0, 4] [1001, 1002])).1 →
        ∃ p1 o1, deref top1 200 = some p1 ∧ deref top1 oc.addr = some o1 ∧
          o1.hitpoints =
            oc.hitpoints - (attack_damage 112 (fixed_oracle [0, 4] [1001, 1002])).1 ∧
          p1.hitpoints = demo_mover.hitpoints ∧
          p1.powermoves = (if (112 : Nat) = 112 then demo_mover.powermoves - 1
            else demo_mover.powermoves) ∧
          o1.powermoves = oc.powermoves) ∧
      (oc.hitpoints - (attack_damage 112 (fixed_oracle [0, 4] [1001, 1002])).1 ≤ 0 →
        ∃ K K5 w5 o5 w6 o6 kp ko,
          K = demo_battle.map (fun c => leave_battle 200 oc.addr
            (attack_upd 200 oc.addr 112 (fixed_oracle [0, 4] [1001, 1002]) c)) ∧
          deref K 200 = some kp ∧ deref K oc.addr = some ko ∧
          ko.hitpoints =
            oc.hitpoints - (attack_damage 112 (fixed_oracle [0, 4] [1001, 1002])).1 ∧
          kp.hitpoints = demo_mover.hitpoints ∧
          kp.powermoves = (if (112 : Nat) = 112 then demo_mover.powermoves - 1
            else demo_mover.powermoves) ∧
          ko.powermoves = oc.powermoves ∧
          rematch 200 K ((fixed_oracle [0, 4] [1001, 1002]).skip
            (attack_damage 112 (fixed_oracle [0, 4] [1001, 1002])).2 1) =
              some (K5, w5, o5) ∧
          rematch oc.addr K5 o5 = some (top1, w6, o6) ∧
          ∀ c ∈ top1, c.in_game = false →
            (c.addr = 200 → c = kp) ∧ (c.addr = oc.addr → c = ko)) :=
  ⟨demo_battle_reachable, ⟨rfl, rfl, rfl, rfl, by decide, Or.inr ⟨rfl, by decide⟩⟩,
    (attack_effect demo_battle demo_battle_reachable).2.1 200 demo_mover 112
      (fixed_oracle [0, 4] [1001, 1002]) rfl rfl rfl rfl (by decide)
      (Or.inr ⟨rfl, by decide⟩)⟩

theorem matchmaker_links {L : List Client} {x m : Client} (h : matchmaker L x = some m) :
    x.last_opponent ≠ some m.addr ∧ m.last_opponent ≠ some x.addr :=
  ⟨(matchmaker_some h).2.2.2.2.1, (matchmaker_some h).2.2.2.2.2⟩

/-- A rematch attempt for the record at `x`, whose last opponent is at `y`, leaves
the record at `y` as it is. -/
theorem rematch_keeps_other {K K1 : List Client} {x y : Nat} {kx ky : Client}
    {o o1 : Oracle} {w : List Write} (hxy : x ≠ y) (hd : deref K x = some kx)
    (hdo : deref K y = some ky) (hl : kx.last_opponent = some y)
    (hres : rematch x K o = some (K1, w, o1)) : deref K1 y = some ky := by
  have hxa := (deref_some hd).2
  have hya := (deref_some hdo).2
  subst hxa
  rcases rematch_spec hd hres with ⟨n, -, hel, rfl, -⟩ | ⟨-, rfl, -⟩
  · have h1 : ky.addr ≠ kx.addr := fun e => hxy (e.symm.trans hya)
    have h2 : ky.addr ≠ n.addr := by
      intro e
      have := hel.2.2.2.1
      rw [hl, ← e, hya] at this
      exact this rfl
    rw [deref_map (match_upd_addr kx.addr n.addr o), hdo, Option.map_some',
      match_upd_other o h1 h2]
  · exact hdo

/-- With no named record but those at `x` and `y`, a rematch attempt for the record at
`x` whose last opponent is at `y` starts no match. -/
theorem rematch_alone {K K1 : List Client} {x y : Nat} {kx : Client}
    {o o1 : Oracle} {w : List Write} (hd : deref K x = some kx)
    (hl : kx.last_opponent = some y)
    (honly : ∀ c ∈ K, c.name_entered = true → c.addr = x ∨ c.addr = y)
    (hres : rematch x K o = some (K1, w, o1)) : K1 = K := by
  have hxa := (deref_some hd).2
  subst hxa
  rcases rematch_spec hd hres with ⟨n, hn, hel, -, -⟩ | ⟨-, rfl, -⟩
  · rcases honly n hn hel.2.2.1 with e | e
    · exact absurd e hel.1
    · have := hel.2.2.2.1
      rw [hl, e] at this
      exact absurd rfl this
  · rfl

/-- C3: `matchmaker` never returns a record that is the last opponent of the player or
has the player as its last opponent.  When an accepted move ends a battle by defeat,
both records point at each other in the registry `K` on which the rematch attempts
run; the attempt for the attacker does not return the loser, it leaves the record of
the loser as it is, and the attempt for the loser does not return the attacker; after
the step each of the two is out of a game and still points at the other, or is in a
game with a third record; if no other record has a confirmed name no match is started
at all.  While both wait and point at each other, `matchmaker` returns neither for the
other, and one event leaves each of them untouched or puts it in a game with a third
record. -/
theorem no_immediate_rematch (top : List Client) (h : Reachable top) :
    (∀ (L : List Client) (x m : Client), matchmaker L x = some m →
      x.last_opponent ≠ some m.addr ∧ m.last_opponent ≠ some x.addr) ∧
    (∀ (p : Nat) (pc : Client) (b : Nat) (o : Oracle), deref top p = some pc →
      pc.in_game = true → pc.is_turn = true → pc.is_messaging = false →
      o.time 0 - pc.start_time < 30 → (b = 97 ∨ (b = 112 ∧ 0 < pc.powermoves)) →
      ∃ oc, deref top oc.addr = some oc ∧ pc.last_opponent = some oc.addr ∧ oc.addr ≠ p ∧
        (oc.hitpoints - (attack_damage b o).1 ≤ 0 →
          ∃ K K5 w5 o5 K6 w6 o6 w kp ko,
            K = top.map (fun c => leave_battle p oc.addr (attack_upd p oc.addr b o c)) ∧
            deref K p = some kp ∧ deref K oc.addr = some ko ∧
            kp.last_opponent = some oc.addr ∧ ko.last_opponent = some p ∧
            rematch p K (o.skip (attack_damage b o).2 1) = some (K5, w5, o5) ∧
            (∀ m, matchmaker K kp = some m → m.addr ≠ oc.addr) ∧
            deref K5 oc.addr = some ko ∧
            rematch oc.addr K5 o5 = some (K6, w6, o6) ∧
            (∀ m, matchmaker K5 ko = some m → m.addr ≠ p) ∧
            handleclient p top (.byte b) o = some (0, K6, w) ∧
            (∀ c ∈ K6,
              (c.addr = p → (c.in_game = false ∧ c.last_opponent = some oc.addr) ∨
                (c.in_game = true ∧ c.last_opponent ≠ some oc.addr)) ∧
              (c.addr = oc.addr → (c.in_game = false ∧ c.last_opponent = some p) ∨
                (c.in_game = true ∧ c.last_opponent ≠ some p))) ∧
            ((∀ c ∈ top, c.name_entered = true → c.addr = p ∨ c.addr = oc.addr) →
              K6 = K ∧ kp.in_game = false ∧ ko.in_game = false))) ∧
    (∀ x ∈ top, ∀ y ∈ top, x.addr ≠ y.addr → Waiting x → Waiting y →
      x.last_opponent = some y.addr → y.last_opponent = some x.addr →
      (∀ m, matchmaker top x = some m → m.addr ≠ y.addr) ∧
      (∀ m, matchmaker top y = some m → m.addr ≠ x.addr) ∧
      ∀ (e : Event) (top1 : List Client) (w : List Write),
        main_step top e = some (top1, w) → ∀ k ∈ top1,
          (k.addr = x.addr →
            k = x ∨ (k.in_game = true ∧ k.last_opponent ≠ some y.addr)) ∧
          (k.addr = y.addr →
            k = y ∨ (k.in_game = true ∧ k.last_opponent ≠ some x.addr))) := by
  have hi := reachable_inv h
  refine ⟨fun L x m hm => matchmaker_links hm, ?_, ?_⟩
  · intro p pc b o hd hg ht hm hdl hb
    obtain ⟨oc, h1, h2, h3, hdef⟩ := defeat_spec hi o hd hg ht hm hdl hb
    refine ⟨oc, h1, h2, h3, ?_⟩
    intro hle
    obtain ⟨K, K5, w5, o5, K6, w6, o6, kp, ko, e1, e2, e3, e4, e5, e6, e7, e8, e9, e10, e11⟩ :=
      hdef hle
    have hd5 : deref K5 oc.addr = some ko :=
      rematch_keeps_other (Ne.symm h3) e2 e3 e6 e8
    refine ⟨K, K5, w5, o5, K6, w6, o6, _, kp, ko, e1, e2, e3, e6, e7, e8, ?_, hd5, e9, ?_,
      e10, ?_, ?_⟩
    · intro m hmm e
      have := (matchmaker_links hmm).1
      rw [e6, e] at this
      exact this rfl
    · intro m hmm e
      have := (matchmaker_links hmm).1
      rw [e7, e] at this
      exact this rfl
    · intro c hc
      obtain ⟨f1, f2⟩ := e11 c hc
      exact ⟨fun ea => (f1 ea).imp id (fun x => ⟨x.1, x.2.1⟩),
        fun ea => (f2 ea).imp id (fun x => ⟨x.1, x.2.1⟩)⟩
    · intro honly
      have honlyK : ∀ c ∈ K, c.name_entered = true → c.addr = p ∨ c.addr = oc.addr := by
        intro c hc hn
        rw [e1] at hc
        obtain ⟨c0, hc0, rfl⟩ := List.mem_map.1 hc
        rw [leave_battle_name_entered, (attack_upd_link p oc.addr b o c0).2.2.2.2.1] at hn
        rw [leave_battle_addr, (attack_upd_link p oc.addr b o c0).1]
        exact honly c0 hc0 hn
      have hK5 : K5 = K := rematch_alone e2 e6 honlyK e8
      subst hK5
      have hK6 : K6 = K5 :=
        rematch_alone hd5 e7 (fun c hc hn => (honlyK c hc hn).symm) e9
      exact ⟨hK6, e4, e5⟩
  · intro x hx y hy hne wx wy hlx hly
    refine ⟨?_, ?_, ?_⟩
    · intro m hmm e
      have := (matchmaker_links hmm).1
      rw [hlx, e] at this
      exact this rfl
    · intro m hmm e
      have := (matchmaker_links hmm).1
      rw [hly, e] at this
      exact this rfl
    · intro e top1 w hres k hk
      have key : ∀ a b : Client, a ∈ top → b ∈ top → Waiting a → Waiting b →
          k.addr = a.addr → k = a ∨ (k.in_game = true ∧ k.last_opponent ≠ some b.addr) := by
        intro a b ha hb wa wb ea
        rcases main_step_kept hi hres k hk with ⟨c, hc, e1, -, e3⟩ | ⟨-, -, hf⟩
        · have hca : c = a := hi.eq_of_addr hc ha (e1.symm.trans ea)
          subst hca
          rcases e3 wa with e4 | ⟨e4, n, hn, e5, e6⟩
          · exact Or.inl e4
          · refine Or.inr ⟨e4, ?_⟩
            intro e7
            rw [e5] at e7
            have := hi.eq_of_addr hn hb (Option.some.inj e7)
            subst this
            exact e6 wb
        · exact absurd ea.symm (hf a ha)
      exact ⟨key x y hx hy wx wy, key y x hy hx wy wx⟩

theorem demo_rest_run :
    run demo_endgame [.ready 200 (.byte 97) (fixed_oracle [0] [1005, 1006])] =
      some demo_rest := by rfl

theorem demo_rest_reachable : Reachable demo_rest :=
  reachable_run _ demo_endgame_reachable demo_rest_run

theorem no_immediate_rematch_witness :
    (Reachable demo_endgame ∧
    (deref demo_endgame 200 = some demo_victor ∧ demo_victor.in_game = true ∧
      demo_victor.is_turn = true ∧ demo_victor.is_messaging = false ∧
      (fixed_oracle [0] [1005, 1006]).time 0 - demo_victor.start_time < 30 ∧
      ((97 : Nat) = 97 ∨ ((97 : Nat) = 112 ∧ 0 < demo_victor.powermoves))) ∧
    ∃ oc, deref demo_endgame oc.addr = some oc ∧
      demo_victor.last_opponent = some oc.addr ∧ oc.addr ≠ 200 ∧
      (oc.hitpoints - (attack_damage 97 (fixed_oracle [0] [1005, 1006])).1 ≤ 0 →
        ∃ K K5 w5 o5 K6 w6 o6 w kp ko,
          K = demo_endgame.map (fun c => leave_battle 200 oc.addr
            (attack_upd 200 oc.addr 97 (fixed_oracle [0] [1005, 1006]) c)) ∧
          deref K 200 = some kp ∧ deref K oc.addr = some ko ∧
          kp.last_opponent = some oc.addr ∧ ko.last_opponent = some 200 ∧
          rematch 200 K ((fixed_oracle [0] [1005, 1006]).skip
            (attack_damage 97 (fixed_oracle [0] [1005, 1006])).2 1) = some (K5, w5, o5) ∧
          (∀ m, matchmaker K kp = some m → m.addr ≠ oc.addr) ∧
          deref K5 oc.addr = some ko ∧
          rematch oc.addr K5 o5 = some (K6, w6, o6) ∧
          (∀ m, matchmaker K5 ko = some m → m.addr ≠ 200) ∧
          handleclient 200 demo_endgame (.byte 97) (fixed_oracle [0] [1005, 1006]) =
            some (0, K6, w) ∧
          (∀ c ∈ K6,
            (c.addr = 200 → (c.in_game = false ∧ c.last_opponent = some oc.addr) ∨
              (c.in_game = true ∧ c.last_opponent ≠ some oc.addr)) ∧
            (c.addr = oc.addr → (c.in_game = false ∧ c.last_opponent = some 200) ∨
              (c.in_game = true ∧ c.last_opponent ≠ some 200))) ∧
          ((∀ c ∈ demo_endgame, c.name_entered = true → c.addr = 200 ∨ c.addr = oc.addr) →
            K6 = K ∧ kp.in_game = false ∧ ko.in_game = false))) ∧
    (Reachable demo_rest ∧
    (demo_beaten ∈ demo_rest ∧ demo_winner ∈ demo_rest ∧
      demo_beaten.addr ≠ demo_winner.addr ∧ Waiting demo_beaten ∧ Waiting demo_winner ∧
      demo_beaten.last_opponent = some demo_winner.addr ∧
      demo_winner.last_opponent = some demo_beaten.addr) ∧
    (∀ m, matchmaker demo_rest demo_beaten = some m → m.addr ≠ demo_winner.addr) ∧
    (∀ m, matchmaker demo_rest demo_winner = some m → m.addr ≠ demo_beaten.addr) ∧
    ∀ (e : Event) (top1 : List Client) (w : List Write),
      main_step demo_rest e = some (top1, w) → ∀ k ∈ top1,
        (k.addr = demo_beaten.addr →
          k = demo_beaten ∨ (k.in_game = true ∧ k.last_opponent ≠ some demo_winner.addr)) ∧
        (k.addr = demo_winner.addr →
          k = demo_winner ∨
            (k.in_game = true ∧ k.last_opponent ≠ some demo_beaten.addr))) :=
  ⟨⟨demo_endgame_reachable, ⟨rfl, rfl, rfl, rfl, by decide, Or.inl rfl⟩,
    (no_immediate_rematch demo_endgame demo_endgame_reachable).2.1 200 demo_victor 97
      (fixed_oracle [0] [1005, 1006]) rfl rfl rfl rfl (by decide) (Or.inl rfl)⟩,
   ⟨demo_rest_reachable,
    ⟨by decide, by decide, by decide, ⟨rfl, rfl⟩, ⟨rfl, rfl⟩, rfl, rfl⟩,
    (no_immediate_rematch demo_rest demo_rest_reachable).2.2 demo_beaten (by decide)
      demo_winner (by decide) (by decide) ⟨rfl, rfl⟩ ⟨rfl, rfl⟩ rfl rfl⟩⟩

/-- C16: a byte from a record that is in a game and does not hold the turn changes no
record and causes no write, whatever the byte, the registry and the oracle. -/
theorem out_of_turn_ignored (top : List Client) (p : Nat) (pc : Client) (b : Nat)
    (o : Oracle) (hd : deref top p = some pc) (hg : pc.in_game = true)
    (ht : pc.is_turn = false) :
    handleclient p top (.byte b) o = some (0, top, []) ∧
    main_step top (.ready p (.byte b) o) = some (top, []) := by
  have h1 : handleclient p top (.byte b) o = some (0, top, []) := by
    simp [handleclient, hd, hg, ht, battle_byte]
  refine ⟨h1, ?_⟩
  simp [main_step, h1]

theorem out_of_turn_ignored_witness :
    (deref demo_battle 100 = some demo_waiter ∧ demo_waiter.in_game = true ∧
      demo_waiter.is_turn = false) ∧
    handleclient 100 demo_battle (.byte 97) (fixed_oracle [0] [1001, 1002]) =
      some (0, demo_battle, []) ∧
    main_step demo_battle (.ready 100 (.byte 97) (fixed_oracle [0] [1001, 1002])) =
      some (demo_battle, []) :=
  ⟨⟨rfl, rfl, rfl⟩,
    out_of_turn_ignored demo_battle 100 demo_waiter 97 (fixed_oracle [0] [1001, 1002])
      rfl rfl rfl⟩

/-- C12: the byte `p` from the turn holder of a battle that is not in chat mode, is
within its deadline and has no power move left leaves the registry as it is: no
record changes in any field, so no hitpoints change, the powermoves stay 0 and the
turn stays where it is. -/
theorem spent_power_move_no_effect (top : List Client) (p : Nat) (pc : Client)
    (o : Oracle) (hd : deref top p = some pc) (hg : pc.in_game = true)
    (ht : pc.is_turn = true) (hm : pc.is_messaging = false)
    (hdl : o.time 0 - pc.start_time < pc.time_left) (hpm : pc.powermoves = 0) :
    handleclient p top (.byte 112) o = some (0, top, []) ∧
    main_step top (.ready p (.byte 112) o) = some (top, []) := by
  have h1 : handleclient p top (.byte 112) o = some (0, top, []) := by
    rw [handleclient_turn 112 o hd hg ht, if_neg (not_le.2 hdl)]
    simp [command_byte, hm, hpm]
  refine ⟨h1, ?_⟩
  simp [main_step, h1]

theorem spent_power_move_no_effect_witness :
    (deref demo_endgame 200 = some demo_victor ∧ demo_victor.in_game = true ∧
      demo_victor.is_turn = true ∧ demo_victor.is_messaging = false ∧
      (fixed_oracle [0] [1005, 1006]).time 0 - demo_victor.start_time <
        demo_victor.time_left ∧ demo_victor.powermoves = 0) ∧
    handleclient 200 demo_endgame (.byte 112) (fixed_oracle [0] [1005, 1006]) =
      some (0, demo_endgame, []) ∧
    main_step demo_endgame (.ready 200 (.byte 112) (fixed_oracle [0] [1005, 1006])) =
      some (demo_endgame, []) :=
  ⟨⟨rfl, rfl, rfl, rfl, by decide, rfl⟩,
    spent_power_move_no_effect demo_endgame 200 demo_victor
      (fixed_oracle [0] [1005, 1006]) rfl rfl rfl rfl (by decide) rfl⟩

/-- C13: the turn holder of `demo_endgame` has no power move left, is not in chat mode
and is within its deadline; its byte `p` is answered with no write at all.  The test
`p->powermoves > 0` of the attack branch sends the byte to the final `return 0`, so
the write of `No more power moves left!` inside that branch is never reached. -/
theorem refusal_notice_not_sent :
    deref demo_endgame 200 = some demo_victor ∧ demo_victor.in_game = true ∧
    demo_victor.is_turn = true ∧ demo_victor.is_messaging = false ∧
    demo_victor.powermoves = 0 ∧
    (fixed_oracle [0] [1005, 1006]).time 0 - demo_victor.start_time <
      demo_victor.time_left ∧
    main_step demo_endgame (.ready 200 (.byte 112) (fixed_oracle [0] [1005, 1006])) =
      some (demo_endgame, []) ∧
    Msg.no_power_moves.text = "No more power moves left!\n" := by
  refine ⟨rfl, rfl, rfl, rfl, rfl, by decide, ?_, rfl⟩
  rfl

/-- C17: the byte `t` from a record that is in a game.  Without the turn it is dropped
by the first test of the branch: no write, no change.  With the turn, outside chat mode
and within the deadline, the sender is sent the seconds that remain, counted from a
second reading of the clock and not below 0, and no record changes, when the seconds
since the start of the turn and the seconds that remain are values of a 32-bit `int`;
when one of them is not, the conversion or the subtraction is undefined and the step
has no result. -/
theorem time_query_needs_turn (top : List Client) (p : Nat) (pc : Client) (o : Oracle)
    (hd : deref top p = some pc) (hg : pc.in_game = true) :
    (pc.is_turn = false → handleclient p top (.byte 116) o = some (0, top, [])) ∧
    (pc.is_turn = true → pc.is_messaging = false →
      o.time 0 - pc.start_time < pc.time_left →
      in_int (o.time 1 - pc.start_time) = true →
      in_int (pc.time_left - (o.time 1 - pc.start_time)) = true →
      handleclient p top (.byte 116) o = some (0, top,
        [(pc.fd, Msg.remaining_time (max 0 (pc.time_left - (o.time 1 - pc.start_time))))])) ∧
    (pc.is_turn = true → pc.is_messaging = false →
      o.time 0 - pc.start_time < pc.time_left →
      (in_int (o.time 1 - pc.start_time) = false ∨
        in_int (pc.time_left - (o.time 1 - pc.start_time)) = false) →
      handleclient p top (.byte 116) o = none) ∧
    (∀ s, (Msg.remaining_time s).text =
      "\nRemaining time: " ++ toString s ++ " seconds.\n") := by
  refine ⟨?_, ?_, ?_, fun _ => rfl⟩
  · intro ht
    simp [handleclient, hd, hg, ht, battle_byte]
  · intro ht hm hdl h1 h2
    rw [handleclient_turn 116 o hd hg ht, if_neg (not_le.2 hdl)]
    have hr : remaining_time pc.time_left pc.start_time (o.time 1) =
        some (max 0 (pc.time_left - (o.time 1 - pc.start_time))) := by
      unfold remaining_time
      rw [if_pos h1, if_pos h2]
      congr 1
      split_ifs with hneg
      · rw [max_eq_left (le_of_lt hneg)]
      · rw [max_eq_right (not_lt.1 hneg)]
    simp only [command_byte, hm, Bool.false_eq_true, if_false, if_true, ht, hr]
  · intro ht hm hdl hbad
    rw [handleclient_turn 116 o hd hg ht, if_neg (not_le.2 hdl)]
    have hr : remaining_time pc.time_left pc.start_time (o.time 1) = none := by
      rcases hbad with h1 | h2
      · simp [remaining_time, h1]
      · simp [remaining_time, h2]
    simp only [command_byte, hm, Bool.false_eq_true, if_false, if_true, ht, hr]

theorem time_query_needs_turn_witness :
    (deref demo_battle 100 = some demo_waiter ∧ demo_waiter.in_game = true ∧
      demo_waiter.is_turn = false) ∧
    handleclient 100 demo_battle (.byte 116) (fixed_oracle [] [1001, 1002]) =
      some (0, demo_battle, []) ∧
    (deref demo_battle 200 = some demo_mover ∧ demo_mover.in_game = true ∧
      demo_mover.is_turn = true ∧ demo_mover.is_messaging = false ∧
      (fixed_oracle [] [1001, 1002]).time 0 - demo_mover.start_time <
        demo_mover.time_left ∧
      in_int ((fixed_oracle [] [1001, 1002]).time 1 - demo_mover.start_time) = true ∧
      in_int (demo_mover.time_left -
        ((fixed_oracle [] [1001, 1002]).time 1 - demo_mover.start_time)) = true) ∧
    handleclient 200 demo_battle (.byte 116) (fixed_oracle [] [1001, 1002]) =
      some (0, demo_battle, [(5, Msg.remaining_time 28)]) :=
  ⟨⟨rfl, rfl, rfl⟩,
    (time_query_needs_turn demo_battle 100 demo_waiter (fixed_oracle [] [1001, 1002])
      rfl rfl).1 rfl,
    ⟨rfl, rfl, rfl, rfl, by decide, by decide, by decide⟩,
    (time_query_needs_turn demo_battle 200 demo_mover (fixed_oracle [] [1001, 1002])
      rfl rfl).2.1 rfl rfl (by decide) (by decide) (by decide)⟩

theorem main_step_eof (top : List Client) (p : Nat) (o : Oracle) :
    main_step top (.ready p .eof o) = disconnect_client p top o := by
  cases hd : deref top p with
  | none => simp [main_step, handleclient, disconnect_client, hd]
  | some pc =>
    simp only [main_step, handleclient, hd]
    cases disconnect_client p top o with
    | none => simp
    | some r => simp

/-- The whole of `disconnect_client` for a record that is in a game. -/
theorem disconnect_forfeit_spec {top : List Client} (h : Inv top) {p : Nat} {pc : Client}
    (o : Oracle) (hd : deref top p = some pc) (hg : pc.in_game = true) :
    ∃ qc, qc ∈ top ∧ deref top qc.addr = some qc ∧ pc.last_opponent = some qc.addr ∧
      qc.addr ≠ p ∧ qc.in_game = true ∧
      removeclient (assign top qc.addr
          (fun c => { c with in_game := false, last_opponent := none })) pc.fd =
        (top.filter (fun c => !decide (c.fd = pc.fd))).map
          (fun c => if c.addr = qc.addr then
            ({ c with in_game := false, last_opponent := none } : Client) else c) ∧
      disconnect_client p top o =
        match matchmaker ((top.filter (fun c => !decide (c.fd = pc.fd))).map
            (fun c => if c.addr = qc.addr then
              ({ c with in_game := false, last_opponent := none } : Client) else c))
            { qc with in_game := false, last_opponent := none } with
        | none => some ((top.filter (fun c => !decide (c.fd = pc.fd))).map
            (fun c => if c.addr = qc.addr then
              ({ c with in_game := false, last_opponent := none } : Client) else c),
            [(qc.fd, Msg.dropped pc.name), (qc.fd, Msg.awaiting)] ++
              broadcast (assign top qc.addr
                (fun c => { c with in_game := false, last_opponent := none }))
                (Msg.left_arena pc.name))
        | some n =>
          match start_match qc.addr n.addr ((top.filter (fun c => !decide (c.fd = pc.fd))).map
            (fun c => if c.addr = qc.addr then
              ({ c with in_game := false, last_opponent := none } : Client) else c)) o with
          | none => none
          | some (top3, w3, _) => some (top3,
              [(qc.fd, Msg.dropped pc.name), (qc.fd, Msg.awaiting)] ++
              broadcast (assign top qc.addr
                (fun c => { c with in_game := false, last_opponent := none }))
                (Msg.left_arena pc.name) ++ w3) := by
  have hp := (deref_some hd).1
  have hpa := (deref_some hd).2
  have hfd := h.fd_nonneg pc hp
  obtain ⟨oc, hoc, hl, hdo, hne, hog, hol, hot⟩ := h.deref_partner hp hg
  have hrem := @removeclient_assign top pc oc.addr
        (fun c => { c with in_game := false, last_opponent := none }) h.toCore hp
        (fun c => rfl)
  refine ⟨oc, hoc, hdo, hl, hpa ▸ hne, hog, hrem, ?_⟩
  have hname : 0 < pc.name.length :=
    List.length_pos.2 (h.named_nonempty pc hp (h.battle pc hp hg).1)
  unfold disconnect_client
  simp only [hd]
  rw [if_neg (not_lt.2 hfd)]
  have hcond : pc.in_game = true ∧ pc.last_opponent ≠ none := ⟨hg, by rw [hl]; simp⟩
  rw [if_pos hcond]
  simp only [hl, Option.some_bind, hdo, hrem, if_pos hname]
  set R := (top.filter (fun c => !decide (c.fd = pc.fd))).map
      (fun c => if c.addr = oc.addr then
        ({ c with in_game := false, last_opponent := none } : Client) else c) with hRdef
  have hoL : oc ∈ top.filter (fun c => !decide (c.fd = pc.fd)) :=
    (mem_remove h.toCore hp).2 ⟨hoc, hne⟩
  have hGoR : ({ oc with in_game := false, last_opponent := none } : Client) ∈ R :=
    List.mem_map.2 ⟨oc, hoL, if_pos rfl⟩
  have hRn : (R.map Client.addr).Nodup := by
    rw [hRdef, List.map_map]
    have : (Client.addr ∘ fun c => if c.addr = oc.addr then
        ({ c with in_game := false, last_opponent := none } : Client) else c) = Client.addr := by
      funext c; simp only [Function.comp]; split_ifs <;> rfl
    rw [this]
    exact (List.filter_sublist top).map Client.addr |>.nodup h.nodup_addr
  have hdR : deref R oc.addr = some { oc with in_game := false, last_opponent := none } :=
    deref_of_mem hRn hGoR
  have hnone : deref R p = none := by
    rw [deref_eq_none]
    intro c hc
    obtain ⟨c0, hc0, rfl⟩ := List.mem_map.1 hc
    have := ((mem_remove h.toCore hp).1 hc0).2
    rw [← hpa]
    split_ifs <;> exact this
  rw [hnone]
  simp only [Option.isSome_none, Bool.false_eq_true, if_false, matchmaker_ptr, hdR]
  cases matchmaker R { oc with in_game := false, last_opponent := none } with
  | none => rfl
  | some n => rfl

/-- The whole of `disconnect_client` for a record that is not in a game: the record is
unlinked and nothing else happens. -/
theorem disconnect_idle_spec {top : List Client} (h : Inv top) {p : Nat} {pc : Client}
    (o : Oracle) (hd : deref top p = some pc) (hg : pc.in_game = false) :
    removeclient top pc.fd = top.filter (fun c => !decide (c.fd = pc.fd)) ∧
    disconnect_client p top o = some (removeclient top pc.fd,
      if 0 < pc.name.length then broadcast top (Msg.left_arena pc.name) else []) := by
  have hp := (deref_some hd).1
  have hpa := (deref_some hd).2
  have hfd := h.fd_nonneg pc hp
  have hrem := removeclient_eq_filter h.nodup_fd hp
  refine ⟨hrem, ?_⟩
  unfold disconnect_client
  simp only [hd]
  rw [if_neg (not_lt.2 hfd)]
  have hcond : ¬ (pc.in_game = true ∧ pc.last_opponent ≠ none) := by
    rw [hg]; simp
  rw [if_neg hcond]
  dsimp only
  rw [hrem]
  have hnone : deref (top.filter (fun c => !decide (c.fd = pc.fd))) p = none := by
    rw [deref_eq_none]
    intro c hc
    rw [← hpa]; exact ((mem_remove h.toCore hp).1 hc).2
  rw [hnone]
  simp only [Option.isSome_none, Bool.false_eq_true, if_false, List.nil_append]
  cases hoa : pc.last_opponent with
  | none => rfl
  | some oa =>
    have hpn : pc.name_entered = true := by
      cases hn : pc.name_entered
      · have := h.unnamed pc hp hn; rw [hoa] at this; cases this
      · rfl
    have key : ∀ a ∈ top.filter (fun c => !decide (c.fd = pc.fd)), Waiting a →
        a.addr = oa := by
      intro a ha wa
      have ha1 := (mem_remove h.toCore hp).1 ha
      have := (h.waiting pc hp a ha1.1 (Ne.symm ha1.2) ⟨hg, hpn⟩ wa).1
      rw [hoa] at this
      rcases this with e | e
      · exact (Option.some.inj e).symm
      · cases e
    have hmp : matchmaker_ptr (top.filter (fun c => !decide (c.fd = pc.fd))) oa =
        some none := by
      unfold matchmaker_ptr
      split
      · rename_i m hm
        congr 1
        rw [matchmaker_none]
        intro x hx hel
        have := key x hx ⟨hel.2.1, hel.2.2.1⟩
        exact hel.1 (this.trans (deref_some hm).2.symm)
      · rw [if_neg]
        simp only [List.any_eq_true, Bool.and_eq_true, bne_iff_ne, ne_eq,
          Bool.not_eq_true', not_exists, not_and]
        intro x hx hxa hxn
        exact hxa.1 (key x hx ⟨hxa.2, hxn⟩)
    simp only [hmp]

/-- C11: when the record at `p`, in a game with the record `qc`, reaches end of file,
`qc` is sent the notice that `p` dropped and the waiting notice, leaves the game with
no last opponent, and `p` is unlinked; this gives the registry `R`.  If `matchmaker`
finds no opponent for `qc` in `R`, the step ends with `R`; if it returns `n`, the step
ends with `start_match` of `qc` and `n` on `R`, which puts the two in a game with each
other and leaves every other record of `R` as it is. -/
theorem forfeit_on_disconnect (top : List Client) (h : Reachable top) (p : Nat)
    (pc : Client) (o : Oracle) (hd : deref top p = some pc) (hg : pc.in_game = true) :
    ∃ qc R top1 w3,
      deref top qc.addr = some qc ∧ pc.last_opponent = some qc.addr ∧ qc.addr ≠ p ∧
      R = removeclient (assign top qc.addr
        (fun c => { c with in_game := false, last_opponent := none })) pc.fd ∧
      deref R qc.addr = some { qc with in_game := false, last_opponent := none } ∧
      (∀ c, c ∈ R ↔ c = { qc with in_game := false, last_opponent := none } ∨
        (c ∈ top ∧ c.addr ≠ p ∧ c.addr ≠ qc.addr)) ∧
      main_step top (.ready p .eof o) = some (top1,
        [(qc.fd, Msg.dropped pc.name), (qc.fd, Msg.awaiting)] ++
          broadcast (assign top qc.addr
            (fun c => { c with in_game := false, last_opponent := none }))
            (Msg.left_arena pc.name) ++ w3) ∧
      (∀ c ∈ top1, c.addr ≠ p) ∧
      (matchmaker R { qc with in_game := false, last_opponent := none } = none →
        top1 = R ∧ w3 = []) ∧
      (∀ n, matchmaker R { qc with in_game := false, last_opponent := none } = some n →
        n ∈ top ∧ n.addr ≠ p ∧ n.addr ≠ qc.addr ∧
        start_match qc.addr n.addr R o = some (top1, w3, o.skip 5 1) ∧
        (∃ q2 n2, deref top1 qc.addr = some q2 ∧ deref top1 n.addr = some n2 ∧
          q2.in_game = true ∧ n2.in_game = true ∧
          q2.last_opponent = some n.addr ∧ n2.last_opponent = some qc.addr) ∧
        (∀ c ∈ top, c.addr ≠ p → c.addr ≠ qc.addr → c.addr ≠ n.addr → c ∈ top1) ∧
        (∀ c ∈ top1, c.addr ≠ qc.addr → c.addr ≠ n.addr → c ∈ top)) ∧
      (∀ n, (Msg.dropped n).text = cstring n ++
        " has dropped. You Won! You are back in the arena waiting for a new opponent.\n") := by
  have hi := reachable_inv h
  have hp := (deref_some hd).1
  have hpa := (deref_some hd).2
  obtain ⟨qc, hqc, hdq, hl, hne, hqg, hrem, hdc⟩ := disconnect_forfeit_spec hi o hd hg
  have hmemR : ∀ c, c ∈ (top.filter (fun c => !decide (c.fd = pc.fd))).map
      (fun c => if c.addr = qc.addr then
        ({ c with in_game := false, last_opponent := none } : Client) else c) ↔
      c = { qc with in_game := false, last_opponent := none } ∨
        (c ∈ top ∧ c.addr ≠ p ∧ c.addr ≠ qc.addr) := by
    intro c
    rw [List.mem_map]
    constructor
    · rintro ⟨c0, hc0, rfl⟩
      have hc1 := (mem_remove hi.toCore hp).1 hc0
      by_cases e : c0.addr = qc.addr
      · have := hi.eq_of_addr hc1.1 hqc e
        subst this
        exact Or.inl (if_pos rfl)
      · rw [if_neg e]
        exact Or.inr ⟨hc1.1, hpa ▸ hc1.2, e⟩
    · rintro (rfl | ⟨hc, h1, h2⟩)
      · exact ⟨qc, (mem_remove hi.toCore hp).2 ⟨hqc, hpa ▸ hne⟩, if_pos rfl⟩
      · exact ⟨c, (mem_remove hi.toCore hp).2 ⟨hc, hpa ▸ h1⟩, if_neg h2⟩
  set R := (top.filter (fun c => !decide (c.fd = pc.fd))).map
      (fun c => if c.addr = qc.addr then
        ({ c with in_game := false, last_opponent := none } : Client) else c) with hRdef
  have hRn : (R.map Client.addr).Nodup := by
    rw [hRdef, List.map_map]
    have : (Client.addr ∘ fun c => if c.addr = qc.addr then
        ({ c with in_game := false, last_opponent := none } : Client) else c) = Client.addr := by
      funext c; simp only [Function.comp]; split_ifs <;> rfl
    rw [this]
    exact (List.filter_sublist top).map Client.addr |>.nodup hi.nodup_addr
  have hdR : deref R qc.addr = some { qc with in_game := false, last_opponent := none } :=
    deref_of_mem hRn ((hmemR _).2 (Or.inl rfl))
  have hRp : ∀ c ∈ R, c.addr ≠ p := by
    intro c hc
    rcases (hmemR c).1 hc with rfl | ⟨-, h1, -⟩
    · exact hne
    · exact h1
  rw [← main_step_eof] at hdc
  cases hm : matchmaker R { qc with in_game := false, last_opponent := none } with
  | none =>
    simp only [hm] at hdc
    refine ⟨qc, R, R, [], hdq, hl, hne, hrem.symm, hdR, hmemR, ?_, hRp, fun _ => ⟨rfl, rfl⟩,
      (fun n hn => by rw [hm] at hn; cases hn), fun _ => rfl⟩
    rw [hdc, List.append_nil]
  | some n =>
    simp only [hm] at hdc
    obtain ⟨hnR, hel⟩ := matchmaker_some hm
    have hnq : n.addr ≠ qc.addr := hel.1
    have hn1 : n ∈ top ∧ n.addr ≠ p ∧ n.addr ≠ qc.addr := by
      rcases (hmemR n).1 hnR with rfl | hx
      · exact absurd rfl hnq
      · exact hx
    have hdn : deref R n.addr = some n := deref_of_mem hRn hnR
    obtain ⟨w3, hs⟩ := start_match_isSome o hdR hdn
    simp only [hs] at hdc
    refine ⟨qc, R, R.map (match_upd qc.addr n.addr o), w3, hdq, hl, hne, hrem.symm, hdR,
      hmemR, hdc, ?_, (fun hcon => by rw [hm] at hcon; cases hcon), ?_, fun _ => rfl⟩
    · intro c hc
      obtain ⟨c0, hc0, rfl⟩ := List.mem_map.1 hc
      rw [match_upd_addr]
      exact hRp c0 hc0
    · intro n1 hn1e
      rw [hm] at hn1e
      cases hn1e
      refine ⟨hn1.1, hn1.2.1, hn1.2.2, hs, ?_, ?_, ?_⟩
      · refine ⟨match_upd qc.addr n.addr o
            { qc with in_game := false, last_opponent := none },
          match_upd qc.addr n.addr o n, ?_, ?_, ?_, ?_, ?_, ?_⟩
        · rw [deref_map (match_upd_addr qc.addr n.addr o), hdR]; rfl
        · rw [deref_map (match_upd_addr qc.addr n.addr o), hdn]; rfl
        · exact match_upd_in_game _ _ _ (Or.inl rfl)
        · exact match_upd_in_game _ _ _ (Or.inr rfl)
        · rw [@match_upd_left _ _ (Ne.symm hnq) o
            ({ qc with in_game := false, last_opponent := none } : Client) rfl]
          simp
        · rw [@match_upd_right _ _ (Ne.symm hnq) o n rfl]
          simp
      · intro c hc h1 h2 h3
        exact List.mem_map.2 ⟨c, (hmemR c).2 (Or.inr ⟨hc, h1, h2⟩),
          match_upd_other o h2 h3⟩
      · intro c hc h2 h3
        obtain ⟨c0, hc0, rfl⟩ := List.mem_map.1 hc
        rw [match_upd_addr] at h2 h3
        rw [match_upd_other o h2 h3]
        rcases (hmemR c0).1 hc0 with rfl | hx
        · exact absurd rfl h2
        · exact hx.1

/-- C18: when a record that is not in a game reaches end of file, the step only
unlinks it: the new registry is the old one without that record, every other record is
unchanged in every field, and the only writes are the broadcast of its leaving when it
has a name.  The scan for a new opponent of its last opponent, which the function
makes whenever that pointer is set, finds none. -/
theorem idle_disconnect_frame (top : List Client) (h : Reachable top) (p : Nat)
    (pc : Client) (o : Oracle) (hd : deref top p = some pc) (hg : pc.in_game = false) :
    main_step top (.ready p .eof o) = some (removeclient top pc.fd,
      if 0 < pc.name.length then broadcast top (Msg.left_arena pc.name) else []) ∧
    (∀ c, c ∈ removeclient top pc.fd ↔ c ∈ top ∧ c.addr ≠ p) ∧
    (∀ c ∈ top, c.addr ≠ p → deref (removeclient top pc.fd) c.addr = some c) ∧
    (∀ oa, pc.last_opponent = some oa →
      matchmaker_ptr (removeclient top pc.fd) oa = some none) := by
  have hi := reachable_inv h
  have hp := (deref_some hd).1
  have hpa := (deref_some hd).2
  obtain ⟨hrem, hdc⟩ := disconnect_idle_spec hi o hd hg
  have hmem : ∀ c, c ∈ removeclient top pc.fd ↔ c ∈ top ∧ c.addr ≠ p := by
    intro c
    rw [hrem, mem_remove hi.toCore hp, hpa]
  have hn : ((removeclient top pc.fd).map Client.addr).Nodup := by
    rw [hrem]
    exact (List.filter_sublist top).map Client.addr |>.nodup hi.nodup_addr
  refine ⟨by rw [main_step_eof, hdc], hmem, fun c hc h1 =>
    deref_of_mem hn ((hmem c).2 ⟨hc, h1⟩), ?_⟩
  intro oa hoa
  have hpn : pc.name_entered = true := by
    cases hn : pc.name_entered
    · have := hi.unnamed pc hp hn; rw [hoa] at this; cases this
    · rfl
  have key : ∀ a ∈ removeclient top pc.fd, Waiting a → a.addr = oa := by
    intro a ha wa
    have ha1 := (hmem a).1 ha
    have := (hi.waiting pc hp a ha1.1 (by rw [hpa]; exact Ne.symm ha1.2) ⟨hg, hpn⟩ wa).1
    rw [hoa] at this
    rcases this with e | e
    · exact (Option.some.inj e).symm
    · cases e
  unfold matchmaker_ptr
  split
  · rename_i m hm
    congr 1
    rw [matchmaker_none]
    intro x hx hel
    have := key x hx ⟨hel.2.1, hel.2.2.1⟩
    exact hel.1 (this.trans (deref_some hm).2.symm)
  · rw [if_neg]
    simp only [List.any_eq_true, Bool.and_eq_true, bne_iff_ne, ne_eq,
      Bool.not_eq_true', not_exists, not_and]
    intro x hx hxa hxn
    exact hxa.1 (key x hx ⟨hxa.2, hxn⟩)

theorem demo_typing_run :
    run demo_battle [.connect 6 300 junk0 true,
      .ready 300 (.byte 67) (fixed_oracle [] [])] = some demo_typing := by rfl

theorem demo_typing_reachable : Reachable demo_typing :=
  reachable_run _ demo_battle_reachable demo_typing_run

theorem demo_trio_run :
    run demo_typing [.ready 300 (.byte 10) (fixed_oracle [] [])] = some demo_trio := by rfl

theorem demo_trio_reachable : Reachable demo_trio :=
  reachable_run _ demo_typing_reachable demo_trio_run

theorem forfeit_on_disconnect_witness :
    Reachable demo_trio ∧
    (deref demo_trio 100 = some demo_waiter ∧ demo_waiter.in_game = true) ∧
    ∃ qc R top1 w3,
      deref demo_trio qc.addr = some qc ∧ demo_waiter.last_opponent = some qc.addr ∧ qc.addr ≠ 100 ∧
      R = removeclient (assign demo_trio qc.addr
        (fun c => { c with in_game := false, last_opponent := none })) demo_waiter.fd ∧
      deref R qc.addr = some { qc with in_game := false, last_opponent := none } ∧
      (∀ c, c ∈ R ↔ c = { qc with in_game := false, last_opponent := none } ∨
        (c ∈ demo_trio ∧ c.addr ≠ 100 ∧ c.addr ≠ qc.addr)) ∧
      main_step demo_trio (.ready 100 .eof demo_oracle) = some (top1,
        [(qc.fd, Msg.dropped demo_waiter.name), (qc.fd, Msg.awaiting)] ++
          broadcast (assign demo_trio qc.addr
            (fun c => { c with in_game := false, last_opponent := none }))
            (Msg.left_arena demo_waiter.name) ++ w3) ∧
      (∀ c ∈ top1, c.addr ≠ 100) ∧
      (matchmaker R { qc with in_game := false, last_opponent := none } = none →
        top1 = R ∧ w3 = []) ∧
      (∀ n, matchmaker R { qc with in_game := false, last_opponent := none } = some n →
        n ∈ demo_trio ∧ n.addr ≠ 100 ∧ n.addr ≠ qc.addr ∧
        start_match qc.addr n.addr R demo_oracle = some (top1, w3, demo_oracle.skip 5 1) ∧
        (∃ q2 n2, deref top1 qc.addr = some q2 ∧ deref top1 n.addr = some n2 ∧
          q2.in_game = true ∧ n2.in_game = true ∧
          q2.last_opponent = some n.addr ∧ n2.last_opponent = some qc.addr) ∧
        (∀ c ∈ demo_trio, c.addr ≠ 100 → c.addr ≠ qc.addr → c.addr ≠ n.addr → c ∈ top1) ∧
        (∀ c ∈ top1, c.addr ≠ qc.addr → c.addr ≠ n.addr → c ∈ demo_trio)) ∧
      (∀ n, (Msg.dropped n).text = cstring n ++
        " has dropped. You Won! You are back in the arena waiting for a new opponent.\n") :=
  ⟨demo_trio_reachable, ⟨rfl, rfl⟩,
    forfeit_on_disconnect demo_trio demo_trio_reachable 100 demo_waiter demo_oracle
      rfl rfl⟩

theorem idle_disconnect_frame_witness :
    Reachable demo_rest ∧
    (deref demo_rest 100 = some demo_beaten ∧ demo_beaten.in_game = false) ∧
    main_step demo_rest (.ready 100 .eof demo_oracle) = some (removeclient demo_rest demo_beaten.fd,
      if 0 < demo_beaten.name.length then broadcast demo_rest (Msg.left_arena demo_beaten.name) else []) ∧
    (∀ c, c ∈ removeclient demo_rest demo_beaten.fd ↔ c ∈ demo_rest ∧ c.addr ≠ 100) ∧
    (∀ c ∈ demo_rest, c.addr ≠ 100 → deref (removeclient demo_rest demo_beaten.fd) c.addr = some c) ∧
    (∀ oa, demo_beaten.last_opponent = some oa →
      matchmaker_ptr (removeclient demo_rest demo_beaten.fd) oa = some none) :=
  ⟨demo_rest_reachable, ⟨rfl, rfl⟩,
    idle_disconnect_frame demo_rest demo_rest_reachable 100 demo_beaten demo_oracle
      rfl rfl⟩

theorem in_game_false_of_unnamed {top : List Client} (h : Inv top) {pc : Client}
    (hp : pc ∈ top) (hn : pc.name_entered = false) : pc.in_game = false := by
  cases hg : pc.in_game
  · rfl
  · have := (h.battle pc hp hg).1; rw [hn] at this; cases this

theorem handleclient_unnamed {top : List Client} {p : Nat} {pc : Client} (b : Nat)
    (o : Oracle) (hd : deref top p = some pc) (hg : pc.in_game = false)
    (hn : pc.name_entered = false) :
    handleclient p top (.byte b) o = name_byte pc top b o := by
  simp [handleclient, hd, hg, hn]

theorem main_step_byte {top : List Client} {p : Nat} {b : Nat} {o : Oracle}
    {top1 : List Client} {w : List Write}
    (h : handleclient p top (.byte b) o = some (0, top1, w)) :
    main_step top (.ready p (.byte b) o) = some (top1, w) := by
  simp [main_step, h]

theorem name_taken_true {top : List Client} {pc : Client} :
    name_taken top pc = true ↔ ∃ e ∈ top, e.addr ≠ pc.addr ∧ e.name = pc.name := by
  constructor
  · intro h
    by_contra hcon
    have : name_taken top pc = false :=
      name_taken_false.2 (fun e he h1 h2 => hcon ⟨e, he, h1, h2⟩)
    rw [h] at this; cases this
  · rintro ⟨e, he, h1, h2⟩
    cases hf : name_taken top pc
    · exact absurd h2 (name_taken_false.1 hf e he h1)
    · rfl

/-- The terminator of a name that is not empty and not held by another record. -/
theorem name_confirm_spec {top : List Client} (h : Inv top) {p : Nat} {pc : Client}
    {b : Nat} (o : Oracle) (hd : deref top p = some pc) (hn : pc.name_entered = false)
    (hb : b = 10 ∨ b = 13) (hne : pc.name ≠ [])
    (hfree : ∀ e ∈ top, e.addr ≠ p → e.name ≠ pc.name) :
    deref (assign top p (fun c => { c with name_entered := true })) p =
      some { pc with name_entered := true } ∧
    handleclient p top (.byte b) o =
      match matchmaker (assign top p (fun c => { c with name_entered := true }))
          { pc with name_entered := true } with
      | none => some (0, assign top p (fun c => { c with name_entered := true }),
          broadcast top (Msg.entered_arena pc.name) ++ [(pc.fd, Msg.awaiting)])
      | some n =>
        match start_match p n.addr (assign top p (fun c => { c with name_entered := true })) o with
        | none => none
        | some (top2, w3, _) => some (0, top2,
            broadcast top (Msg.entered_arena pc.name) ++ [(pc.fd, Msg.awaiting)] ++ w3) := by
  have hp := (deref_some hd).1
  have hpa := (deref_some hd).2
  subst hpa
  have hg := in_game_false_of_unnamed h hp hn
  have hd1 : deref (assign top pc.addr (fun c => { c with name_entered := true })) pc.addr =
      some { pc with name_entered := true } := by
    rw [deref_assign (by intro c; rfl), hd]; simp
  refine ⟨hd1, ?_⟩
  rw [handleclient_unnamed b o hd hg hn]
  unfold name_byte
  rw [if_pos hb, if_neg (by simpa using hne),
    if_neg (by rw [name_taken_false.2 hfree]; simp)]
  simp only [hn, if_true, hd1]
  cases hm : matchmaker (assign top pc.addr (fun c => { c with name_entered := true }))
      { pc with name_entered := true } with
  | none => rfl
  | some n =>
    have hnn : n.name_entered = true := (matchmaker_some hm).2.2.2.1
    simp only [hnn, if_true]

theorem broadcast_filter_none {top : List Client} (m : Msg) {f : Int}
    (h : ∀ a ∈ top, a.name_entered = true → a.fd ≠ f) :
    (broadcast top m).filter (fun x => decide (x.1 = f)) = [] := by
  induction top with
  | nil => rfl
  | cons a rest ih =>
    have ih1 := ih (fun x hx => h x (List.mem_cons_of_mem _ hx))
    unfold broadcast
    split_ifs with ha
    · rw [List.filter_cons_of_neg (by simpa using h a (List.mem_cons_self _ _) ha.2)]
      exact ih1
    · exact ih1

theorem broadcast_filter_one {top : List Client} (m : Msg) {c : Client}
    (hn : (top.map Client.fd).Nodup) (hc : c ∈ top) (hfd : 0 ≤ c.fd)
    (hname : c.name_entered = true) :
    (broadcast top m).filter (fun x => decide (x.1 = c.fd)) = [(c.fd, m)] := by
  induction top with
  | nil => cases hc
  | cons a rest ih =>
    rw [List.map_cons, List.nodup_cons] at hn
    unfold broadcast
    rcases List.mem_cons.1 hc with rfl | hc1
    · rw [if_pos ⟨hfd, hname⟩, List.filter_cons_of_pos (by simp)]
      congr 1
      apply broadcast_filter_none
      intro x hx _ e
      exact hn.1 (e ▸ List.mem_map_of_mem Client.fd hx)
    · have hne : a.fd ≠ c.fd := fun e => hn.1 (e ▸ List.mem_map_of_mem Client.fd hc1)
      split_ifs with ha
      · rw [List.filter_cons_of_neg (by simpa using hne)]
        exact ih hn.2 hc1
      · exact ih hn.2 hc1

theorem broadcast_msg {top : List Client} {m : Msg} {x : Write} (hx : x ∈ broadcast top m) :
    x.2 = m ∧ ∃ c ∈ top, c.name_entered = true ∧ x.1 = c.fd := by
  induction top with
  | nil => cases hx
  | cons a rest ih =>
    unfold broadcast at hx
    split_ifs at hx with ha
    · rcases List.mem_cons.1 hx with rfl | hx1
      · exact ⟨rfl, a, List.mem_cons_self _ _, ha.2, rfl⟩
      · obtain ⟨h1, c, hc, h2⟩ := ih hx1
        exact ⟨h1, c, List.mem_cons_of_mem _ hc, h2⟩
    · obtain ⟨h1, c, hc, h2⟩ := ih hx
      exact ⟨h1, c, List.mem_cons_of_mem _ hc, h2⟩

/-- C19 (amended): a terminator byte from a record without a confirmed name.  An empty
name is answered with the prompt that it cannot be empty and nothing changes.  A name
that is not empty is refused, with the prompt that it is taken and the name cleared,
exactly when another record of the registry holds the same name, confirmed or not;
otherwise the record ends the step with its name confirmed. -/
theorem name_terminator (top : List Client) (h : Reachable top) (p : Nat) (pc : Client)
    (b : Nat) (o : Oracle) (hd : deref top p = some pc) (hn : pc.name_entered = false)
    (hb : b = 10 ∨ b = 13) :
    (pc.name = [] →
      main_step top (.ready p (.byte b) o) = some (top, [(pc.fd, Msg.name_empty)])) ∧
    (pc.name ≠ [] → (∃ e ∈ top, e.addr ≠ p ∧ e.name = pc.name) →
      main_step top (.ready p (.byte b) o) =
        some (assign top p (fun c => { c with name := [] }), [(pc.fd, Msg.name_taken)]) ∧
      deref (assign top p (fun c => { c with name := [] })) p =
        some { pc with name := [] }) ∧
    (pc.name ≠ [] → (∀ e ∈ top, e.addr ≠ p → e.name ≠ pc.name) →
      ∃ top1 w3 p1, main_step top (.ready p (.byte b) o) = some (top1,
          broadcast top (Msg.entered_arena pc.name) ++ [(pc.fd, Msg.awaiting)] ++ w3) ∧
        deref top1 p = some p1 ∧ p1.name_entered = true ∧ p1.name = pc.name) ∧
    Msg.name_empty.text = "Name cannot be empty, please enter your name: " ∧
    Msg.name_taken.text = "Name already taken, please enter a different name: " := by
  have hi := reachable_inv h
  have hp := (deref_some hd).1
  have hpa := (deref_some hd).2
  have hg := in_game_false_of_unnamed hi hp hn
  refine ⟨?_, ?_, ?_, rfl, rfl⟩
  · intro he
    apply main_step_byte
    rw [handleclient_unnamed b o hd hg hn]
    unfold name_byte
    rw [if_pos hb, if_pos (by rw [he]; rfl)]
  · intro hne ⟨e, he, h1, h2⟩
    constructor
    · apply main_step_byte
      rw [handleclient_unnamed b o hd hg hn]
      unfold name_byte
      rw [if_pos hb, if_neg (by simpa using hne),
        if_pos (name_taken_true.2 ⟨e, he, hpa ▸ h1, h2⟩), hpa]
    · rw [deref_assign (by intro c; rfl), hd]; simp [hpa]
  · intro hne hfree
    obtain ⟨hd1, hspec⟩ := name_confirm_spec hi o hd hn hb hne hfree
    cases hm : matchmaker (assign top p (fun c => { c with name_entered := true }))
        { pc with name_entered := true } with
    | none =>
      simp only [hm] at hspec
      exact ⟨_, [], _, by rw [List.append_nil]; exact main_step_byte hspec, hd1, rfl, rfl⟩
    | some n =>
      simp only [hm] at hspec
      have hnK := (matchmaker_some hm).1
      have hKn : ((assign top p (fun c => { c with name_entered := true })).map
          Client.addr).Nodup := by
        rw [assign_map_addr (by intro c; rfl)]
        exact hi.nodup_addr
      obtain ⟨w3, hs⟩ := start_match_isSome o hd1 (deref_of_mem hKn hnK)
      simp only [hs] at hspec
      refine ⟨_, w3, match_upd p n.addr o { pc with name_entered := true },
        main_step_byte hspec, ?_, ?_, ?_⟩
      · rw [deref_map (match_upd_addr p n.addr o), hd1]; rfl
      · rw [match_upd_name_entered]
      · rw [match_upd_name]

theorem demo_clash_run :
    run [] [.connect 4 100 junk0 true, .connect 5 200 junk0 true,
      .ready 100 (.byte 65) (fixed_oracle [] []),
      .ready 200 (.byte 65) (fixed_oracle [] [])] = some demo_clash := by rfl

theorem demo_clash_reachable : Reachable demo_clash :=
  reachable_run _ Reachable.init demo_clash_run

/-- The second of two players typing the same name ends its name: it is refused
although no record of the registry has a confirmed name. -/
theorem name_clash_counterexample :
    Reachable demo_clash ∧ deref demo_clash 200 = some demo_rival_b ∧
    demo_rival_b.name_entered = false ∧ demo_rival_b.name ≠ [] ∧
    (¬ ∃ c ∈ demo_clash, c.addr ≠ 200 ∧ c.name_entered = true ∧
      c.name = demo_rival_b.name) ∧
    main_step demo_clash (.ready 200 (.byte 10) (fixed_oracle [] [])) =
      some ([demo_rival_a, { demo_rival_b with name := [] }], [(5, Msg.name_taken)]) :=
  ⟨demo_clash_reachable, rfl, rfl, by decide, by decide, rfl⟩

/-- C20: a record confirms a name that is not empty and that no other record holds,
and `matchmaker` finds no opponent for it.  The writes of the step are the arena
broadcast, made before the name is marked as confirmed, and the waiting notice: the
record itself is sent the waiting notice and nothing else, every other record with a
confirmed name is sent the arena notice once and nothing else, and a record without a
confirmed name is sent nothing.  The record ends the step with its name confirmed and
out of a game. -/
theorem lone_confirmation (top : List Client) (h : Reachable top) (p : Nat) (pc : Client)
    (b : Nat) (o : Oracle) (hd : deref top p = some pc) (hn : pc.name_entered = false)
    (hb : b = 10 ∨ b = 13) (hne : pc.name ≠ [])
    (hfree : ∀ e ∈ top, e.addr ≠ p → e.name ≠ pc.name)
    (hnone : matchmaker (assign top p (fun c => { c with name_entered := true }))
      { pc with name_entered := true } = none) :
    ∃ w, main_step top (.ready p (.byte b) o) =
        some (assign top p (fun c => { c with name_entered := true }), w) ∧
      w = broadcast top (Msg.entered_arena pc.name) ++ [(pc.fd, Msg.awaiting)] ∧
      w.filter (fun x => decide (x.1 = pc.fd)) = [(pc.fd, Msg.awaiting)] ∧
      (∀ c ∈ top, c.addr ≠ p → c.name_entered = true →
        w.filter (fun x => decide (x.1 = c.fd)) = [(c.fd, Msg.entered_arena pc.name)]) ∧
      (∀ c ∈ top, c.addr ≠ p → c.name_entered = false →
        w.filter (fun x => decide (x.1 = c.fd)) = []) ∧
      deref (assign top p (fun c => { c with name_entered := true })) p =
        some { pc with name_entered := true } ∧
      pc.in_game = false ∧
      Msg.awaiting.text = "You are awaiting an opponent...\n" ∧
      (∀ n, (Msg.entered_arena n).text = cstring n ++ " has entered the arena.\n") := by
  have hi := reachable_inv h
  have hp := (deref_some hd).1
  have hpa := (deref_some hd).2
  have hg := in_game_false_of_unnamed hi hp hn
  obtain ⟨hd1, hspec⟩ := name_confirm_spec hi o hd hn hb hne hfree
  simp only [hnone] at hspec
  have hfdne : ∀ c ∈ top, c.addr ≠ p → c.fd ≠ pc.fd := by
    intro c hc h1 e
    exact h1 ((hi.eq_of_fd hc hp e) ▸ hpa)
  refine ⟨_, main_step_byte hspec, rfl, ?_, ?_, ?_, hd1, hg, rfl, fun _ => rfl⟩
  · rw [List.filter_append, broadcast_filter_none]
    · simp
    · intro a ha hna e
      have := hi.eq_of_fd ha hp e
      subst this
      rw [hn] at hna; cases hna
  · intro c hc h1 hcn
    rw [List.filter_append, broadcast_filter_one _ hi.nodup_fd hc (hi.fd_nonneg c hc) hcn]
    simp [Ne.symm (hfdne c hc h1)]
  · intro c hc h1 hcn
    rw [List.filter_append, broadcast_filter_none]
    · simp [Ne.symm (hfdne c hc h1)]
    · intro a ha hna e
      have := hi.eq_of_fd ha hc e
      subst this
      rw [hcn] at hna; cases hna

theorem name_terminator_witness :
    Reachable demo_typing ∧
    (deref demo_typing 300 = some demo_typist ∧ demo_typist.name_entered = false ∧
      ((10 : Nat) = 10 ∨ (10 : Nat) = 13)) ∧
    (demo_typist.name = [] →
      main_step demo_typing (.ready 300 (.byte 10) (fixed_oracle [] [])) = some (demo_typing, [(demo_typist.fd, Msg.name_empty)])) ∧
    (demo_typist.name ≠ [] → (∃ e ∈ demo_typing, e.addr ≠ 300 ∧ e.name = demo_typist.name) →
      main_step demo_typing (.ready 300 (.byte 10) (fixed_oracle [] [])) =
        some (assign demo_typing 300 (fun c => { c with name := [] }), [(demo_typist.fd, Msg.name_taken)]) ∧
      deref (assign demo_typing 300 (fun c => { c with name := [] })) 300 =
        some { demo_typist with name := [] }) ∧
    (demo_typist.name ≠ [] → (∀ e ∈ demo_typing, e.addr ≠ 300 → e.name ≠ demo_typist.name) →
      ∃ top1 w3 p1, main_step demo_typing (.ready 300 (.byte 10) (fixed_oracle [] [])) = some (top1,
          broadcast demo_typing (Msg.entered_arena demo_typist.name) ++ [(demo_typist.fd, Msg.awaiting)] ++ w3) ∧
        deref top1 300 = some p1 ∧ p1.name_entered = true ∧ p1.name = demo_typist.name) ∧
    Msg.name_empty.text = "Name cannot be empty, please enter your name: " ∧
    Msg.name_taken.text = "Name already taken, please enter a different name: "  :=
  ⟨demo_typing_reachable, ⟨rfl, rfl, Or.inl rfl⟩,
    name_terminator demo_typing demo_typing_reachable 300 demo_typist 10
      (fixed_oracle [] []) rfl rfl (Or.inl rfl)⟩

theorem lone_confirmation_witness :
    Reachable demo_typing ∧
    (deref demo_typing 300 = some demo_typist ∧ demo_typist.name_entered = false ∧
      ((10 : Nat) = 10 ∨ (10 : Nat) = 13) ∧ demo_typist.name ≠ [] ∧
      (∀ e ∈ demo_typing, e.addr ≠ 300 → e.name ≠ demo_typist.name) ∧
      matchmaker (assign demo_typing 300 (fun c => { c with name_entered := true }))
        { demo_typist with name_entered := true } = none) ∧
    ∃ w, main_step demo_typing (.ready 300 (.byte 10) (fixed_oracle [] [])) =
        some (assign demo_typing 300 (fun c => { c with name_entered := true }), w) ∧
      w = broadcast demo_typing (Msg.entered_arena demo_typist.name) ++ [(demo_typist.fd, Msg.awaiting)] ∧
      w.filter (fun x => decide (x.1 = demo_typist.fd)) = [(demo_typist.fd, Msg.awaiting)] ∧
      (∀ c ∈ demo_typing, c.addr ≠ 300 → c.name_entered = true →
        w.filter (fun x => decide (x.1 = c.fd)) = [(c.fd, Msg.entered_arena demo_typist.name)]) ∧
      (∀ c ∈ demo_typing, c.addr ≠ 300 → c.name_entered = false →
        w.filter (fun x => decide (x.1 = c.fd)) = []) ∧
      deref (assign demo_typing 300 (fun c => { c with name_entered := true })) 300 =
        some { demo_typist with name_entered := true } ∧
      demo_typist.in_game = false ∧
      Msg.awaiting.text = "You are awaiting an opponent...\n" ∧
      (∀ n, (Msg.entered_arena n).text = cstring n ++ " has entered the arena.\n")  :=
  ⟨demo_typing_reachable, ⟨rfl, rfl, Or.inl rfl, by decide, by decide, rfl⟩,
    lone_confirmation demo_typing demo_typing_reachable 300 demo_typist 10
      (fixed_oracle [] []) rfl rfl (Or.inl rfl) (by decide) (by decide) rfl⟩

theorem assign_assign {top : List Client} {a : Nat} {f g : Client → Client}
    (hf : ∀ c, (f c).addr = c.addr) :
    assign (assign top a f) a g = assign top a (fun c => g (f c)) := by
  simp only [assign, List.map_map]
  apply List.map_congr_left
  intro c _
  simp only [Function.comp]
  by_cases e : c.addr = a
  · rw [if_pos e, if_pos ((hf c).trans e), if_pos e]
  · rw [if_neg e, if_neg e, if_neg e]

theorem deref_assign_other {top : List Client} {a x : Nat} {f : Client → Client} {c : Client}
    (hf : ∀ c, (f c).addr = c.addr) (hd : deref top x = some c) (hne : x ≠ a) :
    deref (assign top a f) x = some c := by
  rw [deref_assign hf, hd]
  have : c.addr ≠ a := fun e => hne ((deref_some hd).2.symm.trans e)
  simp [this]

theorem deref_assign_self {top : List Client} {a : Nat} {f : Client → Client} {c : Client}
    (hf : ∀ c, (f c).addr = c.addr) (hd : deref top a = some c) :
    deref (assign top a f) a = some (f c) := by
  rw [deref_assign hf, hd]
  simp [(deref_some hd).2]

/-- One byte from the turn holder in chat mode, within its deadline. -/
theorem chat_step {top : List Client} {p : Nat} {pc : Client} (M : List Nat) (L : Int)
    (b : Nat) (o : Oracle) (hd : deref top p = some pc) (hg : pc.in_game = true)
    (ht : pc.is_turn = true) (htl : pc.time_left = 30)
    (hdl : o.time 0 - pc.start_time < 30) :
    handleclient p (assign top p (chat_state M L)) (.byte b) o =
      chat_byte (chat_state M L pc) (assign top p (chat_state M L)) b := by
  have hd1 : deref (assign top p (chat_state M L)) p = some (chat_state M L pc) :=
    deref_assign_self (fun c => rfl) hd
  rw [handleclient_turn b o hd1 hg ht]
  have h1 : (chat_state M L pc).time_left = 30 := htl
  have h2 : ¬ (30 ≤ o.time 0 - (chat_state M L pc).start_time) := not_le.2 hdl
  rw [h1, if_neg h2]
  simp [command_byte, chat_state]

/-- A byte other than newline and carriage return with room in the buffer is stored. -/
theorem chat_store {top : List Client} {p : Nat} {pc : Client} (typed : List Nat)
    (b : Nat) (o : Oracle) (hd : deref top p = some pc) (hg : pc.in_game = true)
    (ht : pc.is_turn = true) (htl : pc.time_left = 30)
    (hdl : o.time 0 - pc.start_time < 30) (hb : b ≠ 10 ∧ b ≠ 13)
    (hlen : typed.length < 20) :
    main_step (assign top p (chat_state (buffer_of typed) typed.length))
        (.ready p (.byte b) o) =
      some (assign top p (chat_state (buffer_of (typed ++ [b]))
        ((typed ++ [b]).length : Nat)), []) := by
  apply main_step_byte
  rw [chat_step _ _ b o hd hg ht htl hdl]
  unfold chat_byte
  rw [if_neg hb.1, if_pos hb.2]
  have h1 : (chat_state (buffer_of typed) typed.length pc).message_length = typed.length := rfl
  have h2 : (chat_state (buffer_of typed) typed.length pc).addr = p := (deref_some hd).2
  rw [h1, h2, if_pos (by simp [MAX_MESSAGE_LEN]; omega), if_neg (by omega),
    @assign_assign top p (chat_state (buffer_of typed) typed.length) _ (fun c => rfl)]
  refine congrArg (fun t => some ((0 : Int), t, ([] : List Write)))
    (congrArg (assign top p) ?_)
  funext c
  simp only [chat_state, Int.toNat_ofNat, List.length_append, List.length_singleton,
    Nat.cast_add, Nat.cast_one]
  congr 1
  unfold buffer_of
  have : MAX_MESSAGE_LEN + 1 - typed.length = (MAX_MESSAGE_LEN + 1 - (typed.length + 1)) + 1 := by
    simp [MAX_MESSAGE_LEN]; omega
  rw [this, List.replicate_succ, List.set_append_right _ _ (le_refl _)]
  simp

/-- The byte `s` from the turn holder outside chat mode opens chat mode. -/
theorem chat_open {top : List Client} {p : Nat} {pc : Client} (o : Oracle)
    (hd : deref top p = some pc) (hg : pc.in_game = true)
    (ht : pc.is_turn = true) (hm : pc.is_messaging = false) (htl : pc.time_left = 30)
    (hdl : o.time 0 - pc.start_time < 30) :
    main_step top (.ready p (.byte 115) o) =
      some (assign top p (chat_state (buffer_of []) (([] : List Nat).length : Nat)),
        [(pc.fd, Msg.speak)]) := by
  apply main_step_byte
  rw [handleclient_turn 115 o hd hg ht, htl, if_neg (not_le.2 hdl)]
  simp only [command_byte, hm, Bool.false_eq_true, if_false, (deref_some hd).2]
  rw [if_neg (by decide)]
  simp only [true_and, if_true]
  rfl

/-- The 21st byte is counted, not stored, and answered with the warning. -/
theorem chat_warn {top : List Client} {p : Nat} {pc : Client} (M : List Nat)
    (b : Nat) (o : Oracle) (hd : deref top p = some pc) (hg : pc.in_game = true)
    (ht : pc.is_turn = true) (htl : pc.time_left = 30)
    (hdl : o.time 0 - pc.start_time < 30) (hb : b ≠ 10 ∧ b ≠ 13) :
    main_step (assign top p (chat_state M 20)) (.ready p (.byte b) o) =
      some (assign top p (chat_state M 21), [(pc.fd, Msg.too_long_warning)]) := by
  apply main_step_byte
  rw [chat_step _ _ b o hd hg ht htl hdl]
  unfold chat_byte
  rw [if_neg hb.1, if_pos hb.2]
  have h1 : (chat_state M 20 pc).message_length = 20 := rfl
  have h2 : (chat_state M 20 pc).addr = p := (deref_some hd).2
  rw [h1, h2, if_neg (by simp [MAX_MESSAGE_LEN]), if_pos (by simp [MAX_MESSAGE_LEN]),
    @assign_assign top p (chat_state M 20) _ (fun c => rfl)]
  rfl

/-- Every later byte but the newline is dropped. -/
theorem chat_drop {top : List Client} {p : Nat} {pc : Client} (M : List Nat)
    (b : Nat) (o : Oracle) (hd : deref top p = some pc) (hg : pc.in_game = true)
    (ht : pc.is_turn = true) (htl : pc.time_left = 30)
    (hdl : o.time 0 - pc.start_time < 30) (hb : b ≠ 10) :
    main_step (assign top p (chat_state M 21)) (.ready p (.byte b) o) =
      some (assign top p (chat_state M 21), []) := by
  apply main_step_byte
  rw [chat_step _ _ b o hd hg ht htl hdl]
  unfold chat_byte
  rw [if_neg hb]
  have h1 : (chat_state M 21 pc).message_length = 21 := rfl
  by_cases h13 : b = 13
  · rw [if_neg (by simpa using h13)]
  · rw [if_pos h13, h1, if_neg (by simp [MAX_MESSAGE_LEN]),
      if_neg (by simp [MAX_MESSAGE_LEN])]

/-- The newline ends chat mode: one notice that depends on the count, the buffer is
cleared and the status prompt is written to the sender. -/
theorem chat_flush {top : List Client} {p : Nat} {pc oc : Client} (M : List Nat) (L : Int)
    (o : Oracle) (hd : deref top p = some pc) (hg : pc.in_game = true)
    (ht : pc.is_turn = true) (htl : pc.time_left = 30)
    (hdl : o.time 0 - pc.start_time < 30)
    (hl : pc.last_opponent = some oc.addr) (hdo : deref top oc.addr = some oc)
    (hne : oc.addr ≠ p) :
    main_step (assign top p (chat_state M L)) (.ready p (.byte 10) o) =
      some (assign top p chat_reset,
        (if 20 < L then [(pc.fd, Msg.too_long_not_sent)]
         else if 0 < L then [(oc.fd, Msg.says pc.name (cstr M))]
         else [(pc.fd, Msg.said_nothing)]) ++
        [(pc.fd, Msg.status pc.hitpoints pc.powermoves oc.hitpoints)]) := by
  apply main_step_byte
  rw [chat_step _ _ 10 o hd hg ht htl hdl]
  unfold chat_byte
  rw [if_pos rfl]
  have h0 : (chat_state M L pc).last_opponent = some oc.addr := hl
  have h2 : (chat_state M L pc).addr = p := (deref_some hd).2
  have hdo1 : deref (assign top p (chat_state M L)) oc.addr = some oc :=
    deref_assign_other (fun c => rfl) hdo hne
  have hK : assign (assign top p (chat_state M L)) p (fun c =>
      { c with is_messaging := false, message := List.replicate (MAX_MESSAGE_LEN + 1) 0,
               message_length := 0 }) = assign top p chat_reset := by
    rw [@assign_assign top p (chat_state M L) _ (fun c => rfl)]
    rfl
  have hd2 : deref (assign top p chat_reset) p = some (chat_reset pc) :=
    deref_assign_self (fun c => rfl) hd
  have hdo2 : deref (assign top p chat_reset) oc.addr = some oc :=
    deref_assign_other (fun c => rfl) hdo hne
  simp only [h0, Option.some_bind, hdo1, h2, hK, hd2, hdo2]
  rfl

theorem cstr_buffer_of {typed : List Nat} (h0 : ∀ b ∈ typed, b ≠ 0)
    (hlen : typed.length ≤ 20) : cstr (buffer_of typed) = typed := by
  unfold cstr buffer_of
  have : MAX_MESSAGE_LEN + 1 - typed.length = (20 - typed.length) + 1 := by
    simp [MAX_MESSAGE_LEN]; omega
  rw [this, List.replicate_succ]
  rw [List.takeWhile_append_of_pos (by simpa using h0)]
  simp

theorem run_writes_cons {top top1 top2 : List Client} {e : Event} {es : List Event}
    {w : List Write} {ws : List (List Write)} (h1 : main_step top e = some (top1, w))
    (h2 : run_writes top1 es = some (top2, ws)) :
    run_writes top (e :: es) = some (top2, w :: ws) := by
  simp [run_writes, h1, h2]

theorem run_writes_append {top top1 top2 : List Client} {es1 es2 : List Event}
    {ws1 ws2 : List (List Write)} (h1 : run_writes top es1 = some (top1, ws1))
    (h2 : run_writes top1 es2 = some (top2, ws2)) :
    run_writes top (es1 ++ es2) = some (top2, ws1 ++ ws2) := by
  induction es1 generalizing top ws1 with
  | nil =>
    simp only [run_writes, Option.some.injEq, Prod.mk.injEq] at h1
    obtain ⟨rfl, rfl⟩ := h1
    exact h2
  | cons e es ih =>
    simp only [run_writes] at h1
    split at h1
    · cases h1
    · rename_i t w hm
      split at h1
      · cases h1
      · rename_i t2 ws hr
        simp only [Option.some.injEq, Prod.mk.injEq] at h1
        obtain ⟨rfl, rfl⟩ := h1
        exact run_writes_cons hm (ih hr)

theorem reachable_run_writes {top top1 : List Client} {es : List Event}
    {ws : List (List Write)} (h : Reachable top)
    (hr : run_writes top es = some (top1, ws)) : Reachable top1 := by
  induction es generalizing top ws with
  | nil =>
    simp only [run_writes, Option.some.injEq, Prod.mk.injEq] at hr
    exact hr.1 ▸ h
  | cons e es ih =>
    simp only [run_writes] at hr
    split at hr
    · cases hr
    · rename_i t w hm
      split at hr
      · cases hr
      · rename_i t2 ws2 hr2
        simp only [Option.some.injEq, Prod.mk.injEq] at hr
        obtain ⟨rfl, -⟩ := hr
        exact ih (Reachable.step e h hm) hr2

/-- Bytes typed in chat mode while there is room are stored in order, with no write. -/
theorem chat_run_store {top : List Client} {p : Nat} {pc : Client}
    (hd : deref top p = some pc) (hg : pc.in_game = true)
    (ht : pc.is_turn = true) (htl : pc.time_left = 30)
    (body : List (Nat × Oracle)) (typed : List Nat)
    (hlen : typed.length + body.length ≤ 20)
    (hb : ∀ k ∈ body, k.1 ≠ 10 ∧ k.1 ≠ 13)
    (hdl : ∀ k ∈ body, k.2.time 0 - pc.start_time < 30) :
    run_writes (assign top p (chat_state (buffer_of typed) typed.length))
        (keystrokes p body) =
      some (assign top p (chat_state (buffer_of (typed ++ body.map Prod.fst))
          ((typed ++ body.map Prod.fst).length : Nat)),
        body.map (fun _ => [])) := by
  induction body generalizing typed with
  | nil => simp [keystrokes, run_writes]
  | cons k ks ih =>
    have hk := hb k (List.mem_cons_self _ _)
    have h1 := chat_store typed k.1 k.2 hd hg ht htl (hdl k (List.mem_cons_self _ _)) hk
      (by simp only [List.length_cons] at hlen; omega)
    have h2 := ih (typed ++ [k.1])
      (by simp only [List.length_cons, List.length_append, List.length_nil] at hlen ⊢
          omega)
      (fun x hx => hb x (List.mem_cons_of_mem _ hx))
      (fun x hx => hdl x (List.mem_cons_of_mem _ hx))
    have := run_writes_cons h1 h2
    simpa [keystrokes] using this

/-- Bytes typed after the warning are dropped, with no write. -/
theorem chat_run_drop {top : List Client} {p : Nat} {pc : Client}
    (hd : deref top p = some pc) (hg : pc.in_game = true)
    (ht : pc.is_turn = true) (htl : pc.time_left = 30)
    (body : List (Nat × Oracle)) (M : List Nat)
    (hb : ∀ k ∈ body, k.1 ≠ 10)
    (hdl : ∀ k ∈ body, k.2.time 0 - pc.start_time < 30) :
    run_writes (assign top p (chat_state M 21)) (keystrokes p body) =
      some (assign top p (chat_state M 21), body.map (fun _ => [])) := by
  induction body with
  | nil => simp [keystrokes, run_writes]
  | cons k ks ih =>
    have h1 := chat_drop M k.1 k.2 hd hg ht htl (hdl k (List.mem_cons_self _ _))
      (hb k (List.mem_cons_self _ _))
    have h2 := ih (fun x hx => hb x (List.mem_cons_of_mem _ hx))
      (fun x hx => hdl x (List.mem_cons_of_mem _ hx))
    have := run_writes_cons h1 h2
    simpa [keystrokes] using this

/-- C14: the turn holder of a battle, outside chat mode, sends `s`, a message of 1 to
20 bytes without newline, carriage return and NUL, and a newline, every byte within
the deadline of its turn.  The writes, event by event: the `Speak` prompt, nothing for
each byte of the message, and for the newline the line with the name of the sender and
the message to the opponent followed by the status prompt to the sender.  The registry
after the run is the one before it with the chat fields of the sender cleared: the turn,
the hitpoints and the powermoves of every record are what they were. -/
theorem chat_message_delivered (top : List Client) (h : Reachable top) (p : Nat)
    (pc : Client) (os onl : Oracle) (body : List (Nat × Oracle))
    (hd : deref top p = some pc) (hg : pc.in_game = true) (ht : pc.is_turn = true)
    (hm : pc.is_messaging = false) (hlen : 1 ≤ body.length ∧ body.length ≤ 20)
    (hb : ∀ k ∈ body, k.1 ≠ 10 ∧ k.1 ≠ 13 ∧ k.1 ≠ 0)
    (hdl : ∀ k ∈ (115, os) :: body ++ [(10, onl)], k.2.time 0 - pc.start_time < 30) :
    ∃ oc, deref top oc.addr = some oc ∧ pc.last_opponent = some oc.addr ∧
      oc.addr ≠ p ∧ oc.fd ≠ pc.fd ∧
      run_writes top (keystrokes p ((115, os) :: body ++ [(10, onl)])) =
        some (assign top p chat_reset,
          [(pc.fd, Msg.speak)] :: (body.map (fun _ => ([] : List Write)) ++
            [[(oc.fd, Msg.says pc.name (body.map Prod.fst)),
              (pc.fd, Msg.status pc.hitpoints pc.powermoves oc.hitpoints)]])) ∧
      deref (assign top p chat_reset) p = some (chat_reset pc) ∧
      (∀ c ∈ top, c.addr ≠ p → deref (assign top p chat_reset) c.addr = some c) ∧
      ((chat_reset pc).is_turn = true ∧ (chat_reset pc).hitpoints = pc.hitpoints ∧
        (chat_reset pc).powermoves = pc.powermoves ∧
        (chat_reset pc).is_messaging = false ∧ (chat_reset pc).message_length = 0 ∧
        cstr (chat_reset pc).message = []) ∧
      (∀ n m, (Msg.says n m).text = cstring n ++ " says: " ++ cstring m ++ "\n") := by
  have hi := reachable_inv h
  have hp := (deref_some hd).1
  have hpa := (deref_some hd).2
  obtain ⟨oc, hoc, hl, hdo, hne, hog, hol, hot⟩ := hi.deref_partner hp hg
  have htl : pc.time_left = 30 := (hi.battle pc hp hg).2.2.2 ht
  have hne1 : oc.addr ≠ p := hpa ▸ hne
  have hfd : oc.fd ≠ pc.fd := fun e => hne (congrArg Client.addr (hi.eq_of_fd hoc hp e))
  refine ⟨oc, hdo, hl, hne1, hfd, ?_, deref_assign_self (fun c => rfl) hd, ?_,
    ⟨ht, rfl, rfl, rfl, rfl, by simp [chat_reset, cstr, MAX_MESSAGE_LEN, List.replicate_succ]⟩,
    fun _ _ => rfl⟩
  · have h1 := chat_open os hd hg ht hm htl (hdl _ (List.mem_cons_self _ _))
    have h2 := chat_run_store hd hg ht htl body [] (by simpa using hlen.2)
      (fun k hk => ⟨(hb k hk).1, (hb k hk).2.1⟩)
      (fun k hk => hdl k (List.mem_cons_of_mem _ (List.mem_append_left _ hk)))
    have h3 := @chat_flush top p pc oc (buffer_of ([] ++ body.map Prod.fst))
      ((([] : List Nat) ++ body.map Prod.fst).length : Nat) onl hd hg ht htl
      (hdl _ (List.mem_cons_of_mem _ (List.mem_append_right _ (List.mem_singleton.2 rfl))))
      hl hdo hne1
    have hL : (((([] : List Nat) ++ body.map Prod.fst).length : Nat) : Int) = body.length := by
      simp
    rw [hL, if_neg (by omega), if_pos (by omega)] at h3
    rw [List.nil_append, cstr_buffer_of (by
      intro x hx
      obtain ⟨k, hk, rfl⟩ := List.mem_map.1 hx
      exact (hb k hk).2.2) (by simpa using hlen.2)] at h3
    have h4 : run_writes (assign top p (chat_state (buffer_of ([] ++ body.map Prod.fst))
          ((([] : List Nat) ++ body.map Prod.fst).length : Nat)))
        (keystrokes p [(10, onl)]) = some (assign top p chat_reset,
          [[(oc.fd, Msg.says pc.name (body.map Prod.fst)),
            (pc.fd, Msg.status pc.hitpoints pc.powermoves oc.hitpoints)]]) := by
      rw [hL]
      exact run_writes_cons h3 rfl
    have h5 := run_writes_cons h1 (run_writes_append h2 h4)
    simpa [keystrokes] using h5
  · intro c hc h1
    exact deref_assign_other (fun c => rfl) (deref_of_mem hi.nodup_addr hc) h1

theorem chat_message_delivered_witness :
    Reachable demo_battle ∧
    (deref demo_battle 200 = some demo_mover ∧ demo_mover.in_game = true ∧
      demo_mover.is_turn = true ∧ demo_mover.is_messaging = false ∧
      (1 ≤ [(104, fixed_oracle [] [1001]), (105, fixed_oracle [] [1001])].length ∧
        [(104, fixed_oracle [] [1001]), (105, fixed_oracle [] [1001])].length ≤ 20) ∧
      (∀ k ∈ [(104, fixed_oracle [] [1001]), (105, fixed_oracle [] [1001])],
        k.1 ≠ 10 ∧ k.1 ≠ 13 ∧ k.1 ≠ 0) ∧
      (∀ k ∈ (115, fixed_oracle [] [1001]) ::
          [(104, fixed_oracle [] [1001]), (105, fixed_oracle [] [1001])] ++
            [(10, fixed_oracle [] [1001])],
        k.2.time 0 - demo_mover.start_time < 30)) ∧
    ∃ oc, deref demo_battle oc.addr = some oc ∧ demo_mover.last_opponent = some oc.addr ∧
      oc.addr ≠ 200 ∧ oc.fd ≠ demo_mover.fd ∧
      run_writes demo_battle (keystrokes 200 ((115, (fixed_oracle [] [1001])) :: [(104, fixed_oracle [] [1001]), (105, fixed_oracle [] [1001])] ++ [(10, (fixed_oracle [] [1001]))])) =
        some (assign demo_battle 200 chat_reset,
          [(demo_mover.fd, Msg.speak)] :: ([(104, fixed_oracle [] [1001]), (105, fixed_oracle [] [1001])].map (fun _ => ([] : List Write)) ++
            [[(oc.fd, Msg.says demo_mover.name ([(104, fixed_oracle [] [1001]), (105, fixed_oracle [] [1001])].map Prod.fst)),
              (demo_mover.fd, Msg.status demo_mover.hitpoints demo_mover.powermoves oc.hitpoints)]])) ∧
      deref (assign demo_battle 200 chat_reset) 200 = some (chat_reset demo_mover) ∧
      (∀ c ∈ demo_battle, c.addr ≠ 200 → deref (assign demo_battle 200 chat_reset) c.addr = some c) ∧
      ((chat_reset demo_mover).is_turn = true ∧ (chat_reset demo_mover).hitpoints = demo_mover.hitpoints ∧
        (chat_reset demo_mover).powermoves = demo_mover.powermoves ∧
        (chat_reset demo_mover).is_messaging = false ∧ (chat_reset demo_mover).message_length = 0 ∧
        cstr (chat_reset demo_mover).message = []) ∧
      (∀ n m, (Msg.says n m).text = cstring n ++ " says: " ++ cstring m ++ "\n")  :=
  ⟨demo_battle_reachable,
    ⟨rfl, rfl, rfl, rfl, by decide, by simp, by simp [fixed_oracle, demo_mover]⟩,
    chat_message_delivered demo_battle demo_battle_reachable 200 demo_mover
      (fixed_oracle [] [1001]) (fixed_oracle [] [1001])
      [(104, fixed_oracle [] [1001]), (105, fixed_oracle [] [1001])]
      rfl rfl rfl rfl (by decide) (by simp) (by simp [fixed_oracle, demo_mover])⟩

theorem chat_refl {top : List Client} {c : Client} (hc : c ∈ top) : Chat top c :=
  ⟨c, hc, rfl, Or.inl ⟨rfl, rfl, rfl⟩⟩

theorem chat_same {top : List Client} {k k1 : Client} (h : Chat top k)
    (ha : k1.addr = k.addr) (hs : SameChat k k1) : Chat top k1 := by
  obtain ⟨c, hc, e, hst⟩ := h
  obtain ⟨s1, s2, s3⟩ := hs
  refine ⟨c, hc, ha.trans e, ?_⟩
  rcases hst with ⟨a1, a2, a3⟩ | ⟨a1, a2⟩ | ⟨a1, a2, a3, a4, ⟨b, a5⟩, a6⟩ | ⟨a1, a2, a3, a4, a5⟩
  · exact Or.inl ⟨s1.trans a1, s2.trans a2, s3.trans a3⟩
  · exact Or.inr (Or.inl ⟨s2.trans a1, s3.trans a2⟩)
  · exact Or.inr (Or.inr (Or.inl ⟨a1, s1.trans a2, a3, a4, ⟨b, s2.trans a5⟩, s3.trans a6⟩))
  · exact Or.inr (Or.inr (Or.inr ⟨a1, s1.trans a2, a3, s2.trans a4, s3.trans a5⟩))

theorem chat_assign {top K : List Client} (hK : ∀ k ∈ K, Chat top k) (a : Nat)
    {f : Client → Client} (hf : ∀ c, (f c).addr = c.addr ∧ SameChat c (f c)) :
    ∀ k ∈ assign K a f, Chat top k := by
  intro k hk
  obtain ⟨k0, hk0, rfl⟩ := mem_assign.1 hk
  split_ifs
  · exact chat_same (hK k0 hk0) (hf k0).1 (hf k0).2
  · exact hK k0 hk0

theorem chat_match {top K : List Client} (hK : ∀ k ∈ K, Chat top k) (x y : Nat)
    (o : Oracle) : ∀ k ∈ K.map (match_upd x y o), Chat top k := by
  intro k hk
  obtain ⟨k0, hk0, rfl⟩ := List.mem_map.1 hk
  refine chat_same (hK k0 hk0) (match_upd_addr x y o k0) ?_
  unfold match_upd SameChat
  dsimp only
  split_ifs <;> simp [begin_battle_chat]

theorem chat_start_match {top K K1 : List Client} {x y : Nat} {o o1 : Oracle}
    {w : List Write} (hK : ∀ k ∈ K, Chat top k)
    (hres : start_match x y K o = some (K1, w, o1)) : ∀ k ∈ K1, Chat top k := by
  obtain ⟨rfl, -⟩ := start_match_eq hres
  exact chat_match hK x y o

theorem chat_rematch {top K K1 : List Client} {x : Nat} {o o1 : Oracle} {w : List Write}
    (hK : ∀ k ∈ K, Chat top k)
    (hres : rematch x K o = some (K1, w, o1)) : ∀ k ∈ K1, Chat top k := by
  unfold rematch at hres
  split at hres
  · simp at hres
  · split at hres
    · exact chat_start_match hK hres
    · simp only [Option.some.injEq, Prod.mk.injEq] at hres
      obtain ⟨rfl, -⟩ := hres
      exact hK

theorem timeout_switch_chat {top top1 : List Client} {pc : Client} {now ret : Int}
    {w : List Write}
    (hres : timeout_switch pc top now = some (ret, top1, w)) : ∀ k ∈ top1, Chat top k := by
  have h0 : ∀ k ∈ top, Chat top k := fun k hk => chat_refl hk
  unfold timeout_switch at hres
  dsimp only at hres
  repeat' split at hres
  all_goals first
    | (simp at hres; done)
    | (simp only [Option.some.injEq, Prod.mk.injEq] at hres
       obtain ⟨-, rfl, -⟩ := hres
       repeat' first
         | exact h0
         | apply chat_assign
         | exact fun c => ⟨rfl, rfl, rfl, rfl⟩)

theorem end_battle_chat {top K top1 : List Client} {p oa : Nat} {won : Bool} {o : Oracle}
    {w : List Write} (hK : ∀ k ∈ K, Chat top k)
    (hres : end_battle p oa K won o = some (top1, w)) : ∀ k ∈ top1, Chat top k := by
  unfold end_battle at hres
  dsimp only at hres
  split at hres
  · split at hres
    · simp at hres
    · rename_i K5 w5 o5 h5
      split at hres
      · simp at hres
      · rename_i K6 w6 o6 h6
        simp only [Option.some.injEq, Prod.mk.injEq] at hres
        obtain ⟨rfl, -⟩ := hres
        have hK4 := chat_assign (chat_assign (chat_assign (chat_assign hK p
          (fun c => (⟨rfl, rfl, rfl, rfl⟩ :
            ({ c with in_game := false } : Client).addr = c.addr ∧ _))) oa
          (fun c => (⟨rfl, rfl, rfl, rfl⟩ :
            ({ c with in_game := false } : Client).addr = c.addr ∧ _))) p
          (fun c => (⟨rfl, rfl, rfl, rfl⟩ :
            ({ c with last_opponent := some oa } : Client).addr = c.addr ∧ _))) oa
          (fun c => (⟨rfl, rfl, rfl, rfl⟩ :
            ({ c with last_opponent := some p } : Client).addr = c.addr ∧ _))
        have hK6 := chat_rematch (chat_rematch hK4 h5) h6
        repeat' first
          | exact hK6
          | apply chat_assign
          | exact fun c => ⟨rfl, rfl, rfl, rfl⟩
  · simp at hres

theorem attack_chat {top top1 : List Client} {pc : Client} {b : Nat} {o : Oracle}
    {ret : Int} {w : List Write}
    (hres : attack pc top b o = some (ret, top1, w)) : ∀ k ∈ top1, Chat top k := by
  have h0 : ∀ k ∈ top, Chat top k := fun k hk => chat_refl hk
  have h1 : ∀ k ∈ (if b = 97 then top else assign top pc.addr
      (fun c => { c with powermoves := c.powermoves - 1 })), Chat top k := by
    split_ifs
    · exact h0
    · apply chat_assign h0
      exact fun c => ⟨rfl, rfl, rfl, rfl⟩
  unfold attack at hres
  dsimp only at hres
  repeat' split at hres
  all_goals first
    | (simp at hres; done)
    | (simp only [Option.some.injEq, Prod.mk.injEq] at hres
       obtain ⟨-, rfl, -⟩ := hres
       first
       | exact h0
       | (refine end_battle_chat ?_ (by assumption)
          repeat' first
            | exact h0
            | exact h1
            | apply chat_assign
            | exact fun c => ⟨rfl, rfl, rfl, rfl⟩)
       | (repeat' first
            | exact h0
            | exact h1
            | apply chat_assign
            | exact fun c => ⟨rfl, rfl, rfl, rfl⟩))

theorem chat_assign_step {top : List Client} (a : Nat) {f : Client → Client}
    (hf : ∀ c ∈ top, c.addr = a → (f c).addr = c.addr ∧ ChatStep c (f c)) :
    ∀ k ∈ assign top a f, Chat top k := by
  intro k hk
  obtain ⟨k0, hk0, rfl⟩ := mem_assign.1 hk
  split_ifs with e
  · exact ⟨k0, hk0, (hf k0 hk0 e).1, (hf k0 hk0 e).2⟩
  · exact chat_refl hk0

theorem chat_byte_chat {top top1 : List Client} {pc : Client} {b : Nat} {ret : Int}
    {w : List Write} (h : Core top) (hp : pc ∈ top) (hm : pc.is_messaging = true)
    (hres : chat_byte pc top b = some (ret, top1, w)) : ∀ k ∈ top1, Chat top k := by
  have h0 : ∀ k ∈ top, Chat top k := fun k hk => chat_refl hk
  unfold chat_byte at hres
  dsimp only at hres
  repeat' split at hres
  all_goals first
    | (simp at hres; done)
    | (simp only [Option.some.injEq, Prod.mk.injEq] at hres
       obtain ⟨-, rfl, -⟩ := hres
       first
       | exact h0
       | (apply chat_assign_step
          intro c hc e
          have := h.eq_of_addr hc hp e
          subst this
          first
          | exact ⟨rfl, Or.inr (Or.inl ⟨rfl, rfl⟩)⟩
          | (have hx : ¬ c.message_length < 0 := by assumption
             have hy : c.message_length < (MAX_MESSAGE_LEN : Int) := by assumption
             exact ⟨rfl, Or.inr (Or.inr (Or.inl ⟨hm, hm, not_lt.1 hx,
               by simpa [MAX_MESSAGE_LEN] using hy, ⟨b, rfl⟩, rfl⟩))⟩)
          | (have hx : c.message_length = (MAX_MESSAGE_LEN : Int) := by assumption
             have hz : c.message_length = 20 := by simpa [MAX_MESSAGE_LEN] using hx
             exact ⟨rfl, Or.inr (Or.inr (Or.inr ⟨hm, hm, hz, rfl,
               by show c.message_length + 1 = 21; omega⟩))⟩)))

theorem command_byte_chat {top top1 : List Client} {pc : Client} {b : Nat} {o : Oracle}
    {ret : Int} {w : List Write} (h : Core top) (hp : pc ∈ top)
    (hres : command_byte pc top b o = some (ret, top1, w)) : ∀ k ∈ top1, Chat top k := by
  have h0 : ∀ k ∈ top, Chat top k := fun k hk => chat_refl hk
  unfold command_byte at hres
  split at hres
  · rename_i hm
    exact chat_byte_chat h hp hm hres
  · split at hres
    · repeat' split at hres
      all_goals first
        | (simp at hres; done)
        | (simp only [Option.some.injEq, Prod.mk.injEq] at hres
           obtain ⟨-, rfl, -⟩ := hres
           exact h0)
    · split at hres
      · simp only [Option.some.injEq, Prod.mk.injEq] at hres
        obtain ⟨-, rfl, -⟩ := hres
        apply chat_assign_step
        intro c _ _
        exact ⟨rfl, Or.inr (Or.inl ⟨rfl, rfl⟩)⟩
      · split at hres
        · exact attack_chat hres
        · simp only [Option.some.injEq, Prod.mk.injEq] at hres
          obtain ⟨-, rfl, -⟩ := hres
          exact h0

theorem battle_byte_chat {top top1 : List Client} {pc : Client} {b : Nat} {o : Oracle}
    {ret : Int} {w : List Write} (h : Core top) (hp : pc ∈ top)
    (hres : battle_byte pc top b o = some (ret, top1, w)) : ∀ k ∈ top1, Chat top k := by
  have h0 : ∀ k ∈ top, Chat top k := fun k hk => chat_refl hk
  unfold battle_byte at hres
  dsimp only at hres
  repeat' split at hres
  all_goals first
    | (simp at hres; done)
    | exact timeout_switch_chat hres
    | exact command_byte_chat h hp hres
    | (simp only [Option.some.injEq, Prod.mk.injEq] at hres
       obtain ⟨-, rfl, -⟩ := hres
       exact h0)

theorem name_byte_chat {top top1 : List Client} {pc : Client} {b : Nat} {o : Oracle}
    {ret : Int} {w : List Write}
    (hres : name_byte pc top b o = some (ret, top1, w)) : ∀ k ∈ top1, Chat top k := by
  have h0 : ∀ k ∈ top, Chat top k := fun k hk => chat_refl hk
  have h1 : ∀ k ∈ assign top pc.addr (fun c => { c with name_entered := true }),
      Chat top k := by
    apply chat_assign h0
    exact fun c => ⟨rfl, rfl, rfl, rfl⟩
  unfold name_byte at hres
  dsimp only at hres
  repeat' split at hres
  all_goals first
    | (simp at hres; done)
    | (simp only [Option.some.injEq, Prod.mk.injEq] at hres
       obtain ⟨-, rfl, -⟩ := hres
       first
       | exact h0
       | exact h1
       | exact chat_start_match h1 (by assumption)
       | (repeat' first
            | exact h0
            | apply chat_assign
            | exact fun c => ⟨rfl, rfl, rfl, rfl⟩))

theorem handleclient_chat {top top1 : List Client} {p : Nat} {r : ReadResult} {o : Oracle}
    {ret : Int} {w : List Write} (h : Core top)
    (hres : handleclient p top r o = some (ret, top1, w)) : ∀ k ∈ top1, Chat top k := by
  have h0 : ∀ k ∈ top, Chat top k := fun k hk => chat_refl hk
  unfold handleclient at hres
  split at hres
  · simp at hres
  · rename_i pc hd
    have hp := (deref_some hd).1
    repeat' split at hres
    all_goals first
      | (simp at hres; done)
      | exact battle_byte_chat h hp hres
      | exact name_byte_chat hres
      | (simp only [Option.some.injEq, Prod.mk.injEq] at hres
         obtain ⟨-, rfl, -⟩ := hres
         exact h0)

theorem mem_of_mem_removeclient {L : List Client} {fd : Int} {k : Client}
    (hk : k ∈ removeclient L fd) : k ∈ L := by
  induction L with
  | nil => cases hk
  | cons a rest ih =>
    unfold removeclient at hk
    split_ifs at hk
    · exact List.mem_cons_of_mem _ hk
    · rcases List.mem_cons.1 hk with rfl | h1
      · exact List.mem_cons_self _ _
      · exact List.mem_cons_of_mem _ (ih h1)

theorem disconnect_chat {top top1 : List Client} {p : Nat} {o : Oracle} {w : List Write}
    (hres : disconnect_client p top o = some (top1, w)) : ∀ k ∈ top1, Chat top k := by
  have h0 : ∀ k ∈ top, Chat top k := fun k hk => chat_refl hk
  have hrem : ∀ (K : List Client) (fd : Int), (∀ k ∈ K, Chat top k) →
      ∀ k ∈ removeclient K fd, Chat top k :=
    fun K fd hK k hk => hK k (mem_of_mem_removeclient hk)
  unfold disconnect_client at hres
  dsimp only at hres
  split at hres
  · simp at hres
  · rename_i pc hd
    split at hres
    · simp only [Option.some.injEq, Prod.mk.injEq] at hres
      obtain ⟨rfl, -⟩ := hres
      apply chat_assign h0
      exact fun c => ⟨rfl, rfl, rfl, rfl⟩
    · split at hres
      · simp at hres
      · rename_i K w1 heq
        have hK : ∀ k ∈ K, Chat top k := by
          split at heq
          · split at heq
            · simp at heq
            · simp only [Option.some.injEq, Prod.mk.injEq] at heq
              obtain ⟨rfl, -⟩ := heq
              apply chat_assign h0
              exact fun c => ⟨rfl, rfl, rfl, rfl⟩
          · simp only [Option.some.injEq, Prod.mk.injEq] at heq
            obtain ⟨rfl, -⟩ := heq
            exact h0
        have hK2 := hrem K pc.fd hK
        repeat' split at hres
        all_goals first
          | (simp at hres; done)
          | (simp only [Option.some.injEq, Prod.mk.injEq] at hres
             obtain ⟨rfl, -⟩ := hres
             first
             | exact hK2
             | exact chat_start_match hK2 (by assumption))

/-- One event of the loop: every record of the new registry comes from a record of the
old one by a `ChatStep`, or is the record of a connection accepted in this event, which
is out of chat mode with the count 0 and a NUL at index 0 of its buffer. -/
theorem main_step_chat {top top1 : List Client} {e : Event} {w : List Write} (h : Inv top)
    (hres : main_step top e = some (top1, w)) :
    ∀ k ∈ top1, Chat top k ∨
      (k.is_messaging = false ∧ k.message_length = 0 ∧
        k.message.length = MAX_MESSAGE_LEN + 1 ∧ k.message.getD 0 1 = 0 ∧
        ∀ c ∈ top, c.addr ≠ k.addr) := by
  cases e with
  | connect fd addr junk ok =>
    simp only [main_step] at hres
    split_ifs at hres with hc
    simp only [Option.some.injEq] at hres
    unfold addclient at hres
    dsimp only at hres
    split_ifs at hres
    · simp only [Prod.mk.injEq] at hres
      obtain ⟨rfl, -⟩ := hres
      intro k hk
      rcases List.mem_append.1 hk with hk | hk
      · exact Or.inl (chat_refl hk)
      · simp only [List.mem_singleton] at hk
        subst hk
        refine Or.inr ⟨rfl, rfl, ?_, ?_, hc.2.2.1⟩
        · simp [hc.2.2.2]
        · have : 0 < junk.message.length := by rw [hc.2.2.2]; simp
          simp [List.getD_eq_getElem?_getD, this]
    · simp only [Prod.mk.injEq] at hres
      obtain ⟨rfl, -⟩ := hres
      exact fun k hk => Or.inl (chat_refl hk)
  | ready p r o =>
    simp only [main_step] at hres
    split at hres
    · simp at hres
    · rename_i ret t1 w1 hh
      obtain ⟨hi, hr⟩ := handleclient_inv h hh
      split_ifs at hres with hret
      · split at hres
        · simp at hres
        · rename_i t2 w2 hdc
          simp only [Option.some.injEq, Prod.mk.injEq] at hres
          obtain ⟨rfl, -⟩ := hres
          have := hr hret
          subst this
          exact fun k hk => Or.inl (disconnect_chat hdc k hk)
      · simp only [Option.some.injEq, Prod.mk.injEq] at hres
        obtain ⟨rfl, -⟩ := hres
        exact fun k hk => Or.inl (handleclient_chat h.toCore hh k hk)

theorem chatok_step {c k : Client} (hc : ChatOk c) (hs : ChatStep c k) : ChatOk k := by
  obtain ⟨c1, c2, c3, c4⟩ := hc
  rcases hs with ⟨a1, a2, a3⟩ | ⟨a1, a2⟩ | ⟨a1, a2, a3, a4, ⟨b, a5⟩, a6⟩ | ⟨a1, a2, a3, a4, a5⟩
  · exact ⟨by rw [a2]; exact c1, by rw [a3]; exact c2, by rw [a3]; exact c3,
      by rw [a1, a2]; exact c4⟩
  · refine ⟨by rw [a1]; simp, by rw [a2], by rw [a2]; decide, Or.inl ?_⟩
    rw [a1]; simp [MAX_MESSAGE_LEN, List.getD_eq_getElem?_getD]
  · have c5 : c.message.getD 20 1 = 0 := by
      rcases c4 with h1 | ⟨h1, -⟩
      · exact h1
      · rw [a1] at h1; cases h1
    refine ⟨by rw [a5]; simpa using c1, by omega, by omega, Or.inl ?_⟩
    rw [a5]
    have hne : c.message_length.toNat ≠ 20 := by omega
    simpa [List.getD_eq_getElem?_getD, List.getElem?_set_ne hne] using c5
  · have c5 : c.message.getD 20 1 = 0 := by
      rcases c4 with h1 | ⟨h1, -⟩
      · exact h1
      · rw [a1] at h1; cases h1
    exact ⟨by rw [a4]; exact c1, by omega, by omega, Or.inl (by rw [a4]; exact c5)⟩

/-- The bounds on the chat fields hold in every registry the server can reach. -/
theorem reachable_chatok {top : List Client} (h : Reachable top) : ∀ c ∈ top, ChatOk c := by
  induction h with
  | init => intro c hc; cases hc
  | step e hr hs ih =>
    intro k hk
    rcases main_step_chat (reachable_inv hr) hs k hk with ⟨c, hc, -, hst⟩ | ⟨f1, f2, f3, f4, -⟩
    · exact chatok_step (ih c hc) hst
    · exact ⟨f3, by rw [f2], by rw [f2]; decide, Or.inr ⟨f1, f4⟩⟩

theorem takeWhile_length_le (l : List Nat) (i : Nat) (h : l.getD i 1 = 0) :
    (l.takeWhile (fun b => b != 0)).length ≤ i := by
  induction l generalizing i with
  | nil => simp
  | cons a t ih =>
    cases i with
    | zero =>
      have : a = 0 := by simpa using h
      simp [this]
    | succ j =>
      have hj : t.getD j 1 = 0 := by simpa using h
      rw [List.takeWhile_cons]
      split
      · simp only [List.length_cons]
        exact Nat.succ_le_succ (ih j hj)
      · simp

theorem cstr_le_of_chatok {c : Client} (h : ChatOk c) : (cstr c.message).length ≤ 20 := by
  rcases h.2.2.2 with h1 | ⟨-, h1⟩
  · exact takeWhile_length_le _ _ h1
  · exact (takeWhile_length_le _ _ h1).trans (by decide)

/-- The run of `s`, more than 20 bytes and a newline, every byte within the deadline. -/
theorem chat_run_overflow {top : List Client} (hi : Inv top) {p : Nat} {pc : Client}
    (os onl : Oracle) (body : List (Nat × Oracle))
    (hd : deref top p = some pc) (hg : pc.in_game = true) (ht : pc.is_turn = true)
    (hm : pc.is_messaging = false) (hlen : 20 < body.length)
    (hb : ∀ k ∈ body, k.1 ≠ 10 ∧ k.1 ≠ 13)
    (hdl : ∀ k ∈ (115, os) :: body ++ [(10, onl)], k.2.time 0 - pc.start_time < 30) :
    ∃ oc, deref top oc.addr = some oc ∧ pc.last_opponent = some oc.addr ∧
      oc.addr ≠ p ∧ oc.fd ≠ pc.fd ∧
      run_writes top (keystrokes p ((115, os) :: body ++ [(10, onl)])) =
        some (assign top p chat_reset,
          [(pc.fd, Msg.speak)] :: (List.replicate 20 ([] : List Write) ++
            [[(pc.fd, Msg.too_long_warning)]] ++
            List.replicate (body.length - 21) ([] : List Write) ++
            [[(pc.fd, Msg.too_long_not_sent),
              (pc.fd, Msg.status pc.hitpoints pc.powermoves oc.hitpoints)]])) := by
  have hp := (deref_some hd).1
  have hpa := (deref_some hd).2
  obtain ⟨oc, hoc, hl, hdo, hne, hog, hol, hot⟩ := hi.deref_partner hp hg
  have htl : pc.time_left = 30 := (hi.battle pc hp hg).2.2.2 ht
  have hne1 : oc.addr ≠ p := hpa ▸ hne
  have hfd : oc.fd ≠ pc.fd := fun e => hne (congrArg Client.addr (hi.eq_of_fd hoc hp e))
  refine ⟨oc, hdo, hl, hne1, hfd, ?_⟩
  -- the body is twenty bytes, the 21st and the rest
  obtain ⟨k21, rest, hsplit⟩ : ∃ k21 rest, body.drop 20 = k21 :: rest := by
    cases hdr : body.drop 20 with
    | nil =>
      have := congrArg List.length hdr
      simp only [List.length_drop, List.length_nil] at this
      omega
    | cons a t => exact ⟨a, t, rfl⟩
  have hbody : body = body.take 20 ++ k21 :: rest := by
    rw [← hsplit, List.take_append_drop]
  have htake : (body.take 20).length = 20 := by
    rw [List.length_take]; omega
  have hrest : rest.length = body.length - 21 := by
    have := congrArg List.length hsplit
    simp only [List.length_drop, List.length_cons] at this
    omega
  have hmem : ∀ k, k ∈ body.take 20 ∨ k = k21 ∨ k ∈ rest → k ∈ body := by
    intro k hk
    rw [hbody]
    rcases hk with h1 | rfl | h1
    · exact List.mem_append_left _ h1
    · exact List.mem_append_right _ (List.mem_cons_self _ _)
    · exact List.mem_append_right _ (List.mem_cons_of_mem _ h1)
  have hdlb : ∀ k ∈ body, k.2.time 0 - pc.start_time < 30 :=
    fun k hk => hdl k (List.mem_cons_of_mem _ (List.mem_append_left _ hk))
  have h1 := chat_open os hd hg ht hm htl (hdl _ (List.mem_cons_self _ _))
  have h2 := chat_run_store hd hg ht htl (body.take 20) [] (by rw [htake]; simp)
    (fun k hk => hb k (hmem k (Or.inl hk))) (fun k hk => hdlb k (hmem k (Or.inl hk)))
  have hL : (((([] : List Nat) ++ (body.take 20).map Prod.fst).length : Nat) : Int) = 20 := by
    rw [List.nil_append, List.length_map, htake]; rfl
  rw [hL] at h2
  have h3 := chat_warn (buffer_of ([] ++ (body.take 20).map Prod.fst)) k21.1 k21.2 hd hg ht
    htl (hdlb k21 (hmem k21 (Or.inr (Or.inl rfl)))) (hb k21 (hmem k21 (Or.inr (Or.inl rfl))))
  have h4 := chat_run_drop hd hg ht htl rest (buffer_of ([] ++ (body.take 20).map Prod.fst))
    (fun k hk => (hb k (hmem k (Or.inr (Or.inr hk)))).1)
    (fun k hk => hdlb k (hmem k (Or.inr (Or.inr hk))))
  have h5 := @chat_flush top p pc oc (buffer_of ([] ++ (body.take 20).map Prod.fst)) 21 onl
    hd hg ht htl
    (hdl _ (List.mem_cons_of_mem _ (List.mem_append_right _ (List.mem_singleton.2 rfl))))
    hl hdo hne1
  rw [if_pos (by decide)] at h5
  have h6 := run_writes_cons h1 (run_writes_append h2
    (run_writes_cons h3 (run_writes_append h4 (run_writes_cons h5
      (rfl : run_writes (assign top p chat_reset) [] = some (assign top p chat_reset, []))))))
  have hev : keystrokes p ((115, os) :: body ++ [(10, onl)]) =
      Event.ready p (.byte 115) os :: (keystrokes p (body.take 20) ++
        (Event.ready p (.byte k21.1) k21.2 :: (keystrokes p rest ++
          [Event.ready p (.byte 10) onl]))) := by
    conv_lhs => rw [hbody]
    simp [keystrokes]
  have e1 : (body.take 20).map (fun _ => ([] : List Write)) = List.replicate 20 [] := by
    rw [List.map_const', htake]
  have e2 : rest.map (fun _ => ([] : List Write)) =
      List.replicate (body.length - 21) [] := by
    rw [List.map_const', hrest]
  rw [hev, h6, e1, e2]
  simp only [List.append_assoc, List.cons_append, List.nil_append]

/-- C15 (amended): in every reachable registry the buffer `message` of every record is
an array of 21 bytes whose C string has at most 20 characters, and `message_length` is
in 0..21; one event changes the chat fields of a record only by a `ChatStep`: it clears
the buffer, or stores a byte at the index of the count, which is in 0..19, or counts
the 21st byte without storing it.  When the turn holder sends `s`, more than 20 bytes
other than newline and carriage return and then a newline, every byte within the
deadline of its turn, the writes are, event by event: the `Speak` prompt, nothing for
the first 20 bytes, the warning for the 21st, nothing for the later bytes, and for the
newline the notice that the message was not sent followed by the status prompt, all to
the sender; nothing is written to the opponent. -/
theorem chat_buffer_bounded (top : List Client) (h : Reachable top) :
    (∀ c ∈ top, c.message.length = 21 ∧ 0 ≤ c.message_length ∧ c.message_length ≤ 21 ∧
      (cstr c.message).length ≤ 20) ∧
    (∀ (e : Event) (top1 : List Client) (w : List Write),
      main_step top e = some (top1, w) → ∀ k ∈ top1,
        (∃ c ∈ top, k.addr = c.addr ∧ ChatStep c k) ∨
        (k.is_messaging = false ∧ k.message_length = 0 ∧ ∀ c ∈ top, c.addr ≠ k.addr)) ∧
    (∀ (p : Nat) (pc : Client) (os onl : Oracle) (body : List (Nat × Oracle)),
      deref top p = some pc → pc.in_game = true → pc.is_turn = true →
      pc.is_messaging = false → 20 < body.length →
      (∀ k ∈ body, k.1 ≠ 10 ∧ k.1 ≠ 13) →
      (∀ k ∈ (115, os) :: body ++ [(10, onl)], k.2.time 0 - pc.start_time < 30) →
      ∃ oc, deref top oc.addr = some oc ∧ pc.last_opponent = some oc.addr ∧
        oc.addr ≠ p ∧ oc.fd ≠ pc.fd ∧
        run_writes top (keystrokes p ((115, os) :: body ++ [(10, onl)])) =
          some (assign top p chat_reset,
            [(pc.fd, Msg.speak)] :: (List.replicate 20 ([] : List Write) ++
              [[(pc.fd, Msg.too_long_warning)]] ++
              List.replicate (body.length - 21) ([] : List Write) ++
              [[(pc.fd, Msg.too_long_not_sent),
                (pc.fd, Msg.status pc.hitpoints pc.powermoves oc.hitpoints)]]))) ∧
    Msg.too_long_not_sent.text = "Message too long! Not sent.\n" ∧
    Msg.too_long_warning.text = "\nMessage too long! Finish and hit enter.\n" := by
  have hi := reachable_inv h
  refine ⟨?_, ?_, ?_, rfl, rfl⟩
  · intro c hc
    have hok := reachable_chatok h c hc
    exact ⟨hok.1, hok.2.1, hok.2.2.1, cstr_le_of_chatok hok⟩
  · intro e top1 w hres k hk
    rcases main_step_chat hi hres k hk with hck | ⟨f1, f2, -, -, f5⟩
    · exact Or.inl hck
    · exact Or.inr ⟨f1, f2, f5⟩
  · intro p pc os onl body hd hg ht hm hlen hb hdl
    exact chat_run_overflow hi os onl body hd hg ht hm hlen hb hdl

theorem chat_buffer_bounded_witness :
    Reachable demo_battle ∧
    (deref demo_battle 200 = some demo_mover ∧ demo_mover.in_game = true ∧
      demo_mover.is_turn = true ∧ demo_mover.is_messaging = false ∧
      20 < (List.replicate 21 (120, fixed_oracle [] [1001])).length ∧
      (∀ k ∈ (List.replicate 21 (120, fixed_oracle [] [1001])), k.1 ≠ 10 ∧ k.1 ≠ 13) ∧
      (∀ k ∈ (115, fixed_oracle [] [1001]) :: (List.replicate 21 (120, fixed_oracle [] [1001])) ++ [(10, fixed_oracle [] [1001])],
        k.2.time 0 - demo_mover.start_time < 30)) ∧
      ∃ oc, deref demo_battle oc.addr = some oc ∧ demo_mover.last_opponent = some oc.addr ∧
        oc.addr ≠ 200 ∧ oc.fd ≠ demo_mover.fd ∧
        run_writes demo_battle (keystrokes 200 ((115, (fixed_oracle [] [1001])) :: (List.replicate 21 (120, fixed_oracle [] [1001])) ++ [(10, (fixed_oracle [] [1001]))])) =
          some (assign demo_battle 200 chat_reset,
            [(demo_mover.fd, Msg.speak)] :: (List.replicate 20 ([] : List Write) ++
              [[(demo_mover.fd, Msg.too_long_warning)]] ++
              List.replicate ((List.replicate 21 (120, fixed_oracle [] [1001])).length - 21) ([] : List Write) ++
              [[(demo_mover.fd, Msg.too_long_not_sent),
                (demo_mover.fd, Msg.status demo_mover.hitpoints demo_mover.powermoves oc.hitpoints)]])) :=
  ⟨demo_battle_reachable,
    ⟨rfl, rfl, rfl, rfl, by simp, by simp, by simp [fixed_oracle, demo_mover]⟩,
    (chat_buffer_bounded demo_battle demo_battle_reachable).2.2.1 200 demo_mover
      (fixed_oracle [] [1001]) (fixed_oracle [] [1001])
      (List.replicate 21 (120, fixed_oracle [] [1001]))
      rfl rfl rfl rfl (by simp) (by simp) (by simp [fixed_oracle, demo_mover])⟩

/-- B, in chat mode from its `s` to its newline, types 21 bytes other than newline and
carriage return, the second of them when the 30 seconds of its turn are over: that byte
only passes the turn, the next nineteen are dropped because B does not hold the turn,
and after the attack of A the newline of B delivers the one stored byte to A.  No
warning and no notice that the message was too long is written. -/
theorem chat_overflow_counterexample :
    Reachable demo_battle ∧ deref demo_battle 200 = some demo_mover ∧
    demo_mover.in_game = true ∧ demo_mover.is_turn = true ∧
    demo_mover.is_messaging = false ∧
    20 < demo_typed.length ∧ (∀ k ∈ demo_typed, k.1 ≠ 10 ∧ k.1 ≠ 13) ∧
    run_writes demo_battle demo_late_chat = some (
      [{ demo_waiter with start_time := 1030, time_left := 30 },
       { demo_mover with hitpoints := 18, start_time := 1032 }],
      [[(5, Msg.speak)], [],
       [(4, Msg.times_up_opponent [66]), (5, Msg.times_up_self), (4, Msg.status 20 1 20)]] ++
      List.replicate 19 [] ++
      [[(4, Msg.you_attacked [66] 2), (5, Msg.attacked_you [65] 2),
        (5, Msg.your_turn 18 1 [65] 20), (4, Msg.waiting_for [66])],
       [(4, Msg.says [66] [104]), (5, Msg.status 18 1 20)]]) :=
  ⟨demo_battle_reachable, rfl, rfl, rfl, rfl, by decide, by simp [demo_typed], rfl⟩

theorem removeclient_eraseP (top : List Client) (fd : Int) :
    removeclient top fd = top.eraseP (fun c => decide (c.fd = fd)) := by
  induction top with
  | nil => rfl
  | cons a rest ih =>
    unfold removeclient
    by_cases h : a.fd = fd
    · rw [if_pos h, List.eraseP_cons_of_pos (by simpa using h)]
    · rw [if_neg h, List.eraseP_cons_of_neg (by simpa using h), ih]

theorem removeclient_split (before after : List Client) (c : Client) (fd : Int)
    (hc : c.fd = fd) (hb : ∀ x ∈ before, x.fd ≠ fd) :
    removeclient (before ++ c :: after) fd = before ++ after := by
  induction before with
  | nil => simp [removeclient, hc]
  | cons a rest ih =>
    have ha : a.fd ≠ fd := hb a (List.mem_cons_self _ _)
    have := ih (fun x hx => hb x (List.mem_cons_of_mem _ hx))
    rw [List.cons_append, List.cons_append]
    unfold removeclient
    rw [if_neg ha, this]

theorem removeclient_absent (top : List Client) (fd : Int) (h : ∀ x ∈ top, x.fd ≠ fd) :
    removeclient top fd = top := by
  induction top with
  | nil => rfl
  | cons a rest ih =>
    simp only [removeclient, if_neg (h a (List.mem_cons_self _ _))]
    rw [ih (fun x hx => h x (List.mem_cons_of_mem _ hx))]

/-- C23: `addclient` links the new record after the last record of the list when the
welcome write succeeds and returns the list as it was when the write fails;
`removeclient` unlinks the first record with the descriptor `fd` and keeps all other
records in their order, and returns the list as it was when no record has that
descriptor. -/
theorem registry_insertion_order :
    (∀ (top : List Client) (fd : Int) (addr : Nat) (junk : Client),
      ∃ n, addclient top fd addr junk true = (top ++ [n], [(fd, Msg.welcome)]) ∧
        n.fd = fd ∧ n.addr = addr ∧ n.name = [] ∧ n.name_entered = false ∧
        n.in_game = false ∧ n.last_opponent = none ∧ n.is_messaging = false ∧
        n.message_length = 0) ∧
    (∀ (top : List Client) (fd : Int) (addr : Nat) (junk : Client),
      addclient top fd addr junk false = (top, [])) ∧
    (∀ (top : List Client) (fd : Int),
      removeclient top fd = top.eraseP (fun c => decide (c.fd = fd))) ∧
    (∀ (before after : List Client) (c : Client) (fd : Int),
      c.fd = fd → (∀ x ∈ before, x.fd ≠ fd) →
      removeclient (before ++ c :: after) fd = before ++ after) ∧
    (∀ (top : List Client) (fd : Int), (∀ x ∈ top, x.fd ≠ fd) →
      removeclient top fd = top) := by
  refine ⟨?_, ?_, removeclient_eraseP, removeclient_split, removeclient_absent⟩
  · intro top fd addr junk
    exact ⟨_, rfl, rfl, rfl, rfl, rfl, rfl, rfl, rfl, rfl⟩
  · intro top fd addr junk
    rfl

theorem registry_insertion_order_witness :
    (demo_mover.fd = 5 ∧ ∀ x ∈ [demo_waiter], x.fd ≠ 5) ∧
    removeclient ([demo_waiter] ++ demo_mover :: [demo_third]) 5 =
      [demo_waiter] ++ [demo_third] :=
  ⟨⟨rfl, by decide⟩,
    registry_insertion_order.2.2.2.1 [demo_waiter] [demo_third] demo_mover 5 rfl
      (by decide)⟩

/-- C22: a byte other than newline, carriage return and NUL from a record without a
confirmed name is appended to the name with no test of its length.  While the name and
its NUL still fit in `char name[20]` the step appends the byte; with 19 bytes already
in the name the `strncat` writes the NUL past the end of the array, and the step has
no defined result: the byte is not refused. -/
theorem name_append_unchecked (top : List Client) (p : Nat) (pc : Client) (b : Nat)
    (o : Oracle) (hd : deref top p = some pc) (hg : pc.in_game = false)
    (hn : pc.name_entered = false) (hb : b ≠ 10 ∧ b ≠ 13 ∧ b ≠ 0) :
    (pc.name.length + 1 < MAX_NAME_LEN →
      main_step top (.ready p (.byte b) o) =
        some (assign top p (fun c => { c with name := c.name ++ [b] }), [])) ∧
    (MAX_NAME_LEN ≤ pc.name.length + 1 →
      main_step top (.ready p (.byte b) o) = none ∧
      main_step top (.ready p (.byte b) o) ≠ some (top, [])) := by
  have hh := handleclient_unnamed b o hd hg hn
  have hnb : name_byte pc top b o =
      if pc.name.length + 1 < MAX_NAME_LEN then
        some (0, assign top pc.addr (fun c => { c with name := c.name ++ [b] }), [])
      else none := by
    unfold name_byte
    rw [if_neg (by rintro (e | e); exact hb.1 e; exact hb.2.1 e), if_pos hg, if_neg hb.2.2]
  constructor
  · intro hlen
    apply main_step_byte
    rw [hh, hnb, if_pos hlen, (deref_some hd).2]
  · intro hlen
    have : main_step top (.ready p (.byte b) o) = none := by
      simp only [main_step, hh, hnb, if_neg (not_lt.2 hlen)]
    exact ⟨this, by rw [this]; simp⟩

theorem demo_long_name_run :
    run [] (.connect 4 100 junk0 true ::
      List.replicate 19 (.ready 100 (.byte 65) (fixed_oracle [] []))) =
      some [demo_long_name] := by rfl

theorem demo_long_name_reachable : Reachable [demo_long_name] :=
  reachable_run _ Reachable.init demo_long_name_run

theorem name_append_unchecked_witness :
    Reachable [demo_long_name] ∧
    (deref [demo_long_name] 100 = some demo_long_name ∧ demo_long_name.in_game = false ∧
      demo_long_name.name_entered = false ∧
      ((65 : Nat) ≠ 10 ∧ (65 : Nat) ≠ 13 ∧ (65 : Nat) ≠ 0) ∧
      MAX_NAME_LEN ≤ demo_long_name.name.length + 1) ∧
    main_step [demo_long_name] (.ready 100 (.byte 65) (fixed_oracle [] [])) = none ∧
    main_step [demo_long_name] (.ready 100 (.byte 65) (fixed_oracle [] [])) ≠
      some ([demo_long_name], []) :=
  ⟨demo_long_name_reachable, ⟨rfl, rfl, rfl, by decide, by decide⟩,
    (name_append_unchecked [demo_long_name] 100 demo_long_name 65 (fixed_oracle [] [])
      rfl rfl rfl (by decide)).2 (by decide)⟩

theorem broadcast_assign {top : List Client} (a : Nat) {f : Client → Client} (m : Msg)
    (hf : ∀ c, (f c).fd = c.fd ∧ (f c).name_entered = c.name_entered) :
    broadcast (assign top a f) m = broadcast top m := by
  induction top with
  | nil => rfl
  | cons x rest ih =>
    have hx : (if x.addr = a then f x else x).fd = x.fd ∧
        (if x.addr = a then f x else x).name_entered = x.name_entered := by
      split_ifs
      · exact hf x
      · exact ⟨rfl, rfl⟩
    have ih1 : broadcast (List.map (fun c => if c.addr = a then f c else c) rest) m =
        broadcast rest m := ih
    simp only [assign, List.map_cons, broadcast, hx.1, hx.2, ih1]

theorem start_match_writes {x y : Nat} {K K1 : List Client} {o o1 : Oracle}
    {w : List Write} (h : start_match x y K o = some (K1, w, o1)) :
    ∀ z ∈ w, ∀ n, z.2 ≠ Msg.left_arena n := by
  unfold start_match at h
  dsimp only at h
  split at h
  · simp only [Option.some.injEq, Prod.mk.injEq] at h
    obtain ⟨-, rfl, -⟩ := h
    intro z hz n
    simp only [List.mem_cons, List.mem_singleton, List.not_mem_nil, or_false, switch_turn]
      at hz
    rcases hz with rfl | rfl | rfl | rfl | rfl | rfl <;> simp
  · simp at h

/-- The writes of the step in which the record at `p` reaches end of file: the
broadcast of its leaving, made when its name is not empty, between writes that are not
such notices. -/
theorem disconnect_writes {top : List Client} (hi : Inv top) {p : Nat} {pc : Client}
    (o : Oracle) (hd : deref top p = some pc) :
    ∃ top1 w0 w3, main_step top (.ready p .eof o) = some (top1,
        w0 ++ (if pc.name = [] then [] else broadcast top (Msg.left_arena pc.name)) ++ w3) ∧
      (∀ z ∈ w0 ++ w3, ∀ n, z.2 ≠ Msg.left_arena n) := by
  have hp := (deref_some hd).1
  cases hg : pc.in_game with
  | false =>
    obtain ⟨-, hdc⟩ := disconnect_idle_spec hi o hd hg
    refine ⟨removeclient top pc.fd, [], [], ?_, by simp⟩
    rw [main_step_eof, hdc, List.nil_append, List.append_nil]
    by_cases hn : pc.name = []
    · simp [hn]
    · rw [if_neg hn, if_pos (List.length_pos.2 hn)]
  | true =>
    obtain ⟨qc, hqc, hdq, hl, hne, hqg, hrem, hdc⟩ := disconnect_forfeit_spec hi o hd hg
    have hn : pc.name ≠ [] := hi.named_nonempty pc hp (hi.battle pc hp hg).1
    have hbc : broadcast (assign top qc.addr
        (fun c => { c with in_game := false, last_opponent := none }))
        (Msg.left_arena pc.name) = broadcast top (Msg.left_arena pc.name) :=
      broadcast_assign _ _ (fun c => ⟨rfl, rfl⟩)
    rw [← main_step_eof, hbc] at hdc
    rw [if_neg hn]
    split at hdc
    · have hdc1 := hdc
      rw [← List.append_nil (_ ++ broadcast top (Msg.left_arena pc.name))] at hdc1
      exact ⟨_, _, _, hdc1, by simp⟩
    · rename_i n hm
      split at hdc
      · have hnR := (matchmaker_some hm).1
        exfalso
        rename_i hs
        have hRn : (((top.filter (fun c => !decide (c.fd = pc.fd))).map
            (fun c => if c.addr = qc.addr then
              ({ c with in_game := false, last_opponent := none } : Client) else c)).map
              Client.addr).Nodup := by
          rw [List.map_map]
          have : (Client.addr ∘ fun c => if c.addr = qc.addr then
              ({ c with in_game := false, last_opponent := none } : Client) else c) =
              Client.addr := by
            funext c; simp only [Function.comp]; split_ifs <;> rfl
          rw [this]
          exact (List.filter_sublist top).map Client.addr |>.nodup hi.nodup_addr
        have hq1 : ({ qc with in_game := false, last_opponent := none } : Client) ∈
            (top.filter (fun c => !decide (c.fd = pc.fd))).map
            (fun c => if c.addr = qc.addr then
              ({ c with in_game := false, last_opponent := none } : Client) else c) :=
          List.mem_map.2 ⟨qc, (mem_remove hi.toCore hp).2
            ⟨hqc, (deref_some hd).2 ▸ hne⟩, if_pos rfl⟩
        obtain ⟨w3, hw3⟩ := start_match_isSome o (deref_of_mem hRn hq1) (deref_of_mem hRn hnR)
        rw [hw3] at hs
        cases hs
      · rename_i top3 w3 o3 hs
        refine ⟨_, _, w3, hdc, ?_⟩
        intro z hz n
        rcases List.mem_append.1 hz with h1 | h1
        · simp only [List.mem_cons, List.mem_singleton, List.not_mem_nil, or_false] at h1
          rcases h1 with rfl | rfl <;> simp
        · exact start_match_writes hs z h1 n

theorem broadcast_all_msg {top : List Client} {m : Msg} :
    (broadcast top m).filter (fun x => decide (x.2 = m)) = broadcast top m := by
  rw [List.filter_eq_self]
  intro x hx
  simpa using (broadcast_msg hx).1

/-- C21 (amended): when the record at `p` reaches end of file, the notice that it has
left the arena is broadcast exactly when its name is not empty, confirmed or not.  No
other such notice is written in the step.  The broadcast runs on the registry in which
the leaving record is still linked: every record with a confirmed name is written the
notice once, the leaving record included when its own name is confirmed, and no
record without a confirmed name is written it. -/
theorem left_arena_notice (top : List Client) (h : Reachable top) (p : Nat) (pc : Client)
    (o : Oracle) (hd : deref top p = some pc) :
    ∃ top1 w, main_step top (.ready p .eof o) = some (top1, w) ∧
      (∀ x ∈ w, ∀ n, x.2 = Msg.left_arena n → n = pc.name ∧ pc.name ≠ []) ∧
      (pc.name ≠ [] →
        w.filter (fun x => decide (x.2 = Msg.left_arena pc.name)) =
          broadcast top (Msg.left_arena pc.name)) ∧
      (pc.name ≠ [] → ∀ c ∈ top, c.name_entered = true →
        w.filter (fun x => decide (x.1 = c.fd) && decide (x.2 = Msg.left_arena pc.name)) =
          [(c.fd, Msg.left_arena pc.name)]) ∧
      (∀ c ∈ top, c.name_entered = false →
        ∀ x ∈ w, x.1 = c.fd → ∀ n, x.2 ≠ Msg.left_arena n) ∧
      (pc.name_entered = true → pc.name ≠ []) ∧
      (∀ n, (Msg.left_arena n).text = cstring n ++ " has left the arena.\n") := by
  have hi := reachable_inv h
  have hp := (deref_some hd).1
  obtain ⟨top1, w0, w3, hstep, hno⟩ := disconnect_writes hi o hd
  have hno0 : ∀ z ∈ w0, ∀ n, z.2 ≠ Msg.left_arena n :=
    fun z hz => hno z (List.mem_append_left _ hz)
  have hno3 : ∀ z ∈ w3, ∀ n, z.2 ≠ Msg.left_arena n :=
    fun z hz => hno z (List.mem_append_right _ hz)
  have hmid : ∀ x ∈ w0 ++ (if pc.name = [] then []
      else broadcast top (Msg.left_arena pc.name)) ++ w3, ∀ n, x.2 = Msg.left_arena n →
      pc.name ≠ [] ∧ x ∈ broadcast top (Msg.left_arena pc.name) := by
    intro x hx n hn
    rcases List.mem_append.1 hx with h1 | h1
    · rcases List.mem_append.1 h1 with h2 | h2
      · exact absurd hn (hno0 x h2 n)
      · by_cases he : pc.name = []
        · rw [if_pos he] at h2; cases h2
        · rw [if_neg he] at h2; exact ⟨he, h2⟩
    · exact absurd hn (hno3 x h1 n)
  have hfilter : pc.name ≠ [] →
      (w0 ++ (if pc.name = [] then [] else broadcast top (Msg.left_arena pc.name)) ++
        w3).filter (fun x => decide (x.2 = Msg.left_arena pc.name)) =
        broadcast top (Msg.left_arena pc.name) := by
    intro hn
    rw [if_neg hn, List.filter_append, List.filter_append, broadcast_all_msg]
    have e0 : w0.filter (fun x => decide (x.2 = Msg.left_arena pc.name)) = [] := by
      rw [List.filter_eq_nil_iff]
      intro x hx
      simpa using hno0 x hx pc.name
    have e3 : w3.filter (fun x => decide (x.2 = Msg.left_arena pc.name)) = [] := by
      rw [List.filter_eq_nil_iff]
      intro x hx
      simpa using hno3 x hx pc.name
    rw [e0, e3, List.nil_append, List.append_nil]
  refine ⟨top1, _, hstep, ?_, hfilter, ?_, ?_, fun hn => hi.named_nonempty pc hp hn,
    fun _ => rfl⟩
  · intro x hx n hn
    obtain ⟨h1, h2⟩ := hmid x hx n hn
    have := (broadcast_msg h2).1
    rw [hn] at this
    exact ⟨Msg.left_arena.inj this, h1⟩
  · intro hn c hc hcn
    rw [← List.filter_filter, hfilter hn]
    exact broadcast_filter_one _ hi.nodup_fd hc (hi.fd_nonneg c hc) hcn
  · intro c hc hcn x hx hfd n hn
    obtain ⟨-, h2⟩ := hmid x hx n hn
    obtain ⟨-, c1, hc1, hc1n, e⟩ := broadcast_msg h2
    have := hi.eq_of_fd hc1 hc (e.symm.trans hfd)
    subst this
    rw [hcn] at hc1n
    cases hc1n

theorem left_arena_notice_witness :
    Reachable demo_trio ∧ deref demo_trio 100 = some demo_waiter ∧
    ∃ top1 w, main_step demo_trio (.ready 100 .eof demo_oracle) = some (top1, w) ∧
      (∀ x ∈ w, ∀ n, x.2 = Msg.left_arena n → n = demo_waiter.name ∧ demo_waiter.name ≠ []) ∧
      (demo_waiter.name ≠ [] →
        w.filter (fun x => decide (x.2 = Msg.left_arena demo_waiter.name)) =
          broadcast demo_trio (Msg.left_arena demo_waiter.name)) ∧
      (demo_waiter.name ≠ [] → ∀ c ∈ demo_trio, c.name_entered = true →
        w.filter (fun x =>
            decide (x.1 = c.fd) && decide (x.2 = Msg.left_arena demo_waiter.name)) =
          [(c.fd, Msg.left_arena demo_waiter.name)]) ∧
      (∀ c ∈ demo_trio, c.name_entered = false →
        ∀ x ∈ w, x.1 = c.fd → ∀ n, x.2 ≠ Msg.left_arena n) ∧
      (demo_waiter.name_entered = true → demo_waiter.name ≠ []) ∧
      (∀ n, (Msg.left_arena n).text = cstring n ++ " has left the arena.\n") :=
  ⟨demo_trio_reachable, rfl,
    left_arena_notice demo_trio demo_trio_reachable 100 demo_waiter demo_oracle rfl⟩

/-- A player that has typed one byte of its name and not confirmed it leaves: the
notice is broadcast.  A player with a confirmed name leaves: the notice is also written
to its own descriptor. -/
theorem left_arena_counterexample :
    (Reachable demo_typing ∧ deref demo_typing 300 = some demo_typist ∧
      demo_typist.name_entered = false ∧
      main_step demo_typing (.ready 300 .eof (fixed_oracle [] [])) =
        some (demo_battle, [(4, Msg.left_arena [67]), (5, Msg.left_arena [67])])) ∧
    (Reachable demo_rest ∧ deref demo_rest 100 = some demo_beaten ∧
      demo_beaten.name_entered = true ∧ demo_beaten.fd = 4 ∧
      main_step demo_rest (.ready 100 .eof (fixed_oracle [] [])) =
        some ([demo_winner], [(4, Msg.left_arena [65]), (5, Msg.left_arena [65])])) :=
  ⟨⟨demo_typing_reachable, rfl, rfl, rfl⟩, ⟨demo_rest_reachable, rfl, rfl, rfl, rfl⟩⟩

theorem key_assign {top K : List Client} (hK : K.map chat_key = top.map chat_key) (a : Nat)
    {f : Client → Client} (hf : ∀ c, chat_key (f c) = chat_key c) :
    (assign K a f).map chat_key = top.map chat_key := by
  rw [← hK]
  simp only [assign, List.map_map]
  apply List.map_congr_left
  intro c _
  simp only [Function.comp]
  split_ifs
  · exact hf c
  · rfl

theorem key_start_match {top K K1 : List Client} {x y : Nat} {o o1 : Oracle}
    {w : List Write} (hK : K.map chat_key = top.map chat_key)
    (hres : start_match x y K o = some (K1, w, o1)) :
    K1.map chat_key = top.map chat_key := by
  obtain ⟨rfl, -⟩ := start_match_eq hres
  rw [← hK, List.map_map]
  apply List.map_congr_left
  intro c _
  simp only [Function.comp, match_upd, begin_battle, init_battle, chat_key]
  split_ifs <;> rfl

theorem key_rematch {top K K1 : List Client} {x : Nat} {o o1 : Oracle} {w : List Write}
    (hK : K.map chat_key = top.map chat_key)
    (hres : rematch x K o = some (K1, w, o1)) : K1.map chat_key = top.map chat_key := by
  unfold rematch at hres
  split at hres
  · simp at hres
  · split at hres
    · exact key_start_match hK hres
    · simp only [Option.some.injEq, Prod.mk.injEq] at hres
      obtain ⟨rfl, -⟩ := hres
      exact hK

theorem timeout_switch_key {top top1 : List Client} {pc : Client} {now ret : Int}
    {w : List Write}
    (hres : timeout_switch pc top now = some (ret, top1, w)) :
    top1.map chat_key = top.map chat_key := by
  have h0 : top.map chat_key = top.map chat_key := rfl
  unfold timeout_switch at hres
  dsimp only at hres
  repeat' split at hres
  all_goals first
    | (simp at hres; done)
    | (simp only [Option.some.injEq, Prod.mk.injEq] at hres
       obtain ⟨-, rfl, -⟩ := hres
       repeat' first
         | exact h0
         | apply key_assign
         | exact fun c => rfl)

theorem end_battle_key {top K top1 : List Client} {p oa : Nat} {won : Bool} {o : Oracle}
    {w : List Write} (hK : K.map chat_key = top.map chat_key)
    (hres : end_battle p oa K won o = some (top1, w)) :
    top1.map chat_key = top.map chat_key := by
  unfold end_battle at hres
  dsimp only at hres
  split at hres
  · split at hres
    · simp at hres
    · rename_i K5 w5 o5 h5
      split at hres
      · simp at hres
      · rename_i K6 w6 o6 h6
        simp only [Option.some.injEq, Prod.mk.injEq] at hres
        obtain ⟨rfl, -⟩ := hres
        have hK4 := key_assign (key_assign (key_assign (key_assign hK p
          (fun c => (rfl : chat_key ({ c with in_game := false } : Client) = chat_key c))) oa
          (fun c => (rfl : chat_key ({ c with in_game := false } : Client) = chat_key c))) p
          (fun c => (rfl :
            chat_key ({ c with last_opponent := some oa } : Client) = chat_key c))) oa
          (fun c => (rfl :
            chat_key ({ c with last_opponent := some p } : Client) = chat_key c))
        have hK6 := key_rematch (key_rematch hK4 h5) h6
        repeat' first
          | exact hK6
          | apply key_assign
          | exact fun c => rfl
  · simp at hres

theorem attack_key {top top1 : List Client} {pc : Client} {b : Nat} {o : Oracle}
    {ret : Int} {w : List Write}
    (hres : attack pc top b o = some (ret, top1, w)) :
    top1.map chat_key = top.map chat_key := by
  have h0 : top.map chat_key = top.map chat_key := rfl
  have h1 : (if b = 97 then top else assign top pc.addr
      (fun c => { c with powermoves := c.powermoves - 1 })).map chat_key =
      top.map chat_key := by
    split_ifs
    · exact h0
    · apply key_assign h0
      exact fun c => rfl
  unfold attack at hres
  dsimp only at hres
  repeat' split at hres
  all_goals first
    | (simp at hres; done)
    | (simp only [Option.some.injEq, Prod.mk.injEq] at hres
       obtain ⟨-, rfl, -⟩ := hres
       first
       | exact h0
       | (refine end_battle_key ?_ (by assumption)
          repeat' first
            | exact h0
            | exact h1
            | apply key_assign
            | exact fun c => rfl)
       | (repeat' first
            | exact h0
            | exact h1
            | apply key_assign
            | exact fun c => rfl))

theorem chat_byte_key {top top1 : List Client} {pc : Client} {b : Nat} {ret : Int}
    {w : List Write} (hres : chat_byte pc top b = some (ret, top1, w)) :
    top1 = top ∨ ∃ f : Client → Client, (∀ c, (f c).addr = c.addr) ∧
      top1 = assign top pc.addr f := by
  unfold chat_byte at hres
  dsimp only at hres
  repeat' split at hres
  all_goals first
    | (simp at hres; done)
    | (simp only [Option.some.injEq, Prod.mk.injEq] at hres
       obtain ⟨-, rfl, -⟩ := hres
       first
       | exact Or.inl rfl
       | (refine Or.inr ⟨_, ?_, rfl⟩
          exact fun c => rfl))

theorem command_byte_key {top top1 : List Client} {pc : Client} {b : Nat} {o : Oracle}
    {ret : Int} {w : List Write}
    (hres : command_byte pc top b o = some (ret, top1, w)) :
    top1.map chat_key = top.map chat_key ∨
      ((pc.is_messaging = true ∨ b = 115) ∧
        ∃ f : Client → Client, (∀ c, (f c).addr = c.addr) ∧ top1 = assign top pc.addr f) := by
  unfold command_byte at hres
  split at hres
  · rename_i hm
    rcases chat_byte_key hres with rfl | hf
    · exact Or.inl rfl
    · exact Or.inr ⟨Or.inl hm, hf⟩
  · split at hres
    · repeat' split at hres
      all_goals first
        | (simp at hres; done)
        | (simp only [Option.some.injEq, Prod.mk.injEq] at hres
           obtain ⟨-, rfl, -⟩ := hres
           exact Or.inl rfl)
    · split at hres
      · rename_i hs
        simp only [Option.some.injEq, Prod.mk.injEq] at hres
        obtain ⟨-, rfl, -⟩ := hres
        refine Or.inr ⟨Or.inr hs.1, _, ?_, rfl⟩
        exact fun c => rfl
      · split at hres
        · exact Or.inl (attack_key hres)
        · simp only [Option.some.injEq, Prod.mk.injEq] at hres
          obtain ⟨-, rfl, -⟩ := hres
          exact Or.inl rfl

theorem name_byte_key {top top1 : List Client} {pc : Client} {b : Nat} {o : Oracle}
    {ret : Int} {w : List Write}
    (hres : name_byte pc top b o = some (ret, top1, w)) :
    top1.map chat_key = top.map chat_key := by
  have h0 : top.map chat_key = top.map chat_key := rfl
  have h1 : (assign top pc.addr (fun c => { c with name_entered := true })).map chat_key =
      top.map chat_key := by
    apply key_assign h0
    exact fun c => rfl
  unfold name_byte at hres
  dsimp only at hres
  repeat' split at hres
  all_goals first
    | (simp at hres; done)
    | (simp only [Option.some.injEq, Prod.mk.injEq] at hres
       obtain ⟨-, rfl, -⟩ := hres
       first
       | exact h0
       | exact h1
       | exact key_start_match h1 (by assumption)
       | (repeat' first
            | exact h0
            | apply key_assign
            | exact fun c => rfl))

/-- What `handleclient` does to the chat sub-states: nothing, unless the byte is a chat
command of the record at `p`, which changes that record only. -/
theorem handleclient_key {top top1 : List Client} {p : Nat} {r : ReadResult} {o : Oracle}
    {ret : Int} {w : List Write}
    (hres : handleclient p top r o = some (ret, top1, w)) :
    top1.map chat_key = top.map chat_key ∨
      ((∃ b, r = .byte b ∧ chat_command top p (.ready p (.byte b) o) = true) ∧
        ∃ f : Client → Client, (∀ c, (f c).addr = c.addr) ∧ top1 = assign top p f) := by
  cases hd : deref top p with
  | none => simp [handleclient, hd] at hres
  | some pc =>
    have hpa := (deref_some hd).2
    cases r with
    | eof =>
      simp only [handleclient, hd, Option.some.injEq, Prod.mk.injEq] at hres
      obtain ⟨-, rfl, -⟩ := hres
      exact Or.inl rfl
    | error =>
      simp only [handleclient, hd, Option.some.injEq, Prod.mk.injEq] at hres
      obtain ⟨-, rfl, -⟩ := hres
      exact Or.inl rfl
    | byte b =>
      cases hg : pc.in_game with
      | false =>
        cases hn : pc.name_entered with
        | false =>
          rw [handleclient_unnamed b o hd hg hn] at hres
          exact Or.inl (name_byte_key hres)
        | true =>
          have hres2 : some ((0 : Int), top, ([] : List Write)) = some (ret, top1, w) := by
            rw [← hres]; simp [handleclient, hd, hg, hn]
          simp only [Option.some.injEq, Prod.mk.injEq] at hres2
          obtain ⟨-, rfl, -⟩ := hres2
          exact Or.inl rfl
      | true =>
        cases ht : pc.is_turn with
        | false =>
          have hres2 : some ((0 : Int), top, ([] : List Write)) = some (ret, top1, w) := by
            rw [← hres]; simp [handleclient, hd, hg, ht, battle_byte]
          simp only [Option.some.injEq, Prod.mk.injEq] at hres2
          obtain ⟨-, rfl, -⟩ := hres2
          exact Or.inl rfl
        | true =>
          rw [handleclient_turn b o hd hg ht] at hres
          split_ifs at hres with hto
          · exact Or.inl (timeout_switch_key hres)
          · rcases command_byte_key hres with h1 | ⟨hm, hf⟩
            · exact Or.inl h1
            · refine Or.inr ⟨⟨b, rfl, ?_⟩, hpa ▸ hf⟩
              have hlt : o.time 0 - pc.start_time < pc.time_left := not_le.1 hto
              rcases hm with hm | hm
              · simp [chat_command, hd, hg, ht, hlt, hm]
              · simp [chat_command, hd, hg, ht, hlt, hm]

theorem key_deref {K1 K : List Client} (h : K1.map chat_key = K.map chat_key) {p : Nat}
    {c : Client} (hd : deref K p = some c) :
    ∃ c1, deref K1 p = some c1 ∧ SameChat c c1 := by
  induction K1 generalizing K with
  | nil =>
    cases K with
    | nil => simp [deref] at hd
    | cons a rest => simp at h
  | cons a1 rest1 ih =>
    cases K with
    | nil => simp at h
    | cons a rest =>
      simp only [List.map_cons, List.cons.injEq] at h
      obtain ⟨hk, hr⟩ := h
      simp only [chat_key, Prod.mk.injEq] at hk
      obtain ⟨e1, e2, e3, e4⟩ := hk
      simp only [deref, List.find?_cons] at hd ⊢
      rw [e1]
      cases hq : (a.addr == p) with
      | true =>
        rw [hq] at hd
        simp only [Option.some.injEq] at hd
        subst hd
        exact ⟨a1, rfl, e2, e3, e4⟩
      | false =>
        rw [hq] at hd
        exact ih hr hd

theorem deref_filter_fd {top : List Client} (hi : Core top) {p : Nat} {c q : Client}
    (hd : deref top p = some c) (hq : q ∈ top) (hne : q.addr ≠ p) :
    deref (top.filter (fun x => !decide (x.fd = q.fd))) p = some c := by
  have hc := (deref_some hd).1
  have hca := (deref_some hd).2
  have hmem : c ∈ top.filter (fun x => !decide (x.fd = q.fd)) := by
    rw [List.mem_filter]
    refine ⟨hc, ?_⟩
    have : c.fd ≠ q.fd := fun e => hne ((congrArg Client.addr (hi.eq_of_fd hq hc e.symm)).trans hca)
    simpa using this
  have hn : ((top.filter (fun x => !decide (x.fd = q.fd))).map Client.addr).Nodup :=
    (List.filter_sublist top).map Client.addr |>.nodup hi.nodup_addr
  rw [← hca]
  exact deref_of_mem hn hmem

/-- What `disconnect_client` does to the chat sub-states of the records that stay. -/
theorem disconnect_key {top : List Client} (hi : Inv top) {p : Nat} {pc : Client}
    (o : Oracle) (hd : deref top p = some pc) :
    ∃ top1 w, disconnect_client p top o = some (top1, w) ∧
      top1.map chat_key = (removeclient top pc.fd).map chat_key := by
  have hp := (deref_some hd).1
  cases hg : pc.in_game with
  | false =>
    obtain ⟨-, hdc⟩ := disconnect_idle_spec hi o hd hg
    exact ⟨_, _, hdc, rfl⟩
  | true =>
    obtain ⟨qc, hqc, hdq, hl, hne, hqg, hrem, hdc⟩ := disconnect_forfeit_spec hi o hd hg
    have hR : ((top.filter (fun c => !decide (c.fd = pc.fd))).map
        (fun c => if c.addr = qc.addr then
          ({ c with in_game := false, last_opponent := none } : Client) else c)).map chat_key =
        (removeclient top pc.fd).map chat_key := by
      rw [removeclient_eq_filter hi.nodup_fd hp, List.map_map]
      apply List.map_congr_left
      intro c _
      simp only [Function.comp]
      split_ifs <;> rfl
    split at hdc
    · exact ⟨_, _, hdc, hR⟩
    · rename_i n hm
      split at hdc
      · have hnR := (matchmaker_some hm).1
        exfalso
        rename_i hs
        have hRn : (((top.filter (fun c => !decide (c.fd = pc.fd))).map
            (fun c => if c.addr = qc.addr then
              ({ c with in_game := false, last_opponent := none } : Client) else c)).map
              Client.addr).Nodup := by
          rw [List.map_map]
          have : (Client.addr ∘ fun c => if c.addr = qc.addr then
              ({ c with in_game := false, last_opponent := none } : Client) else c) =
              Client.addr := by
            funext c; simp only [Function.comp]; split_ifs <;> rfl
          rw [this]
          exact (List.filter_sublist top).map Client.addr |>.nodup hi.nodup_addr
        have hq1 : ({ qc with in_game := false, last_opponent := none } : Client) ∈
            (top.filter (fun c => !decide (c.fd = pc.fd))).map
            (fun c => if c.addr = qc.addr then
              ({ c with in_game := false, last_opponent := none } : Client) else c) :=
          List.mem_map.2 ⟨qc, (mem_remove hi.toCore hp).2
            ⟨hqc, (deref_some hd).2 ▸ hne⟩, if_pos rfl⟩
        obtain ⟨w3, hw3⟩ := start_match_isSome o (deref_of_mem hRn hq1) (deref_of_mem hRn hnR)
        rw [hw3] at hs
        cases hs
      · rename_i top3 w3 o3 hs
        exact ⟨_, _, hdc, key_start_match hR hs⟩

theorem handleclient_byte_ret {top top1 : List Client} {p : Nat} {b : Nat} {o : Oracle}
    {ret : Int} {w : List Write}
    (hres : handleclient p top (.byte b) o = some (ret, top1, w)) : ret = 0 := by
  unfold handleclient at hres
  split at hres
  · simp at hres
  · dsimp only at hres
    repeat' split at hres
    all_goals first
      | exact battle_byte_ret hres
      | exact name_byte_ret hres
      | (simp only [Option.some.injEq, Prod.mk.injEq] at hres; exact hres.1.symm)

theorem same_chat_trans {a b c : Client} (h1 : SameChat a b) (h2 : SameChat b c) :
    SameChat a c :=
  ⟨h2.1.trans h1.1, h2.2.1.trans h1.2.1, h2.2.2.trans h1.2.2⟩

/-- One event of the loop that is neither a chat command of the record at `p` nor its
end of file leaves that record linked, with its chat sub-state. -/
theorem main_step_same_chat {top top1 : List Client} (hi : Inv top) {e : Event}
    {w : List Write} (hres : main_step top e = some (top1, w)) {p : Nat} {c : Client}
    (hd : deref top p = some c) (hq : chat_command top p e = false)
    (hu : hangs_up p e = false) :
    ∃ c1, deref top1 p = some c1 ∧ SameChat c c1 := by
  cases e with
  | connect fd addr junk ok =>
    simp only [main_step] at hres
    split_ifs at hres with hc
    simp only [Option.some.injEq] at hres
    unfold addclient at hres
    dsimp only at hres
    split_ifs at hres
    · simp only [Prod.mk.injEq] at hres
      obtain ⟨rfl, -⟩ := hres
      refine ⟨c, ?_, rfl, rfl, rfl⟩
      unfold deref at hd ⊢
      rw [List.find?_append, hd]
      rfl
    · simp only [Prod.mk.injEq] at hres
      obtain ⟨rfl, -⟩ := hres
      exact ⟨c, hd, rfl, rfl, rfl⟩
  | ready q r o =>
    cases r with
    | eof =>
      have hne : q ≠ p := by simpa [hangs_up] using hu
      rw [main_step_eof] at hres
      cases hdq : deref top q with
      | none => simp [disconnect_client, hdq] at hres
      | some qc =>
        obtain ⟨top2, w2, hdc, hkey⟩ := disconnect_key hi o hdq
        rw [hdc] at hres
        simp only [Option.some.injEq, Prod.mk.injEq] at hres
        obtain ⟨rfl, -⟩ := hres
        have hqm := (deref_some hdq).1
        rw [removeclient_eq_filter hi.nodup_fd hqm] at hkey
        have hqa : qc.addr ≠ p := by rw [(deref_some hdq).2]; exact hne
        exact key_deref hkey (deref_filter_fd hi.toCore hd hqm hqa)
    | error =>
      cases hdq : deref top q with
      | none => simp [main_step, handleclient, hdq] at hres
      | some qc =>
        simp only [main_step, handleclient, hdq] at hres
        simp only [Int.reduceNeg, zero_eq_neg, one_ne_zero, if_false, Option.some.injEq,
          Prod.mk.injEq] at hres
        obtain ⟨rfl, -⟩ := hres
        exact ⟨c, hd, rfl, rfl, rfl⟩
    | byte b =>
      cases hh : handleclient q top (.byte b) o with
      | none => simp [main_step, hh] at hres
      | some res =>
        obtain ⟨ret, K, w1⟩ := res
        have hret := handleclient_byte_ret hh
        subst hret
        rw [main_step_byte hh] at hres
        simp only [Option.some.injEq, Prod.mk.injEq] at hres
        obtain ⟨rfl, -⟩ := hres
        rcases handleclient_key hh with hk | ⟨⟨b1, hb1, hcc⟩, f, hf, rfl⟩
        · exact key_deref hk hd
        · cases hb1
          have hne : p ≠ q := by
            rintro rfl
            rw [hq] at hcc
            cases hcc
          exact ⟨c, deref_assign_other hf hd hne, rfl, rfl, rfl⟩

/-- A run of the loop without a chat command or the end of file of the record at `p`
leaves that record linked, with its chat sub-state. -/
theorem run_same_chat {top : List Client} (hi : Inv top) (evs : List Event)
    {top1 : List Client} (hr : run top evs = some top1) {p : Nat} {c : Client}
    (hd : deref top p = some c) (hq : quiet p top evs = true) :
    ∃ c1, deref top1 p = some c1 ∧ SameChat c c1 := by
  induction evs generalizing top c with
  | nil =>
    simp only [run, Option.some.injEq] at hr
    subst hr
    exact ⟨c, hd, rfl, rfl, rfl⟩
  | cons e es ih =>
    simp only [run] at hr
    cases hs : main_step top e with
    | none => rw [hs] at hr; cases hr
    | some res =>
      obtain ⟨K, w⟩ := res
      rw [hs] at hr
      simp only [quiet, hs, Bool.and_eq_true, Bool.not_eq_true'] at hq
      obtain ⟨⟨h1, h2⟩, h3⟩ := hq
      obtain ⟨c1, hd1, hs1⟩ := main_step_same_chat hi hs hd h1 h2
      obtain ⟨c2, hd2, hs2⟩ := ih (main_step_inv hi hs) hr hd1 h3
      exact ⟨c2, hd2, same_chat_trans hs1 hs2⟩

/-- C24: the chat sub-state of a record (`is_messaging`, `message`, `message_length`) is
changed only by the chat commands.  The forced turn switch, `start_match` and
`disconnect_client` (its forfeit path included) leave the chat sub-state of every
record that stays linked as it was.  For a record `c` linked at `p` in a reachable
registry: an event that is neither a chat command of `p` nor its end of file leaves the
record linked with the same chat sub-state, and so does every run of such events.  A
chat command of `p` needs `p` to be in a game and to hold the turn, so the record has
the same flag, buffer and count when it next holds a turn, in the same battle or in
its next one. -/
theorem chat_state_persists (top : List Client) (h : Reachable top) (p : Nat) (c : Client)
    (hd : deref top p = some c) :
    (∀ (K : List Client) (pc : Client) (now ret : Int) (K1 : List Client) (w : List Write),
      timeout_switch pc K now = some (ret, K1, w) → K1.map chat_key = K.map chat_key) ∧
    (∀ (K : List Client) (x y : Nat) (o o1 : Oracle) (K1 : List Client) (w : List Write),
      start_match x y K o = some (K1, w, o1) → K1.map chat_key = K.map chat_key) ∧
    (∀ o, ∃ top1 w, disconnect_client p top o = some (top1, w) ∧
      top1.map chat_key = (removeclient top c.fd).map chat_key) ∧
    (∀ e top1 w, main_step top e = some (top1, w) → chat_command top p e = false →
      hangs_up p e = false →
      ∃ c1, deref top1 p = some c1 ∧ c1.is_messaging = c.is_messaging ∧
        c1.message = c.message ∧ c1.message_length = c.message_length) ∧
    (∀ evs top1, run top evs = some top1 → quiet p top evs = true →
      ∃ c1, deref top1 p = some c1 ∧ c1.is_messaging = c.is_messaging ∧
        c1.message = c.message ∧ c1.message_length = c.message_length) ∧
    (∀ e, chat_command top p e = true → c.in_game = true ∧ c.is_turn = true) := by
  have hi := reachable_inv h
  refine ⟨fun K pc now ret K1 w hres => timeout_switch_key hres,
    fun K x y o o1 K1 w hres => key_start_match rfl hres,
    fun o => disconnect_key hi o hd,
    fun e top1 w hres hq hu => main_step_same_chat hi hres hd hq hu,
    fun evs top1 hr hq => run_same_chat hi evs hr hd hq, ?_⟩
  intro e he
  cases e with
  | connect fd addr junk ok => simp [chat_command] at he
  | ready q r o =>
    cases r with
    | eof => simp [chat_command] at he
    | error => simp [chat_command] at he
    | byte b =>
      simp only [chat_command, hd, Bool.and_eq_true] at he
      exact ⟨he.2.1.1.1, he.2.1.1.2⟩

theorem demo_chat_trio_run :
    run demo_trio (keystrokes 200 [(115, fixed_oracle [] [1001]),
      (104, fixed_oracle [] [1001])]) = some demo_chat_trio := by rfl

theorem demo_chat_trio_reachable : Reachable demo_chat_trio :=
  reachable_run _ demo_trio_reachable demo_chat_trio_run

theorem chat_state_persists_witness :
    (Reachable demo_chat_trio ∧ deref demo_chat_trio 200 = some demo_chatter ∧
      demo_chatter.is_messaging = true ∧ quiet 200 demo_chat_trio demo_drop = true ∧
      run demo_chat_trio demo_drop = some demo_next) ∧
    (∀ (K : List Client) (pc : Client) (now ret : Int) (K1 : List Client) (w : List Write),
      timeout_switch pc K now = some (ret, K1, w) → K1.map chat_key = K.map chat_key) ∧
    (∀ (K : List Client) (x y : Nat) (o o1 : Oracle) (K1 : List Client) (w : List Write),
      start_match x y K o = some (K1, w, o1) → K1.map chat_key = K.map chat_key) ∧
    (∀ o, ∃ top1 w, disconnect_client 200 demo_chat_trio o = some (top1, w) ∧
      top1.map chat_key = (removeclient demo_chat_trio demo_chatter.fd).map chat_key) ∧
    (∀ e top1 w, main_step demo_chat_trio e = some (top1, w) →
      chat_command demo_chat_trio 200 e = false → hangs_up 200 e = false →
      ∃ c1, deref top1 200 = some c1 ∧ c1.is_messaging = demo_chatter.is_messaging ∧
        c1.message = demo_chatter.message ∧
        c1.message_length = demo_chatter.message_length) ∧
    (∀ evs top1, run demo_chat_trio evs = some top1 → quiet 200 demo_chat_trio evs = true →
      ∃ c1, deref top1 200 = some c1 ∧ c1.is_messaging = demo_chatter.is_messaging ∧
        c1.message = demo_chatter.message ∧
        c1.message_length = demo_chatter.message_length) ∧
    (∀ e, chat_command demo_chat_trio 200 e = true →
      demo_chatter.in_game = true ∧ demo_chatter.is_turn = true) :=
  ⟨⟨demo_chat_trio_reachable, rfl, rfl, rfl, rfl⟩,
    chat_state_persists demo_chat_trio demo_chat_trio_reachable 200 demo_chatter rfl⟩

/-- C2: `matchmaker` returns exactly the first record, in registry order, that meets the
five matching conditions for the player, and it returns none exactly when no record
of the registry meets them. -/
theorem matchmaker_first_eligible (top : List Client) (player : Client) :
    (∀ c, matchmaker top player = some c ↔
      ∃ before after, top = before ++ c :: after ∧ Eligible player c ∧
        ∀ x ∈ before, ¬ Eligible player x) ∧
    (matchmaker top player = none ↔ ∀ x ∈ top, ¬ Eligible player x) := by
  refine ⟨fun c => ?_, matchmaker_none⟩
  rw [matchmaker_eq_find, List.find?_eq_some]
  constructor
  · rintro ⟨hc, before, after, rfl, hb⟩
    exact ⟨before, after, rfl, by simpa using hc, fun x hx => by simpa using hb x hx⟩
  · rintro ⟨before, after, rfl, hc, hb⟩
    exact ⟨by simpa using hc, before, after, rfl, fun x hx => by simpa using hb x hx⟩

end Battle
